import Mathlib

/-!
# ft::vector — a shallow embedding of `vector.hpp` and `utils.hpp`

The container owns a buffer of `_capacity` slots of which the first `_size`
are live.  A buffer is a list of slots; a slot is `none` while it holds raw,
unconstructed storage and `some x` once an element has been constructed in it.
Iterators are offsets from `begin()`.

`size_type` is `std::size_t`: its arithmetic wraps modulo `2 ^ 64`.

The allocator is the external collaborator of the container.  It is modelled
by the state below: `allocate n` throws when `n` exceeds `max_size`, and also
once the `refuseAfter` budget of blocks is used up (`none`: every request up
to `max_size` is granted), and `construct` runs the element's copy
constructor, which throws once the `failAfter` budget is used up (`none`: it
never throws).  Four counters record the calls made, and `leaked` counts the
elements that were still constructed in a block when it was deallocated.
-/

namespace ft

/-! ## Machine integers -/

/-- The modulus of `size_type` arithmetic. -/
def SIZE_MODULUS : Nat := 2 ^ 64

/-- Addition of two `size_type` values. -/
def size_add (x y : Nat) : Nat := (x + y) % SIZE_MODULUS

/-- Subtraction of two `size_type` values (unsigned, wrapping). -/
def size_sub (x y : Nat) : Nat := (x + (SIZE_MODULUS - y % SIZE_MODULUS)) % SIZE_MODULUS

/-- The shift `x << 1` on `size_type`. -/
def size_shl1 (x : Nat) : Nat := (2 * x) % SIZE_MODULUS

/-! ## Outcomes -/

/-- The exceptions the container and its collaborators throw. -/
inductive Exn where
  | out_of_range
  | length_error
  | bad_alloc
  | element_failure
  deriving DecidableEq, Repr

/-- How a call ends: it returns a value, it throws, or it has left defined behaviour
(a slot outside the allocation was touched, or a slot that holds no element was read). -/
inductive Outcome (R : Type) where
  | returned (r : R)
  | threw (e : Exn)
  | undefined
  deriving DecidableEq, Repr

/-! ## Storage and the allocator -/

/-- A buffer obtained from `allocate`: one entry per slot. -/
abbrev Buffer (T : Type) := List (Option T)

/-- The value read from slot `i` of a buffer: `none` when the slot lies outside the
allocation or holds no constructed element. -/
def load {T : Type} (p : Buffer T) (i : Nat) : Option T :=
  match p[i]? with
  | some s => s
  | none => none

/-- The number of slots of a buffer that hold a constructed element. -/
def live {T : Type} : Buffer T → Nat
  | [] => 0
  | none :: p => live p
  | some _ :: p => live p + 1

/-- State of the allocator collaborator. -/
structure Allocator where
  max_size : Nat
  allocations : Nat
  deallocations : Nat
  constructions : Nat
  destructions : Nat
  failAfter : Option Nat
  refuseAfter : Option Nat
  leaked : Nat
  deriving DecidableEq, Repr

namespace Allocator

/-- The call `allocate(n)`: throws `std::bad_alloc` (`none`) when `n > max_size()`, and when
the allocator has no block left to grant; else it hands out `n` raw slots. -/
def allocate {T : Type} (a : Allocator) (n : Nat) : Option (Allocator × Buffer T) :=
  if n > a.max_size ∨ a.refuseAfter = some 0 then none
  else some ({ a with allocations := a.allocations + 1,
                      refuseAfter := a.refuseAfter.map (fun k => k - 1) },
             List.replicate n none)

/-- The call `deallocate(p, n)` on the block `p`: the elements still constructed in the block
are lost with it. -/
def deallocate {T : Type} (a : Allocator) (p : Buffer T) : Allocator :=
  { a with deallocations := a.deallocations + 1, leaked := a.leaked + live p }

/-- The call `construct(p + idx, val)`, where `val` is the value read for the source object. -/
def construct {T : Type} (a : Allocator) (p : Buffer T) (idx : Nat) (val : Option T) :
    Allocator × Buffer T × Outcome Unit :=
  match val with
  | none => (a, p, .undefined)
  | some x =>
    if a.failAfter = some 0 then (a, p, .threw .element_failure)
    else if idx < p.length then
      ({ a with constructions := a.constructions + 1,
                failAfter := a.failAfter.map (fun k => k - 1) },
        p.set idx (some x), .returned ())
    else (a, p, .undefined)

/-- The call `destroy(p + idx)`; `none` when the slot lies outside the allocation. -/
def destroy {T : Type} (a : Allocator) (p : Buffer T) (idx : Nat) : Option (Allocator × Buffer T) :=
  if idx < p.length then
    some ({ a with destructions := a.destructions + 1 }, p.set idx none)
  else none

end Allocator

/-! ## Loops over a buffer under construction -/

/-- State of a `try` block that fills the new buffer `tmp`; `i` is the loop counter,
which the handler reads. -/
structure Build (T : Type) where
  alloc : Allocator
  tmp : Buffer T
  i : Nat
  status : Outcome Unit
  deriving DecidableEq, Repr

/-- One statement `construct(tmp + idx, val)` inside the `try` block (the counter `i` stays). -/
def constructStep {T : Type} (idx : Nat) (val : Option T) (b : Build T) : Build T :=
  match b.status with
  | .returned _ =>
    match b.alloc.construct b.tmp idx val with
    | (a, p, st) => { alloc := a, tmp := p, i := b.i, status := st }
  | _ => b

/-- The loop `for (; i < i + n; ++i) construct(tmp + dst i, src i)`: `n` is the number of
iterations left, `stop - i` at the call site for a loop `for (; i < stop; ++i)`. -/
def constructLoop {T : Type} (dst : Nat → Nat) (src : Nat → Option T) : Nat → Build T → Build T
  | 0, b => b
  | n + 1, b =>
    match b.status with
    | .returned _ =>
      match b.alloc.construct b.tmp (dst b.i) (src b.i) with
      | (a, p, .returned _) =>
        constructLoop dst src n { alloc := a, tmp := p, i := b.i + 1, status := .returned () }
      | (a, p, st) => { alloc := a, tmp := p, i := b.i, status := st }
    | _ => b

/-- The loop `for (; i < i + n; ++i) destroy(p + i)`. -/
def destroyLoop {T : Type} : Nat → Allocator → Buffer T → Nat → Option (Allocator × Buffer T)
  | 0, a, p, _ => some (a, p)
  | n + 1, a, p, i =>
    match a.destroy p i with
    | none => none
    | some (a1, p1) => destroyLoop n a1 p1 (i + 1)

/-- The handler loop `for (; i > 0; --i) destroy(tmp + i - 1)`. -/
def unwindLoop {T : Type} : Nat → Allocator → Buffer T → Option (Allocator × Buffer T)
  | 0, a, p => some (a, p)
  | i + 1, a, p =>
    match a.destroy p i with
    | none => none
    | some (a1, p1) => unwindLoop i a1 p1

/-- An argument of type `const T&`: a reference to an object that lies outside the buffer of
the vector, or to the element at an offset of the buffer that `_data` points to when the
call is made (as in `v.push_back(v[0])`). -/
inductive Ref (T : Type) where
  | outside (x : T)
  | element (pos : Nat)
  deriving DecidableEq, Repr

/-- The object read through a reference.  `old` is the buffer that `_data` pointed to when
the call was made, `none` once that buffer has been destroyed and deallocated: reading an
element of it then yields no object. -/
def Ref.read {T : Type} : Ref T → Option (Buffer T) → Option T
  | .outside x, _ => some x
  | .element pos, some p => load p pos
  | .element _, none => none

/-! ## The container -/

/-- The data members of `ft::vector<T, Allocator>` (the allocator is passed alongside). -/
structure vector (T : Type) where
  _data : Buffer T
  _size : Nat
  _capacity : Nat
  deriving DecidableEq, Repr

/-- A call on a vector ends with an allocator state, the vector's members and an outcome. -/
structure Call (T : Type) (R : Type) where
  alloc : Allocator
  self : vector T
  result : Outcome R
  deriving DecidableEq, Repr

/-- The handler `catch (...)` of every rebuilding operation: destroy `tmp[i-1 .. 0]`,
deallocate `tmp`, rethrow; the vector's members are those before the call. -/
def rollback {T R : Type} (v : vector T) (b : Build T) (e : Exn) : Call T R :=
  match unwindLoop b.i b.alloc b.tmp with
  | none => { alloc := b.alloc, self := v, result := .undefined }
  | some (a, p) => { alloc := a.deallocate p, self := v, result := .threw e }

/-- The statements `for (i = 0; i < _size; ++i) destroy(_data + i); deallocate(_data, _capacity);`
that release the old buffer. -/
def release {T : Type} (a : Allocator) (v : vector T) : Option Allocator :=
  match destroyLoop v._size a v._data 0 with
  | none => none
  | some (a1, p) => some (a1.deallocate p)

/-- The common tail of every rebuilding operation.  When the `try` block threw, the handler
`catch (...)` runs.  Otherwise the statements
`for (i = 0; i < _size; ++i) destroy(_data + i); deallocate(_data, _capacity); _data = tmp;`
run, `_size` and `_capacity` get their new values, and `r` is returned. -/
def adopt {T R : Type} (v : vector T) (b : Build T) (new_size new_cap : Nat) (r : R) :
    Call T R :=
  match b.status with
  | .threw e => rollback v b e
  | .undefined => { alloc := b.alloc, self := v, result := .undefined }
  | .returned _ =>
    match release b.alloc v with
    | none => { alloc := b.alloc, self := v, result := .undefined }
    | some a2 =>
      { alloc := a2,
        self := { _data := b.tmp, _size := new_size, _capacity := new_cap },
        result := .returned r }

namespace vector

variable {T : Type}

/-- The default constructor `vector()`. -/
def ctor (a : Allocator) : Call T Unit :=
  match (a.allocate 0 : Option (Allocator × Buffer T)) with
  | none => { alloc := a, self := { _data := [], _size := 0, _capacity := 0 },
              result := .threw .bad_alloc }
  | some (a1, p) => { alloc := a1, self := { _data := p, _size := 0, _capacity := 0 },
                      result := .returned () }

/-- The query `size()`. -/
def size (v : vector T) : Nat := v._size

/-- The query `capacity()`. -/
def capacity (v : vector T) : Nat := v._capacity

/-- The accessor `data()`. -/
def data (v : vector T) : Buffer T := v._data

/-- The iterator `begin()`, as an offset into the buffer. -/
def begin (_v : vector T) : Nat := 0

/-- The iterator `end()`, as an offset into the buffer. -/
def end_ (v : vector T) : Nat := v._size

/-- An lvalue `p[pos]` used as a value: undefined when the slot holds no element. -/
def deref (p : Buffer T) (pos : Nat) : Outcome T :=
  match load p pos with
  | some x => .returned x
  | none => .undefined

/-- The accessor `at(pos)`. -/
def at_ (v : vector T) (pos : Nat) : Outcome T :=
  if pos ≥ v._size then .threw .out_of_range
  else deref v._data pos

/-- The accessor `operator[](pos)`. -/
def subscript (v : vector T) (pos : Nat) : Outcome T :=
  deref v._data pos

/-- The modifier `push_back(const T& value)`.  The argument is a reference, and it is read by
the last statements `_alloc.construct(_data + _size, value); ++_size;`: in the growth branch
that is after the old buffer has been destroyed and deallocated. -/
def push_back (a : Allocator) (v : vector T) (value : Ref T) : Call T Unit :=
  -- the statements `_alloc.construct(_data + _size, value); ++_size;` after the growth branch
  let append (a1 : Allocator) (v1 : vector T) (read : Option T) : Call T Unit :=
    match a1.construct v1._data v1._size read with
    | (a2, p, .returned _) =>
      { alloc := a2,
        self := { _data := p, _size := size_add v1._size 1, _capacity := v1._capacity },
        result := .returned () }
    | (a2, _, .threw e) => { alloc := a2, self := v1, result := .threw e }
    | (a2, _, .undefined) => { alloc := a2, self := v1, result := .undefined }
  if v._capacity = 0 ∨ v._size = v._capacity then
    let new_cap := if v._capacity = 0 then 1 else size_shl1 v._capacity
    match (a.allocate new_cap : Option (Allocator × Buffer T)) with
    | none => { alloc := a, self := v, result := .threw .bad_alloc }
    | some (a1, tmp) =>
      let b0 : Build T := { alloc := a1, tmp := tmp, i := 0, status := .returned () }
      let b1 := constructLoop (fun i => i) (fun i => load v._data i) (v._size - b0.i) b0
      let c : Call T Unit := adopt v b1 v._size new_cap ()
      match c.result with
      | .returned _ => append c.alloc c.self (value.read none)
      | _ => c
  else append a v (value.read (some v._data))

/-- The calls `push_back(x1); ...; push_back(xn);` in turn, up to the first that does not
return. -/
def push_back_all (a : Allocator) (v : vector T) : List (Ref T) → Call T Unit
  | [] => { alloc := a, self := v, result := .returned () }
  | x :: xs =>
    match v.push_back a x with
    | { alloc := a1, self := v1, result := .returned _ } => push_back_all a1 v1 xs
    | c => c

/-- The scenario `vector<T> v; v.push_back(x1); ...; v.push_back(xn);`. -/
def push_back_from_empty (a : Allocator) (xs : List (Ref T)) : Call T Unit :=
  match (ctor a : Call T Unit) with
  | { alloc := a1, self := v, result := .returned _ } => push_back_all a1 v xs
  | c => c

/-- The modifier `reserve(new_cap)`; `max_size()` is the allocator's. -/
def reserve (a : Allocator) (v : vector T) (new_cap : Nat) : Call T Unit :=
  if new_cap > a.max_size then { alloc := a, self := v, result := .threw .length_error }
  else if new_cap > v._capacity then
    match (a.allocate new_cap : Option (Allocator × Buffer T)) with
    | none => { alloc := a, self := v, result := .threw .bad_alloc }
    | some (a1, new_storage) =>
      let b0 : Build T := { alloc := a1, tmp := new_storage, i := 0, status := .returned () }
      let b1 := constructLoop (fun i => i) (fun i => load v._data i) (v._size - b0.i) b0
      adopt v b1 v._size new_cap ()
  else { alloc := a, self := v, result := .returned () }

/-- The modifier `assign(count, value)`. -/
def assign (a : Allocator) (v : vector T) (count : Nat) (value : T) : Call T Unit :=
  match (a.allocate count : Option (Allocator × Buffer T)) with
  | none => { alloc := a, self := v, result := .threw .bad_alloc }
  | some (a1, tmp) =>
    let b0 : Build T := { alloc := a1, tmp := tmp, i := 0, status := .returned () }
    let b1 := constructLoop (fun i => i) (fun _ => some value) (count - b0.i) b0
    adopt v b1 count count ()

/-- The modifier `insert(pos, value)`; `pos` is the offset `pos - begin()` and the
returned iterator is an offset into the new buffer. -/
def insert (a : Allocator) (v : vector T) (pos : Nat) (value : T) : Call T Nat :=
  let count := pos
  let new_cap := if v._size = v._capacity then size_shl1 v._capacity else v._capacity
  match (a.allocate new_cap : Option (Allocator × Buffer T)) with
  | none => { alloc := a, self := v, result := .threw .bad_alloc }
  | some (a1, tmp) =>
    let b0 : Build T := { alloc := a1, tmp := tmp, i := 0, status := .returned () }
    -- for (i = 0; i < count; ++i) construct(tmp + count, _data[i]);
    let b1 := constructLoop (fun _ => count) (fun i => load v._data i) (count - b0.i) b0
    -- construct(tmp + count, value);
    let b2 := constructStep count (some value) b1
    -- for (; i < _size; ++i) construct(tmp + i + 1, _data[i]);
    let b3 := constructLoop (fun i => i + 1) (fun i => load v._data i) (v._size - b2.i) b2
    adopt v b3 (size_add v._size 1) new_cap count

/-- The loop `while (new_cap < bound) new_cap <<= 1;` run for at most `fuel` tests of its
condition; `none` when the loop is still running after them. -/
def growLoop : Nat → Nat → Nat → Option Nat
  | 0, _, _ => none
  | fuel + 1, new_cap, bound =>
    if new_cap < bound then growLoop fuel (size_shl1 new_cap) bound else some new_cap

/-- The capacity chosen by the two multi-element forms of `insert` for `extra` new elements. -/
def insert_new_cap (fuel : Nat) (v : vector T) (extra : Nat) : Option Nat :=
  if size_add v._size extra > v._capacity then
    growLoop fuel (size_shl1 v._capacity) (size_add v._capacity extra)
  else some v._capacity

/-- The `try` block of the two multi-element forms of `insert`, which differ in the source
of the inserted elements only:
`for (; i < num; ++i) construct(tmp + i, _data[i]);`
`for (; i < num + count; ++i) construct(tmp + i, inserted);`
`for (; i < _size + count; ++i) construct(tmp + i, _data[i - count]);` -/
def insert_fill (v : vector T) (num count : Nat) (inserted : Nat → Option T) (b0 : Build T) :
    Build T :=
  let b1 := constructLoop (fun i => i) (fun i => load v._data i) (num - b0.i) b0
  let b2 := constructLoop (fun i => i) inserted (size_add num count - b1.i) b1
  constructLoop (fun i => i) (fun i => load v._data (size_sub i count))
    (size_add v._size count - b2.i) b2

/-- The modifier `insert(pos, count, value)`; `none` when the doubling loop is still
running after `fuel` tests. -/
def insert_count (fuel : Nat) (a : Allocator) (v : vector T) (pos : Nat) (count : Nat)
    (value : T) : Option (Call T Unit) :=
  match insert_new_cap fuel v count with
  | none => none
  | some new_cap =>
    some <|
    match (a.allocate new_cap : Option (Allocator × Buffer T)) with
    | none => { alloc := a, self := v, result := .threw .bad_alloc }
    | some (a1, tmp) =>
      let num := pos
      let b0 : Build T := { alloc := a1, tmp := tmp, i := 0, status := .returned () }
      let b3 := insert_fill v num count (fun _ => some value) b0
      adopt v b3 (size_add v._size count) new_cap ()

/-- The modifier `insert(pos, first, last)`; the input range is the list `range` of the
elements from `first` up to `last`, read one by one as `first` advances.  The range is one
that can be walked twice (forward iterators or stronger), as the call walks it once in
`ft::distance` and once in the copy loop; a single-pass input range is not modelled. -/
def insert_range (fuel : Nat) (a : Allocator) (v : vector T) (pos : Nat) (range : List T) :
    Option (Call T Unit) :=
  let diff := range.length % SIZE_MODULUS
  match insert_new_cap fuel v diff with
  | none => none
  | some new_cap =>
    some <|
    match (a.allocate new_cap : Option (Allocator × Buffer T)) with
    | none => { alloc := a, self := v, result := .threw .bad_alloc }
    | some (a1, tmp) =>
      let count := pos
      let b0 : Build T := { alloc := a1, tmp := tmp, i := 0, status := .returned () }
      let b3 := insert_fill v count diff (fun i => range[i - count]?) b0
      adopt v b3 (size_add v._size diff) new_cap ()

/-- The modifier `erase(pos)`. -/
def erase (a : Allocator) (v : vector T) (pos : Nat) : Call T Nat :=
  match (a.allocate v._capacity : Option (Allocator × Buffer T)) with
  | none => { alloc := a, self := v, result := .threw .bad_alloc }
  | some (a1, tmp) =>
    let count := pos
    let b0 : Build T := { alloc := a1, tmp := tmp, i := 0, status := .returned () }
    let b1 := constructLoop (fun i => i) (fun i => load v._data i) (count - b0.i) b0
    let b2 := constructLoop (fun i => i) (fun i => load v._data (i + 1))
      (size_sub v._size 1 - b1.i) b1
    adopt v b2 (size_sub v._size 1) v._capacity count

/-- The modifier `erase(first, last)`, on the offsets of the two iterators. -/
def erase_range (a : Allocator) (v : vector T) (first last : Nat) : Call T Nat :=
  let count := first
  let diff := size_sub last first
  match (a.allocate v._capacity : Option (Allocator × Buffer T)) with
  | none => { alloc := a, self := v, result := .threw .bad_alloc }
  | some (a1, tmp) =>
    let b0 : Build T := { alloc := a1, tmp := tmp, i := 0, status := .returned () }
    let b1 := constructLoop (fun i => i) (fun i => load v._data i) (count - b0.i) b0
    let b2 := constructLoop (fun i => i) (fun i => load v._data (size_add i diff))
      (size_sub v._size diff - b1.i) b1
    adopt v b2 (size_sub v._size diff) v._capacity count

/-- The handler of the three constructors that fill a fresh buffer:
`for (; i > 0; --i) destroy(_data + i - 1); deallocate(_data, ...); throw;`, and the members
on success.  The object under construction has no old buffer to release. -/
def construct_finish (b : Build T) (new_size new_cap : Nat) : Call T Unit :=
  match b.status with
  | .returned _ =>
    { alloc := b.alloc, self := { _data := b.tmp, _size := new_size, _capacity := new_cap },
      result := .returned () }
  | .threw e =>
    match unwindLoop b.i b.alloc b.tmp with
    | none =>
      { alloc := b.alloc, self := { _data := b.tmp, _size := new_size, _capacity := new_cap },
        result := .undefined }
    | some (a, p) =>
      { alloc := a.deallocate p, self := { _data := p, _size := new_size, _capacity := new_cap },
        result := .threw e }
  | .undefined =>
    { alloc := b.alloc, self := { _data := b.tmp, _size := new_size, _capacity := new_cap },
      result := .undefined }

/-- The constructor `vector(count, value, alloc)`. -/
def ctor_count (a : Allocator) (count : Nat) (value : T) : Call T Unit :=
  match (a.allocate count : Option (Allocator × Buffer T)) with
  | none => { alloc := a, self := { _data := [], _size := count, _capacity := count },
              result := .threw .bad_alloc }
  | some (a1, p) =>
    let b0 : Build T := { alloc := a1, tmp := p, i := 0, status := .returned () }
    let b1 := constructLoop (fun i => i) (fun _ => some value) (count - b0.i) b0
    construct_finish b1 count count

/-- The constructor `vector(first, last, alloc)` on the input range `range`; the loop
`for (; first != last; ++first, ++i)` makes one step for each element of the range.  The
range is one that can be walked twice (forward iterators or stronger), as the call walks it
once in `ft::distance` and once in the loop; a single-pass input range is not modelled. -/
def ctor_range (a : Allocator) (range : List T) : Call T Unit :=
  let diff := range.length % SIZE_MODULUS
  match (a.allocate diff : Option (Allocator × Buffer T)) with
  | none => { alloc := a, self := { _data := [], _size := 0, _capacity := 0 },
              result := .threw .bad_alloc }
  | some (a1, p) =>
    let b0 : Build T := { alloc := a1, tmp := p, i := 0, status := .returned () }
    let b1 := constructLoop (fun i => i) (fun i => range[i]?) range.length b0
    construct_finish b1 diff diff

/-- The copy constructor `vector(const vector& other)`. -/
def copy_ctor (a : Allocator) (other : vector T) : Call T Unit :=
  match (a.allocate other._capacity : Option (Allocator × Buffer T)) with
  | none =>
    { alloc := a, self := { _data := [], _size := other._size, _capacity := other._capacity },
      result := .threw .bad_alloc }
  | some (a1, p) =>
    let b0 : Build T := { alloc := a1, tmp := p, i := 0, status := .returned () }
    let b1 := constructLoop (fun i => i) (fun i => load other._data i) (other._size - b0.i) b0
    construct_finish b1 other._size other._capacity

/-- The copy assignment `operator=(other)`.  (The handler passes `_capacity` and not
`other._capacity` to `deallocate`; the size argument of `deallocate` is not modelled.) -/
def operator_assign (a : Allocator) (v : vector T) (other : vector T) : Call T Unit :=
  match (a.allocate other._capacity : Option (Allocator × Buffer T)) with
  | none => { alloc := a, self := v, result := .threw .bad_alloc }
  | some (a1, tmp) =>
    let b0 : Build T := { alloc := a1, tmp := tmp, i := 0, status := .returned () }
    let b1 := constructLoop (fun i => i) (fun i => load other._data i) (other._size - b0.i) b0
    adopt v b1 other._size other._capacity ()

/-- The modifier `clear()`. -/
def clear (a : Allocator) (v : vector T) : Call T Unit :=
  match destroyLoop v._size a v._data 0 with
  | none => { alloc := a, self := v, result := .undefined }
  | some (a1, p) =>
    { alloc := a1, self := { _data := p, _size := 0, _capacity := v._capacity },
      result := .returned () }

/-- The modifier `pop_back()`: `_alloc.destroy(_data + _size); --_size;`. -/
def pop_back (a : Allocator) (v : vector T) : Call T Unit :=
  match a.destroy v._data v._size with
  | none => { alloc := a, self := v, result := .undefined }
  | some (a1, p) =>
    { alloc := a1, self := { _data := p, _size := size_sub v._size 1, _capacity := v._capacity },
      result := .returned () }

/-- The loop of the growing branch of `resize`, with `n` iterations left and counter `i`:
`for (i = _size; i < count; ++i) { try { push_back(value); }`
`catch (...) { for (size_type j = _size; j < i; ++j) destroy(_data + j); throw; } }`.
`resize` takes `value` by copy, so `push_back` gets a reference to an object outside the
buffer. -/
def resize_grow (value : T) : Nat → Allocator → vector T → Nat → Call T Unit
  | 0, a, v, _ => { alloc := a, self := v, result := .returned () }
  | n + 1, a, v, i =>
    match v.push_back a (.outside value) with
    | { alloc := a1, self := v1, result := .returned _ } => resize_grow value n a1 v1 (i + 1)
    | { alloc := a1, self := v1, result := .threw e } =>
      match destroyLoop (i - v1._size) a1 v1._data v1._size with
      | none => { alloc := a1, self := v1, result := .undefined }
      | some (a2, p) =>
        { alloc := a2, self := { _data := p, _size := v1._size, _capacity := v1._capacity },
          result := .threw e }
    | { alloc := a1, self := v1, result := .undefined } =>
      { alloc := a1, self := v1, result := .undefined }

/-- The modifier `resize(count, value)`. -/
def resize (a : Allocator) (v : vector T) (count : Nat) (value : T) : Call T Unit :=
  if count < v._size then
    -- for (i = count; i < _size; ++i) destroy(_data + i);
    match destroyLoop (v._size - count) a v._data count with
    | none => { alloc := a, self := v, result := .undefined }
    | some (a1, p) =>
      { alloc := a1, self := { _data := p, _size := count, _capacity := v._capacity },
        result := .returned () }
  else if count > v._size then
    match resize_grow value (count - v._size) a v v._size with
    | { alloc := a1, self := v1, result := .returned _ } =>
      { alloc := a1, self := { _data := v1._data, _size := count, _capacity := v1._capacity },
        result := .returned () }
    | c => c
  else
    { alloc := a, self := { _data := v._data, _size := count, _capacity := v._capacity },
      result := .returned () }

/-- The modifier `swap(other)`: the new members of this vector and of `other`. -/
def swap (v other : vector T) : vector T × vector T :=
  ({ _data := other._data, _size := other._size, _capacity := other._capacity },
   { _data := v._data, _size := v._size, _capacity := v._capacity })

/-- The slots an iterator visits from `begin()` up to `end()`: one entry for each offset
below `_size`, `none` where dereferencing is undefined. -/
def range (v : vector T) : List (Option T) :=
  (List.range v._size).map (fun i => load v._data i)

end vector

/-! ## The algorithms of `utils.hpp` and the relational operators

An input range is the list of what dereferencing yields at each position: `some x`, or
`none` where the position holds no element.  A range whose end is not given (`first2` of
`equal`) is the list of the slots up to the end of the allocation. -/

/-- The algorithm `ft::equal(first1, last1, first2)`, with `eq` the `==` of the elements. -/
def equal {T : Type} (eq : T → T → Bool) : List (Option T) → List (Option T) → Outcome Bool
  | [], _ => .returned true
  | _ :: _, [] => .undefined
  | a :: r1, b :: r2 =>
    match a, b with
    | some x, some y => if !(eq x y) then .returned false else equal eq r1 r2
    | _, _ => .undefined

/-- The algorithm `ft::lexicographical_compare(first1, last1, first2, last2)`, with `lt` the
`<` of the elements. -/
def lexicographical_compare {T : Type} (lt : T → T → Bool) :
    List (Option T) → List (Option T) → Outcome Bool
  | a :: r1, b :: r2 =>
    match a, b with
    | some x, some y =>
      if lt x y then .returned true
      else if lt y x then .returned false
      else lexicographical_compare lt r1 r2
    | _, _ => .undefined
  | r1, r2 => .returned (r1.isEmpty && !r2.isEmpty)

/-- The negation `!b` of the value a comparison returns. -/
def Outcome.negate : Outcome Bool → Outcome Bool
  | .returned b => .returned (!b)
  | .threw e => .threw e
  | .undefined => .undefined

/-- The operator `lhs == rhs`. -/
def operator_eq {T : Type} (eq : T → T → Bool) (lhs rhs : vector T) : Outcome Bool :=
  if lhs.size ≠ rhs.size then .returned false
  else equal eq lhs.range rhs._data

/-- The operator `lhs != rhs`. -/
def operator_ne {T : Type} (eq : T → T → Bool) (lhs rhs : vector T) : Outcome Bool :=
  (operator_eq eq lhs rhs).negate

/-- The operator `lhs < rhs`. -/
def operator_lt {T : Type} (lt : T → T → Bool) (lhs rhs : vector T) : Outcome Bool :=
  lexicographical_compare lt lhs.range rhs.range

/-- The operator `lhs <= rhs`. -/
def operator_le {T : Type} (lt : T → T → Bool) (lhs rhs : vector T) : Outcome Bool :=
  (operator_lt lt rhs lhs).negate

/-- The operator `lhs > rhs`. -/
def operator_gt {T : Type} (lt : T → T → Bool) (lhs rhs : vector T) : Outcome Bool :=
  operator_lt lt rhs lhs

/-- The operator `lhs >= rhs`. -/
def operator_ge {T : Type} (lt : T → T → Bool) (lhs rhs : vector T) : Outcome Bool :=
  (operator_lt lt lhs rhs).negate

/-! ## The store: vector objects whose `_data` is an address

The definitions above pass the buffer of a vector by value.  To tell apart two vectors that
share a buffer from two vectors with equal buffers, the members are placed in a store of
blocks here: `_data` is an address, and a call on one object changes what every object
with the same address sees. -/

/-- The free store: the blocks that `allocate` has handed out, by address; a block is `none`
once it has been deallocated.  No address is handed out twice. -/
abbrev Store (T : Type) := List (Option (Buffer T))

/-- A vector object as it lies in memory: the three data members, `_data` being the address
of a block of the store. -/
structure Object where
  _data : Nat
  _size : Nat
  _capacity : Nat
  deriving DecidableEq, Repr

/-- State after a member call on an object in the store. -/
structure Effect (T : Type) (R : Type) where
  alloc : Allocator
  store : Store T
  self : Object
  result : Outcome R
  deriving Repr

/-- An outcome without its value. -/
def Outcome.void {R : Type} : Outcome R → Outcome Unit
  | .returned _ => .returned ()
  | .threw e => .threw e
  | .undefined => .undefined

/-- The members of the object together with the block that `_data` points to; `none` when
`_data` points to no live block. -/
def Object.view {T : Type} (s : Store T) (o : Object) : Option (vector T) :=
  match s[o._data]? with
  | some (some p) => some { _data := p, _size := o._size, _capacity := o._capacity }
  | _ => none

namespace Store

variable {T R : Type}

/-- A call that wrote through `_data` only: the block keeps its address and holds what the
call left in it. -/
def written (s : Store T) (o : Object) (c : Call T R) : Effect T Unit :=
  { alloc := c.alloc, store := s.set o._data (some c.self._data),
    self := { _data := o._data, _size := c.self._size, _capacity := c.self._capacity },
    result := c.result.void }

/-- A call that executed `deallocate(_data, _capacity); _data = tmp;`: the block `tmp`, which
the call got from `allocate`, is a new block of the store, and the old block is gone. -/
def replaced (s : Store T) (o : Object) (c : Call T R) : Effect T Unit :=
  { alloc := c.alloc, store := s.set o._data none ++ [some c.self._data],
    self := { _data := s.length, _size := c.self._size, _capacity := c.self._capacity },
    result := c.result.void }

/-- A member that rebuilds the buffer (`tmp = allocate(...)`, a `try` block that fills `tmp`,
then `deallocate(_data, _capacity); _data = tmp;`): `_data` is assigned exactly when the
call returns.  When it throws, the handler has released `tmp`, and the members and the old
block are as before. -/
def rebuilt (s : Store T) (o : Object) (c : Call T R) : Effect T Unit :=
  match c.result with
  | .returned _ => replaced s o c
  | r => { alloc := c.alloc, store := s, self := o, result := r.void }

end Store

namespace Object

variable {T : Type}

/-- The copy constructor `vector(const vector& other)`: `_data = _alloc.allocate(_capacity)`
is a new block of the store, filled from the block of `other`. -/
def copy_ctor (a : Allocator) (s : Store T) (other : Object) : Option (Effect T Unit) :=
  (other.view s).map fun ov =>
    let c := vector.copy_ctor a ov
    match c.result with
    | .returned _ =>
      { alloc := c.alloc, store := s ++ [some c.self._data],
        self := { _data := s.length, _size := c.self._size, _capacity := c.self._capacity },
        result := .returned () }
    | r =>
      -- the handler has released the block and the constructor threw: no object
      { alloc := c.alloc, store := s,
        self := { _data := s.length, _size := c.self._size, _capacity := c.self._capacity },
        result := r }

/-- The copy assignment `operator=(other)` on the object `o`. -/
def operator_assign (a : Allocator) (s : Store T) (o other : Object) :
    Option (Effect T Unit) :=
  match o.view s, other.view s with
  | some v, some ov => some (Store.rebuilt s o (v.operator_assign a ov))
  | _, _ => none

/-- The modifier `push_back(value)`.  In the growth branch the statements
`_data = tmp; _capacity = new_cap;` are executed together and `new_cap` differs from the old
capacity, so the capacity member tells whether the buffer was replaced (the lemma
`vector.push_back_capacity_tells`); the statements `construct(_data + _size, value); ++_size;`
then write through the new `_data`. -/
def push_back (a : Allocator) (s : Store T) (o : Object) (value : Ref T) :
    Option (Effect T Unit) :=
  (o.view s).map fun v =>
    let c := v.push_back a value
    if (v._capacity = 0 ∨ v._size = v._capacity) ∧ c.self._capacity ≠ v._capacity then
      Store.replaced s o c
    else Store.written s o c

/-- The loop of the growing branch of `resize`, each `push_back` acting on the object where
the one before has left it; the handler writes through `_data`. -/
def resize_grow (value : T) : Nat → Allocator → Store T → Object → Nat → Option (Effect T Unit)
  | 0, a, s, o, _ => some { alloc := a, store := s, self := o, result := .returned () }
  | n + 1, a, s, o, i =>
    match o.push_back a s (.outside value) with
    | none => none
    | some e =>
      match e.result with
      | .returned _ => resize_grow value n e.alloc e.store e.self (i + 1)
      | .threw x =>
        match e.self.view e.store with
        | none => none
        | some v1 =>
          match destroyLoop (i - v1._size) e.alloc v1._data v1._size with
          | none => some { e with result := .undefined }
          | some (a2, p) =>
            some { alloc := a2, store := e.store.set e.self._data (some p), self := e.self,
                   result := .threw x }
      | .undefined => some e

/-- The modifier `resize(count, value)`. -/
def resize (a : Allocator) (s : Store T) (o : Object) (count : Nat) (value : T) :
    Option (Effect T Unit) :=
  match o.view s with
  | none => none
  | some v =>
    if count > v._size then
      match resize_grow value (count - v._size) a s o v._size with
      | none => none
      | some e =>
        match e.result with
        | .returned _ =>
          some { e with self := { _data := e.self._data, _size := count,
                                  _capacity := e.self._capacity } }
        | _ => some e
    else
      -- the loop `for (i = count; i < _size; ++i) destroy(_data + i);` and `_size = count;`
      some (Store.written s o (v.resize a count value))

end Object

/-- The modifiers of the class that act on one vector, with their arguments. -/
inductive Modifier (T : Type) where
  | assign (count : Nat) (value : T)
  | reserve (new_cap : Nat)
  | clear
  | insert (pos : Nat) (value : T)
  | insert_count (pos count : Nat) (value : T)
  | insert_range (pos : Nat) (range : List T)
  | erase (pos : Nat)
  | erase_range (first last : Nat)
  | push_back (value : Ref T)
  | pop_back
  | resize (count : Nat) (value : T)
  | operator_assign (other : Object)

namespace Object

variable {T : Type}

/-- One modifier call on the object `o`; `none` when `_data` points to no live block, or the
doubling loop of `insert` is still running after `fuel` tests.  `clear` and `pop_back` write
through `_data`; `reserve` rebuilds when `new_cap > capacity()`; `assign`, `insert`, `erase`
and `operator=` rebuild. -/
def modify (fuel : Nat) (a : Allocator) (s : Store T) (o : Object) :
    Modifier T → Option (Effect T Unit)
  | .assign count value => (o.view s).map fun v => Store.rebuilt s o (v.assign a count value)
  | .reserve new_cap =>
    (o.view s).map fun v =>
      if new_cap > v._capacity then Store.rebuilt s o (v.reserve a new_cap)
      else Store.written s o (v.reserve a new_cap)
  | .clear => (o.view s).map fun v => Store.written s o (v.clear a)
  | .insert pos value => (o.view s).map fun v => Store.rebuilt s o (v.insert a pos value)
  | .insert_count pos count value =>
    match o.view s with
    | none => none
    | some v => (v.insert_count fuel a pos count value).map fun c => Store.rebuilt s o c
  | .insert_range pos range =>
    match o.view s with
    | none => none
    | some v => (v.insert_range fuel a pos range).map fun c => Store.rebuilt s o c
  | .erase pos => (o.view s).map fun v => Store.rebuilt s o (v.erase a pos)
  | .erase_range first last =>
    (o.view s).map fun v => Store.rebuilt s o (v.erase_range a first last)
  | .push_back value => o.push_back a s value
  | .pop_back => (o.view s).map fun v => Store.written s o (v.pop_back a)
  | .resize count value => o.resize a s count value
  | .operator_assign other => o.operator_assign a s other

/-- The calls `m1; m2; ...` on the object in turn, each on the state the one before has left,
whether it returned or threw (the caller may catch); `none` as soon as a call leaves defined
behaviour, does not end, or finds `_data` dangling. -/
def modify_all (fuel : Nat) : List (Modifier T) → Allocator → Store T → Object →
    Option (Allocator × Store T × Object)
  | [], a, s, o => some (a, s, o)
  | m :: ms, a, s, o =>
    match o.modify fuel a s m with
    | none => none
    | some e =>
      match e.result with
      | .undefined => none
      | _ => modify_all fuel ms e.alloc e.store e.self

end Object

/-! ## The predicates of the theorems -/

/-- The vector holds the element sequence `es`: the members are `size_type` values, the
buffer has `_capacity` slots, and the first `_size` of them are exactly the live elements
`es`, in order. -/
def vector.Holds {T : Type} (v : vector T) (es : List T) : Prop :=
  v._size = es.length ∧ v._data.length = v._capacity ∧ v._capacity < SIZE_MODULUS ∧
    v._data.take v._size = es.map some

instance {T : Type} [DecidableEq T] (v : vector T) (es : List T) : Decidable (v.Holds es) := by
  unfold vector.Holds
  infer_instance

/-- The growth rule in words: `cap` is the first value that is at least `bound` in the
doubling sequence `start, 2 * start, 4 * start, ...`. -/
def FirstDoubling (start bound cap : Nat) : Prop :=
  ∃ j, cap = start * 2 ^ j ∧ bound ≤ cap ∧ ∀ j', bound ≤ start * 2 ^ j' → cap ≤ start * 2 ^ j'

/-- The growth rule of `insert` as the specification words it, for a vector of capacity `c`
and size `s` that receives `m` elements: unchanged when they fit, else the first value that
is at least `s + m` in the doubling sequence from `c` (from `1` when `c` is `0`). -/
def SpecifiedGrowth (c s m cap : Nat) : Prop :=
  (s + m ≤ c → cap = c) ∧ (c < s + m → FirstDoubling (if c = 0 then 1 else c) (s + m) cap)

/-- The growth rule of `insert` as coded: unchanged when the elements fit, else the first
value that is at least `c + m` in the doubling sequence `2 * c, 4 * c, ...`. -/
def CodedGrowth (c s m cap : Nat) : Prop :=
  (s + m ≤ c → cap = c) ∧ (c < s + m → FirstDoubling (2 * c) (c + m) cap)

/-- The lexicographic order in words: `A` is a strict prefix of `B`, or at the first index
where the two differ the element of `A` is less than the element of `B`. -/
def LexLess {T : Type} [LT T] (A B : List T) : Prop :=
  (∃ t, t ≠ [] ∧ B = A ++ t) ∨
    ∃ i x y, A[i]? = some x ∧ B[i]? = some y ∧ A.take i = B.take i ∧ x < y

/-- The invariant of the data model: `_size <= _capacity`, and the buffer has `_capacity`
slots. -/
def vector.Sound {T : Type} (v : vector T) : Prop :=
  v._size ≤ v._capacity ∧ v._data.length = v._capacity

/-- An allocator that grants up to `2 ^ 32` elements and whose constructions never throw. -/
def sample_alloc : Allocator :=
  { max_size := 2 ^ 32, allocations := 0, deallocations := 0, constructions := 0,
    destructions := 0, failAfter := none, refuseAfter := none, leaked := 0 }

/-- The vector `[1, 2, 3]` of capacity 4, as three calls of `push_back` leave it. -/
def sample_123 : vector Nat :=
  { _data := [some 1, some 2, some 3, none], _size := 3, _capacity := 4 }

/-- The vector `[1, 9, 2, 3]` of capacity 4. -/
def sample_1923 : vector Nat :=
  { _data := [some 1, some 9, some 2, some 3], _size := 4, _capacity := 4 }

/-- The vector `[1]` of capacity 4. -/
def sample_1 : vector Nat := { _data := [some 1, none, none, none], _size := 1, _capacity := 4 }

/-- The vector `[1, 2]` of capacity 2. -/
def sample_12 : vector Nat := { _data := [some 1, some 2], _size := 2, _capacity := 2 }

/-- What `insert(begin() + 1, 5, 7)` leaves of the vector `[1]` of capacity 4. -/
def sample_1_grown : Call Nat Unit :=
  { alloc := { max_size := 2 ^ 32, allocations := 1, deallocations := 1, constructions := 6,
               destructions := 1, failAfter := none, refuseAfter := none, leaked := 0 },
    self := { _data := [some 1, some 7, some 7, some 7, some 7, some 7, none, none, none, none,
                        none, none, none, none, none, none],
              _size := 6, _capacity := 16 },
    result := .returned () }

/-- What `insert(begin() + 1, SIZE_MAX, 7)` leaves of the vector `[1, 2]` of capacity 2. -/
def sample_12_wrapped : Call Nat Unit :=
  { alloc := { max_size := 2 ^ 32, allocations := 1, deallocations := 1, constructions := 1,
               destructions := 2, failAfter := none, refuseAfter := none, leaked := 0 },
    self := { _data := [some 1, none], _size := 1, _capacity := 2 },
    result := .returned () }

/-- An allocator under which the third construction throws. -/
def sample_alloc_third_fails : Allocator :=
  { max_size := 2 ^ 32, allocations := 0, deallocations := 0, constructions := 0,
    destructions := 0, failAfter := some 2, refuseAfter := none, leaked := 0 }

/-- An allocator under which the second construction throws. -/
def sample_alloc_second_fails : Allocator :=
  { max_size := 2 ^ 32, allocations := 0, deallocations := 0, constructions := 0,
    destructions := 0, failAfter := some 1, refuseAfter := none, leaked := 0 }

/-- An allocator that grants no block. -/
def sample_alloc_refuses : Allocator :=
  { max_size := 2 ^ 32, allocations := 0, deallocations := 0, constructions := 0,
    destructions := 0, failAfter := none, refuseAfter := some 0, leaked := 0 }

/-- The default-constructed vector. -/
def sample_empty : vector Nat := { _data := [], _size := 0, _capacity := 0 }

/-- A store with the block of `[1, 2, 3]` at address 0 and the block of `[1]` at address 1. -/
def sample_store : Store Nat := [some sample_123._data, some sample_1._data]

/-- The vector object `[1, 2, 3]` of capacity 4 at address 0. -/
def sample_object_123 : Object := { _data := 0, _size := 3, _capacity := 4 }

theorem getElem?_splice {T : Type} (es mid : List T) (k k' j : Nat) (hk : k ≤ es.length) :
    (es.take k ++ mid ++ es.drop k')[j]? =
      if j < k then es[j]? else
        if j < k + mid.length then mid[j - k]? else es[k' + (j - k - mid.length)]? := by
  have hl : (es.take k).length = k := by simp [hk]
  by_cases h1 : j < k
  · rw [if_pos h1, List.append_assoc, List.getElem?_append_left (by omega),
      List.getElem?_take_of_lt h1]
  · rw [if_neg h1, List.append_assoc, List.getElem?_append_right (by omega), hl]
    by_cases h2 : j < k + mid.length
    · rw [if_pos h2, List.getElem?_append_left (by omega)]
    · rw [if_neg h2, List.getElem?_append_right (by omega), List.getElem?_drop]

theorem length_splice {T : Type} (es mid : List T) (k k' : Nat) (hk : k ≤ es.length) :
    (es.take k ++ mid ++ es.drop k').length = k + mid.length + (es.length - k') := by
  simp [hk]
  omega

theorem load_of_getElem? {T : Type} (p : Buffer T) (i : Nat) (s : Option T)
    (h : p[i]? = some s) : load p i = s := by
  simp [load, h]

theorem vector.Holds.size_le {T : Type} {v : vector T} {es : List T} (h : v.Holds es) :
    es.length ≤ v._data.length := by
  obtain ⟨h1, _, _, h4⟩ := h
  have := congrArg List.length h4
  simp at this
  omega

theorem vector.Holds.slot {T : Type} {v : vector T} {es : List T} (h : v.Holds es) (j : Nat)
    (hj : j < es.length) : v._data[j]? = some (es[j]?) := by
  obtain ⟨h1, _, _, h4⟩ := h
  have := congrArg (fun l => l[j]?) h4
  simp only [List.getElem?_take, List.getElem?_map] at this
  rw [if_pos (by omega)] at this
  rw [this, List.getElem?_eq_getElem hj]
  rfl

theorem vector.Holds.load {T : Type} {v : vector T} {es : List T} (h : v.Holds es) (j : Nat)
    (hj : j < es.length) : load v._data j = es[j]? :=
  load_of_getElem? _ _ _ (h.slot j hj)

theorem vector.Holds.load_ne_none {T : Type} {v : vector T} {es : List T} (h : v.Holds es)
    (j : Nat) (hj : j < es.length) : ft.load v._data j ≠ none := by
  rw [h.load j hj, List.getElem?_eq_getElem hj]
  simp

theorem vector.Holds.of_slots {T : Type} {v : vector T} {es : List T} (hs : v._size = es.length)
    (hc : v._data.length = v._capacity) (hm : v._capacity < SIZE_MODULUS)
    (hp : ∀ j, j < es.length → v._data[j]? = some (es[j]?)) : v.Holds es := by
  refine ⟨hs, hc, hm, ?_⟩
  apply List.ext_getElem?
  intro j
  rw [List.getElem?_take, List.getElem?_map, hs]
  by_cases hj : j < es.length
  · rw [if_pos hj, hp j hj, List.getElem?_eq_getElem hj]
    rfl
  · rw [if_neg hj, List.getElem?_eq_none (by omega)]
    rfl

theorem allocate_ok {T : Type} (a : Allocator) (n : Nat) (h : n ≤ a.max_size)
    (hg : a.refuseAfter = none) :
    (a.allocate n : Option (Allocator × Buffer T)) =
      some ({ a with allocations := a.allocations + 1 }, List.replicate n none) := by
  simp [Allocator.allocate, Nat.not_lt.mpr h, hg]

theorem allocate_cases {T : Type} (a : Allocator) (n : Nat) :
    (a.allocate n : Option (Allocator × Buffer T)) = none ∨
    (a.allocate n : Option (Allocator × Buffer T)) =
      some ({ a with allocations := a.allocations + 1,
                     refuseAfter := a.refuseAfter.map (fun k => k - 1) },
            List.replicate n none) := by
  unfold Allocator.allocate
  by_cases h : n > a.max_size ∨ a.refuseAfter = some 0
  · exact Or.inl (if_pos h)
  · exact Or.inr (if_neg h)

theorem live_replicate_none {T : Type} (n : Nat) : live (List.replicate n (none : Option T)) = 0 := by
  induction n with
  | zero => rfl
  | succ n ih => simpa [List.replicate_succ, live] using ih

theorem live_append_none {T : Type} (n : Nat) (p : Buffer T) :
    live (List.replicate n none ++ p) = live p := by
  induction n with
  | zero => rfl
  | succ n ih => simpa [List.replicate_succ, live] using ih

theorem destroyLoop_spec {T : Type} :
    ∀ (n : Nat) (a : Allocator) (p : Buffer T) (i : Nat), i + n ≤ p.length →
      ∃ p1, destroyLoop n a p i = some ({ a with destructions := a.destructions + n }, p1) ∧
        p1.length = p.length ∧
        ∀ j, p1[j]? = if i ≤ j ∧ j < i + n then some none else p[j]? := by
  intro n
  induction n with
  | zero =>
    intro a p i _
    refine ⟨p, rfl, rfl, ?_⟩
    intro j
    rw [if_neg (by omega)]
  | succ n ih =>
    intro a p i h
    have hi : i < p.length := by omega
    obtain ⟨p1, hp1, hl1, hg1⟩ := ih { a with destructions := a.destructions + 1 }
      (p.set i none) (i + 1) (by simp; omega)
    refine ⟨p1, ?_, by rw [hl1]; simp, ?_⟩
    · rw [destroyLoop]
      simp only [Allocator.destroy, hi, if_true, hp1]
      simp
      omega
    · intro j
      rw [hg1 j]
      simp only [List.getElem?_set]
      by_cases hj : i = j
      · subst hj
        have c1 : ¬ (i + 1 ≤ i ∧ i < i + 1 + n) := by omega
        have c2 : i ≤ i ∧ i < i + (n + 1) := by omega
        simp [c1, c2, hi]
      · by_cases hc : i + 1 ≤ j ∧ j < i + 1 + n
        · have c2 : i ≤ j ∧ j < i + (n + 1) := by omega
          simp [hc, c2]
        · have c2 : ¬ (i ≤ j ∧ j < i + (n + 1)) := by omega
          simp [hc, c2, hj]

theorem destroyLoop_ok {T : Type} (n : Nat) (a : Allocator) (p : Buffer T) (i : Nat)
    (h : i + n ≤ p.length) :
    ∃ p1, destroyLoop n a p i = some ({ a with destructions := a.destructions + n }, p1) := by
  obtain ⟨p1, hp1, _⟩ := destroyLoop_spec n a p i h
  exact ⟨p1, hp1⟩

theorem unwindLoop_slots {T : Type} :
    ∀ (i : Nat) (a : Allocator) (p : Buffer T), i ≤ p.length →
      ∃ p1, unwindLoop i a p = some ({ a with destructions := a.destructions + i }, p1) ∧
        p1.length = p.length ∧ ∀ j, p1[j]? = if j < i then some none else p[j]? := by
  intro i
  induction i with
  | zero =>
    intro a p _
    exact ⟨p, rfl, rfl, fun j => by simp⟩
  | succ i ih =>
    intro a p h
    have hi : i < p.length := by omega
    obtain ⟨p1, hp1, hl1, hs1⟩ := ih { a with destructions := a.destructions + 1 }
      (p.set i none) (by simp; omega)
    refine ⟨p1, ?_, by simpa using hl1, ?_⟩
    · rw [unwindLoop]
      simp only [Allocator.destroy, hi, if_true, hp1]
      simp
      omega
    · intro j
      rw [hs1 j]
      by_cases h1 : j < i
      · simp [h1, Nat.lt_succ_of_lt h1]
      · by_cases h2 : j = i
        · subst h2
          simp [hi]
        · have h3 : ¬ j < i + 1 := by omega
          simp only [h1, h3, if_false, List.getElem?_set]
          rw [if_neg (by omega)]

theorem unwindLoop_ok {T : Type} (i : Nat) (a : Allocator) (p : Buffer T) (h : i ≤ p.length) :
    ∃ p1, unwindLoop i a p = some ({ a with destructions := a.destructions + i }, p1) := by
  obtain ⟨p1, hp1, _⟩ := unwindLoop_slots i a p h
  exact ⟨p1, hp1⟩

/-- A buffer whose first `n` slots were destroyed holds the elements of the slots from `n`
on, and no other. -/
theorem live_of_destroyed {T : Type} (p p1 : Buffer T) (n : Nat)
    (hs : ∀ j, p1[j]? = if j < n then some none else p[j]?) :
    live p1 = live (p.drop n) := by
  have : p1 = List.replicate n none ++ p.drop n := by
    apply List.ext_getElem?
    intro j
    rw [hs j, List.getElem?_append]
    by_cases hj : j < n
    · simp [hj, List.getElem?_replicate]
    · simp only [hj, if_false, List.length_replicate, List.getElem?_drop]
      rw [show n + (j - n) = j by omega]
  rw [this, live_append_none]

theorem release_ok {T : Type} (a : Allocator) (v : vector T) (h : v._size ≤ v._data.length) :
    release a v = some { a with destructions := a.destructions + v._size,
                                deallocations := a.deallocations + 1,
                                leaked := a.leaked + live (v._data.drop v._size) } := by
  obtain ⟨p1, hp1, hl1, hs1⟩ := destroyLoop_spec v._size a v._data 0 (by omega)
  have hlive := live_of_destroyed v._data p1 v._size (fun j => by rw [hs1 j]; simp)
  simp [release, hp1, Allocator.deallocate, hlive]

theorem size_sub_eq (x y : Nat) (hy : y ≤ x) (hx : x < SIZE_MODULUS) : size_sub x y = x - y := by
  unfold size_sub
  have hy2 : y % SIZE_MODULUS = y := Nat.mod_eq_of_lt (by omega)
  rw [hy2]
  have : x + (SIZE_MODULUS - y) = (x - y) + SIZE_MODULUS := by omega
  rw [this, Nat.add_mod_right]
  exact Nat.mod_eq_of_lt (by omega)

theorem size_add_eq (x y : Nat) (h : x + y < SIZE_MODULUS) : size_add x y = x + y :=
  Nat.mod_eq_of_lt h

theorem constructLoop_shift {T : Type} (d : Nat) (src : Nat → Option T) :
    ∀ (n : Nat) (b : Build T), b.status = .returned () → b.alloc.failAfter = none →
      (∀ i, b.i ≤ i → i < b.i + n → src i ≠ none) → b.i + n + d ≤ b.tmp.length →
      (constructLoop (fun i => i + d) src n b).status = .returned () ∧
      (constructLoop (fun i => i + d) src n b).i = b.i + n ∧
      (constructLoop (fun i => i + d) src n b).alloc =
        { b.alloc with constructions := b.alloc.constructions + n } ∧
      (constructLoop (fun i => i + d) src n b).tmp.length = b.tmp.length ∧
      ∀ j, (constructLoop (fun i => i + d) src n b).tmp[j]? =
        if b.i + d ≤ j ∧ j < b.i + d + n then some (src (j - d)) else b.tmp[j]? := by
  intro n
  induction n with
  | zero =>
    intro b hs _ _ _
    refine ⟨hs, rfl, rfl, rfl, ?_⟩
    intro j
    have : ¬ (b.i + d ≤ j ∧ j < b.i + d + 0) := by omega
    rw [if_neg this]
    rfl
  | succ n ih =>
    intro b hs hf hsrc hlen
    obtain ⟨x, hx⟩ := Option.ne_none_iff_exists'.mp (hsrc b.i (le_refl _) (by omega))
    have hidx : b.i + d < b.tmp.length := by omega
    have hstep : constructLoop (fun i => i + d) src (n + 1) b =
        constructLoop (fun i => i + d) src n
          { alloc := { b.alloc with constructions := b.alloc.constructions + 1 },
            tmp := b.tmp.set (b.i + d) (some x), i := b.i + 1, status := .returned () } := by
      rw [constructLoop]
      simp [hs, Allocator.construct, hx, hf, hidx]
    rw [hstep]
    obtain ⟨h1, h2, h3, h4, h5⟩ := ih
      { alloc := { b.alloc with constructions := b.alloc.constructions + 1 },
        tmp := b.tmp.set (b.i + d) (some x), i := b.i + 1, status := .returned () }
      rfl hf (fun i hi1 hi2 => hsrc i (by simp at hi1; omega) (by simp at hi2; omega))
      (by simp; omega)
    refine ⟨h1, ?_, ?_, ?_, ?_⟩
    · rw [h2]; simp; omega
    · rw [h3]; simp; omega
    · rw [h4]; simp
    · intro j
      rw [h5 j]
      simp only [List.getElem?_set]
      by_cases hj : b.i + d = j
      · subst hj
        have : ¬ (b.i + 1 + d ≤ b.i + d ∧ b.i + d < b.i + 1 + d + n) := by omega
        simp [this, hidx, hx]
      · by_cases hc : b.i + 1 + d ≤ j ∧ j < b.i + 1 + d + n
        · have : b.i + d ≤ j ∧ j < b.i + d + (n + 1) := by omega
          simp [hc, this]
        · have : ¬ (b.i + d ≤ j ∧ j < b.i + d + (n + 1)) := by omega
          simp [hc, this, hj]

theorem constructLoop_id {T : Type} (src : Nat → Option T) (n : Nat) (b : Build T)
    (hs : b.status = .returned ()) (hf : b.alloc.failAfter = none)
    (hsrc : ∀ i, b.i ≤ i → i < b.i + n → src i ≠ none) (hlen : b.i + n ≤ b.tmp.length) :
    (constructLoop (fun i => i) src n b).status = .returned () ∧
    (constructLoop (fun i => i) src n b).i = b.i + n ∧
    (constructLoop (fun i => i) src n b).alloc =
      { b.alloc with constructions := b.alloc.constructions + n } ∧
    (constructLoop (fun i => i) src n b).tmp.length = b.tmp.length ∧
    ∀ j, (constructLoop (fun i => i) src n b).tmp[j]? =
      if b.i ≤ j ∧ j < b.i + n then some (src j) else b.tmp[j]? :=
  constructLoop_shift 0 src n b hs hf hsrc hlen

theorem adopt_ok {T R : Type} (v : vector T) (b : Build T) (new_size new_cap : Nat) (r : R)
    (hs : b.status = .returned ()) (h : v._size ≤ v._data.length) :
    adopt v b new_size new_cap r =
      { alloc := { b.alloc with destructions := b.alloc.destructions + v._size,
                                deallocations := b.alloc.deallocations + 1,
                                leaked := b.alloc.leaked + live (v._data.drop v._size) },
        self := { _data := b.tmp, _size := new_size, _capacity := new_cap },
        result := .returned r } := by
  simp [adopt, hs, release_ok _ v h]

theorem constructLoop_stuck {T : Type} (dst : Nat → Nat) (src : Nat → Option T) (n : Nat)
    (b : Build T) (h : b.status ≠ .returned ()) : constructLoop dst src n b = b := by
  cases n with
  | zero => rfl
  | succ n =>
    rw [constructLoop]
    cases hst : b.status with
    | returned u => exact absurd hst h
    | threw e => rfl
    | undefined => rfl

theorem constructLoop_returned {T : Type} (d : Nat) (src : Nat → Option T) :
    ∀ (n : Nat) (b : Build T),
      (constructLoop (fun i => i + d) src n b).status = .returned () →
      b.status = .returned () ∧
      (constructLoop (fun i => i + d) src n b).i = b.i + n ∧
      (constructLoop (fun i => i + d) src n b).tmp.length = b.tmp.length ∧
      (n ≠ 0 → b.i + n + d ≤ b.tmp.length) ∧
      (∀ i, b.i ≤ i → i < b.i + n → src i ≠ none) ∧
      ∀ j, (constructLoop (fun i => i + d) src n b).tmp[j]? =
        if b.i + d ≤ j ∧ j < b.i + d + n then some (src (j - d)) else b.tmp[j]? := by
  intro n
  induction n with
  | zero =>
    intro b h
    refine ⟨h, rfl, rfl, fun h0 => absurd rfl h0, fun i h1 h2 => by omega, ?_⟩
    intro j
    have : ¬ (b.i + d ≤ j ∧ j < b.i + d + 0) := by omega
    rw [if_neg this]
    rfl
  | succ n ih =>
    intro b h
    have hst : b.status = .returned () := by
      by_contra hne
      rw [constructLoop_stuck _ _ _ _ hne] at h
      exact hne h
    cases hsrc : src b.i with
    | none => simp [constructLoop, hst, Allocator.construct, hsrc] at h
    | some x =>
      by_cases hfA : b.alloc.failAfter = some 0
      · simp [constructLoop, hst, Allocator.construct, hsrc, hfA] at h
      · by_cases hidx : b.i + d < b.tmp.length
        · have hstep : constructLoop (fun i => i + d) src (n + 1) b =
              constructLoop (fun i => i + d) src n
                { alloc := { b.alloc with
                    constructions := b.alloc.constructions + 1,
                    failAfter := b.alloc.failAfter.map (fun k => k - 1) },
                  tmp := b.tmp.set (b.i + d) (some x), i := b.i + 1,
                  status := .returned () } := by
            rw [constructLoop]
            simp [hst, Allocator.construct, hsrc, hfA, hidx]
          rw [hstep] at h ⊢
          obtain ⟨_, h2, h3, h4, h5, h6⟩ := ih _ h
          simp only [List.length_set] at h2 h3 h4 h5 h6
          refine ⟨hst, by rw [h2]; omega, h3, ?_, ?_, ?_⟩
          · intro _
            by_cases hn : n = 0
            · omega
            · have := h4 hn
              omega
          · intro i hi1 hi2
            by_cases hi : i = b.i
            · rw [hi, hsrc]; simp
            · exact h5 i (by omega) (by omega)
          · intro j
            rw [h6 j]
            simp only [List.getElem?_set]
            by_cases hj : b.i + d = j
            · subst hj
              have : ¬ (b.i + 1 + d ≤ b.i + d ∧ b.i + d < b.i + 1 + d + n) := by omega
              simp [this, hidx, hsrc]
            · by_cases hc : b.i + 1 + d ≤ j ∧ j < b.i + 1 + d + n
              · have : b.i + d ≤ j ∧ j < b.i + d + (n + 1) := by omega
                simp [hc, this]
              · have : ¬ (b.i + d ≤ j ∧ j < b.i + d + (n + 1)) := by omega
                simp [hc, this, hj]
        · simp [constructLoop, hst, Allocator.construct, hsrc, hfA, hidx] at h

theorem constructLoop_id_returned {T : Type} (src : Nat → Option T) (n : Nat) (b : Build T)
    (h : (constructLoop (fun i => i) src n b).status = .returned ()) :
    b.status = .returned () ∧
    (constructLoop (fun i => i) src n b).i = b.i + n ∧
    (constructLoop (fun i => i) src n b).tmp.length = b.tmp.length ∧
    (n ≠ 0 → b.i + n ≤ b.tmp.length) ∧
    (∀ i, b.i ≤ i → i < b.i + n → src i ≠ none) ∧
    ∀ j, (constructLoop (fun i => i) src n b).tmp[j]? =
      if b.i ≤ j ∧ j < b.i + n then some (src j) else b.tmp[j]? :=
  constructLoop_returned 0 src n b h

theorem constructLoop_status {T : Type} (dst : Nat → Nat) (src : Nat → Option T) :
    ∀ (n : Nat) (b : Build T), b.status = .returned () →
      ∀ e, (constructLoop dst src n b).status = .threw e → e = .element_failure := by
  intro n
  induction n with
  | zero =>
    intro b hb e he
    rw [constructLoop, hb] at he
    cases he
  | succ n ih =>
    intro b hb e he
    cases hsrc : src b.i with
    | none => simp [constructLoop, hb, Allocator.construct, hsrc] at he
    | some x =>
      by_cases hfA : b.alloc.failAfter = some 0
      · simp [constructLoop, hb, Allocator.construct, hsrc, hfA] at he
        exact he.symm
      · by_cases hidx : dst b.i < b.tmp.length
        · rw [constructLoop] at he
          simp only [hb, Allocator.construct, hsrc, hfA, hidx, if_true, if_false] at he
          exact ih _ rfl e he
        · simp [constructLoop, hb, Allocator.construct, hsrc, hfA, hidx] at he

theorem constructLoop_fails {T : Type} (value : T) :
    ∀ (m n : Nat) (b : Build T), b.status = .returned () → b.alloc.failAfter = some m →
      m < n → b.i + n ≤ b.tmp.length →
      (constructLoop (fun i => i) (fun _ => some value) n b).status = .threw .element_failure ∧
      (constructLoop (fun i => i) (fun _ => some value) n b).i = b.i + m ∧
      (constructLoop (fun i => i) (fun _ => some value) n b).alloc =
        { b.alloc with constructions := b.alloc.constructions + m, failAfter := some 0 } ∧
      (constructLoop (fun i => i) (fun _ => some value) n b).tmp.length = b.tmp.length := by
  intro m
  induction m with
  | zero =>
    intro n b hs hf hmn _
    obtain ⟨n, rfl⟩ : ∃ n1, n = n1 + 1 := ⟨n - 1, by omega⟩
    have hstep : constructLoop (fun i => i) (fun _ => some value) (n + 1) b =
        { alloc := b.alloc, tmp := b.tmp, i := b.i, status := .threw .element_failure } := by
      rw [constructLoop]
      simp [hs, Allocator.construct, hf]
    rw [hstep]
    refine ⟨rfl, rfl, ?_, rfl⟩
    cases hb : b.alloc
    simp only [hb] at hf
    simp [hf]
  | succ m ih =>
    intro n b hs hf hmn hlen
    obtain ⟨n, rfl⟩ : ∃ n1, n = n1 + 1 := ⟨n - 1, by omega⟩
    have hidx : b.i < b.tmp.length := by omega
    have hstep : constructLoop (fun i => i) (fun _ => some value) (n + 1) b =
        constructLoop (fun i => i) (fun _ => some value) n
          { alloc := { b.alloc with constructions := b.alloc.constructions + 1,
                                    failAfter := some m },
            tmp := b.tmp.set b.i (some value), i := b.i + 1, status := .returned () } := by
      rw [constructLoop]
      simp [hs, Allocator.construct, hf, hidx]
    rw [hstep]
    obtain ⟨h1, h2, h3, h4⟩ := ih n
      { alloc := { b.alloc with constructions := b.alloc.constructions + 1,
                                failAfter := some m },
        tmp := b.tmp.set b.i (some value), i := b.i + 1, status := .returned () }
      rfl rfl (by omega) (by simp; omega)
    simp only [List.length_set] at h2 h4
    refine ⟨h1, by rw [h2]; omega, ?_, h4⟩
    rw [h3]
    simp
    omega

theorem adopt_threw {T R : Type} (v : vector T) (b : Build T) (new_size new_cap : Nat) (r : R)
    (e : Exn) (h : (adopt v b new_size new_cap r).result = .threw e) : b.status = .threw e := by
  unfold adopt at h
  cases hst : b.status with
  | returned u =>
    simp only [hst] at h
    cases hr : release b.alloc v <;> simp [hr] at h
  | threw e1 =>
    simp only [hst, rollback] at h
    cases hu : unwindLoop b.i b.alloc b.tmp <;> simp [hu] at h
    rw [h]
  | undefined => simp [hst] at h

theorem adopt_fails {T R : Type} (v : vector T) (b : Build T) (new_size new_cap : Nat) (r : R)
    (e : Exn) (hs : b.status = .threw e) (h : b.i ≤ b.tmp.length) :
    adopt v b new_size new_cap r =
      { alloc := { b.alloc with destructions := b.alloc.destructions + b.i,
                                deallocations := b.alloc.deallocations + 1,
                                leaked := b.alloc.leaked + live (b.tmp.drop b.i) },
        self := v, result := .threw e } := by
  obtain ⟨p1, hp1, hl1, hs1⟩ := unwindLoop_slots b.i b.alloc b.tmp h
  have hlive := live_of_destroyed b.tmp p1 b.i hs1
  simp [adopt, hs, rollback, hp1, Allocator.deallocate, hlive]

/-! ## Element access -/

/-- C3: on every vector, `at(pos)` throws `out_of_range` exactly when `pos >= size()`; on a
vector holding `es`, for `pos < size()` it returns `es[pos]`, and so do `operator[](pos)`
and `data()[pos]`. -/
theorem vector.at_spec {T : Type} (v : vector T) (pos : Nat) :
    (v.at_ pos = .threw .out_of_range ↔ pos ≥ v.size) ∧
    (∀ es, v.Holds es → pos < v.size → ∃ x, es[pos]? = some x ∧ v.at_ pos = .returned x ∧
      v.subscript pos = .returned x ∧ vector.deref v.data pos = .returned x) := by
  have hthrow : ∀ q, vector.deref v._data q ≠ .threw .out_of_range := by
    intro q
    unfold vector.deref
    cases load v._data q <;> simp
  constructor
  · unfold vector.at_ vector.size
    by_cases h : pos ≥ v._size
    · simp [h]
    · simp only [h, if_false, iff_false]
      exact hthrow pos
  · intro es hv hpos
    have hlt : pos < es.length := by
      have := hv.1
      unfold vector.size at hpos
      omega
    refine ⟨es[pos], List.getElem?_eq_getElem hlt, ?_⟩
    have hd : vector.deref v._data pos = .returned es[pos] := by
      unfold vector.deref
      rw [hv.load pos hlt, List.getElem?_eq_getElem hlt]
    have hge : ¬ pos ≥ v._size := by
      unfold vector.size at hpos
      omega
    refine ⟨?_, hd, hd⟩
    unfold vector.at_
    rw [if_neg hge]
    exact hd

/-! ## Erasing -/

/-- C4: on a vector holding `es`, `erase(pos)` with `pos` at offset `k < size()` returns the
iterator at offset `k` and leaves the vector holding `es[0..k) ++ es[k+1..)`, its size one
less and its capacity unchanged (no construction throws, and the capacity is one the
allocator grants). -/
theorem vector.erase_spec {T : Type} (a : Allocator) (v : vector T) (es : List T) (k : Nat)
    (hv : v.Holds es) (hk : k < es.length) (hf : a.failAfter = none)
    (hm : v._capacity ≤ a.max_size) (hra : a.refuseAfter = none) :
    (v.erase a k).result = .returned k ∧
    (v.erase a k).self.Holds (es.take k ++ es.drop (k + 1)) ∧
    (v.erase a k).self.size + 1 = v.size ∧
    (v.erase a k).self.capacity = v.capacity := by
  obtain ⟨hs, hc, hM, _⟩ := id hv
  have hle := hv.size_le
  have hsub : size_sub v._size 1 = es.length - 1 := by
    rw [hs]; exact size_sub_eq _ _ (by omega) (by omega)
  obtain ⟨s1, i1, a1, l1, g1⟩ := constructLoop_id (fun i => load v._data i) k
    { alloc := { a with allocations := a.allocations + 1 },
      tmp := List.replicate v._capacity none, i := 0, status := .returned () }
    rfl hf (fun i _ hi => hv.load_ne_none i (by simp at hi; omega)) (by simp; omega)
  generalize hb1 : constructLoop (fun i => i) (fun i => load v._data i) k
    { alloc := { a with allocations := a.allocations + 1 },
      tmp := List.replicate v._capacity none, i := 0, status := .returned () } = b1 at *
  simp only [List.length_replicate, zero_add] at i1 l1 g1
  obtain ⟨s2, i2, a2, l2, g2⟩ := constructLoop_id (fun i => load v._data (i + 1))
    (es.length - 1 - k) b1 s1 (by rw [a1]; exact hf)
    (fun i _ hi => hv.load_ne_none (i + 1) (by omega)) (by omega)
  generalize hb2 : constructLoop (fun i => i) (fun i => load v._data (i + 1))
    (es.length - 1 - k) b1 = b2 at *
  have hE : v.erase a k =
      { alloc := { b2.alloc with destructions := b2.alloc.destructions + v._size,
                                 deallocations := b2.alloc.deallocations + 1,
                                 leaked := b2.alloc.leaked + live (v._data.drop v._size) },
        self := { _data := b2.tmp, _size := es.length - 1, _capacity := v._capacity },
        result := .returned k } := by
    simp only [vector.erase, allocate_ok a _ hm hra, Nat.sub_zero, hb1, hsub, i1, hb2]
    exact adopt_ok v b2 _ _ _ s2 (by omega)
  rw [hE]
  refine ⟨rfl, ?_, ?_, rfl⟩
  · refine vector.Holds.of_slots ?_ ?_ hM ?_
    · simp [length_splice es [] k (k + 1) (by omega)]; omega
    · simp only; omega
    · intro j hj
      have hj2 : j < es.length - 1 := by
        have := length_splice es [] k (k + 1) (by omega)
        simp at this hj
        omega
      have := getElem?_splice es [] k (k + 1) j (by omega)
      simp only [List.append_nil, List.length_nil, Nat.add_zero] at this
      simp only
      rw [this, g2 j, g1 j, i1]
      by_cases hjk : j < k
      · have : ¬ (k ≤ j ∧ j < k + (es.length - 1 - k)) := by omega
        simp [hjk, this, hv.load j (by omega)]
      · have : k ≤ j ∧ j < k + (es.length - 1 - k) := by omega
        simp only [hjk, this, if_true, if_false, and_self]
        rw [hv.load (j + 1) (by omega)]
        have hidx : k + 1 + (j - k - 0) = j + 1 := by omega
        rw [hidx]
  · simp [vector.size]; omega

/-- C5: on a vector holding `es`, `erase(first, last)` with offsets `first <= last <= size()`
returns the iterator at offset `first` and leaves the vector holding
`es[0..first) ++ es[last..)`, its size `last - first` less and its capacity unchanged; with
`first == last` the vector holds `es` as before. -/
theorem vector.erase_range_spec {T : Type} (al : Allocator) (v : vector T) (es : List T)
    (first last : Nat) (hv : v.Holds es) (hfl : first ≤ last) (hl : last ≤ es.length)
    (hf : al.failAfter = none) (hm : v._capacity ≤ al.max_size)
    (hra : al.refuseAfter = none) :
    (v.erase_range al first last).result = .returned first ∧
    (v.erase_range al first last).self.Holds (es.take first ++ es.drop last) ∧
    (v.erase_range al first last).self.size + (last - first) = v.size ∧
    (v.erase_range al first last).self.capacity = v.capacity ∧
    (first = last → (v.erase_range al first last).self.Holds es ∧
      (v.erase_range al first last).self.size = v.size) := by
  obtain ⟨hs, hc, hM, _⟩ := id hv
  have hle := hv.size_le
  have hdiff : size_sub last first = last - first := size_sub_eq _ _ hfl (by omega)
  have hsub : size_sub v._size (last - first) = es.length - (last - first) := by
    rw [hs]; exact size_sub_eq _ _ (by omega) (by omega)
  have hadd : ∀ i, i + (last - first) < es.length →
      size_add i (last - first) = i + (last - first) :=
    fun i hi => size_add_eq _ _ (by omega)
  obtain ⟨s1, i1, a1, l1, g1⟩ := constructLoop_id (fun i => load v._data i) first
    { alloc := { al with allocations := al.allocations + 1 },
      tmp := List.replicate v._capacity none, i := 0, status := .returned () }
    rfl hf (fun i _ hi => hv.load_ne_none i (by simp at hi; omega)) (by simp; omega)
  generalize hb1 : constructLoop (fun i => i) (fun i => load v._data i) first
    { alloc := { al with allocations := al.allocations + 1 },
      tmp := List.replicate v._capacity none, i := 0, status := .returned () } = b1 at *
  simp only [List.length_replicate, zero_add] at i1 l1 g1
  obtain ⟨s2, i2, a2, l2, g2⟩ := constructLoop_id
    (fun i => load v._data (size_add i (last - first)))
    (es.length - (last - first) - first) b1 s1 (by rw [a1]; exact hf)
    (fun i _ hi => by
      simp only
      rw [hadd i (by omega)]
      exact hv.load_ne_none _ (by omega)) (by omega)
  generalize hb2 : constructLoop (fun i => i)
    (fun i => load v._data (size_add i (last - first)))
    (es.length - (last - first) - first) b1 = b2 at *
  have hE : v.erase_range al first last =
      { alloc := { b2.alloc with destructions := b2.alloc.destructions + v._size,
                                 deallocations := b2.alloc.deallocations + 1,
                                 leaked := b2.alloc.leaked + live (v._data.drop v._size) },
        self := { _data := b2.tmp, _size := es.length - (last - first),
                  _capacity := v._capacity },
        result := .returned first } := by
    simp only [vector.erase_range, allocate_ok al _ hm hra, Nat.sub_zero, hb1, hdiff, hsub, i1, hb2]
    exact adopt_ok v b2 _ _ _ s2 (by omega)
  rw [hE]
  have hH : vector.Holds
      ({ _data := b2.tmp, _size := es.length - (last - first), _capacity := v._capacity } :
        vector T) (es.take first ++ es.drop last) := by
    refine vector.Holds.of_slots ?_ ?_ hM ?_
    · simp [length_splice es [] first last (by omega)]; omega
    · simp only; omega
    · intro j hj
      have hj2 : j < es.length - (last - first) := by
        have := length_splice es [] first last (by omega)
        simp at this hj
        omega
      have := getElem?_splice es [] first last j (by omega)
      simp only [List.append_nil, List.length_nil, Nat.add_zero] at this
      simp only
      rw [this, g2 j, g1 j, i1]
      by_cases hjk : j < first
      · have : ¬ (first ≤ j ∧ j < first + (es.length - (last - first) - first)) := by omega
        simp [hjk, this, hv.load j (by omega)]
      · have : first ≤ j ∧ j < first + (es.length - (last - first) - first) := by omega
        simp only [hjk, this, if_true, if_false, and_self]
        rw [hadd j (by omega), hv.load _ (by omega)]
        have hidx : last + (j - first - 0) = j + (last - first) := by omega
        rw [hidx]
  refine ⟨rfl, hH, ?_, rfl, ?_⟩
  · simp [vector.size]; omega
  · intro he
    subst he
    rw [List.take_append_drop] at hH
    refine ⟨hH, ?_⟩
    simp [vector.size]; omega

/-! ## Reserving and assigning -/

theorem allocate_eq_none {T : Type} (a : Allocator) (n : Nat) :
    (a.allocate n : Option (Allocator × Buffer T)) = none ↔
      n > a.max_size ∨ a.refuseAfter = some 0 := by
  unfold Allocator.allocate
  by_cases h : n > a.max_size ∨ a.refuseAfter = some 0
  · simp [h]
  · simp [h]

theorem adopt_not_returned {T R : Type} (v : vector T) (b : Build T) (new_size new_cap : Nat)
    (r : R) (h : b.status ≠ .returned ()) :
    (adopt v b new_size new_cap r).self = v ∧
    ∀ r1, (adopt v b new_size new_cap r).result ≠ .returned r1 := by
  unfold adopt
  cases hst : b.status with
  | returned u => exact absurd hst h
  | threw e =>
    simp only [rollback]
    cases hu : unwindLoop b.i b.alloc b.tmp <;> simp
  | undefined => simp

theorem constructLoop_fails_slots {T : Type} (value : T) :
    ∀ (m n : Nat) (b : Build T), b.status = .returned () → b.alloc.failAfter = some m →
      m < n → b.i + n ≤ b.tmp.length →
      ∀ j, (constructLoop (fun i => i) (fun _ => some value) n b).tmp[j]? =
        if b.i ≤ j ∧ j < b.i + m then some (some value) else b.tmp[j]? := by
  intro m
  induction m with
  | zero =>
    intro n b hs hf hmn _ j
    obtain ⟨n, rfl⟩ : ∃ n1, n = n1 + 1 := ⟨n - 1, by omega⟩
    have hstep : constructLoop (fun i => i) (fun _ => some value) (n + 1) b =
        { alloc := b.alloc, tmp := b.tmp, i := b.i, status := .threw .element_failure } := by
      rw [constructLoop]
      simp [hs, Allocator.construct, hf]
    rw [hstep, if_neg (by omega)]
  | succ m ih =>
    intro n b hs hf hmn hlen j
    obtain ⟨n, rfl⟩ : ∃ n1, n = n1 + 1 := ⟨n - 1, by omega⟩
    have hidx : b.i < b.tmp.length := by omega
    have hstep : constructLoop (fun i => i) (fun _ => some value) (n + 1) b =
        constructLoop (fun i => i) (fun _ => some value) n
          { alloc := { b.alloc with constructions := b.alloc.constructions + 1,
                                    failAfter := some m },
            tmp := b.tmp.set b.i (some value), i := b.i + 1, status := .returned () } := by
      rw [constructLoop]
      simp [hs, Allocator.construct, hf, hidx]
    rw [hstep, ih n _ rfl rfl (by omega) (by simp; omega) j]
    simp only [List.getElem?_set]
    by_cases h1 : b.i = j
    · subst h1
      simp [hidx]
    · by_cases h2 : b.i + 1 ≤ j ∧ j < b.i + 1 + m
      · have : b.i ≤ j ∧ j < b.i + (m + 1) := by omega
        simp [h2, this]
      · have : ¬ (b.i ≤ j ∧ j < b.i + (m + 1)) := by omega
        simp [h2, this, h1]

/-- C9: `reserve(new_cap)` throws `length_error` exactly when `new_cap > max_size()`, and
`bad_alloc` exactly when it asks the allocator for a block and is refused.  Otherwise, on a
vector holding `es`: whatever the outcome, the vector still holds `es` and its size is
unchanged; the call returns when the allocator grants the block and no construction throws;
whenever it returns, the capacity is the larger of the old capacity and `new_cap`; whenever
it does not return, the members are untouched; and with `new_cap <= capacity()` it returns
with the members untouched. -/
theorem vector.reserve_spec {T : Type} (al : Allocator) (v : vector T) (new_cap : Nat) :
    ((v.reserve al new_cap).result = .threw .length_error ↔ new_cap > al.max_size) ∧
    ((v.reserve al new_cap).result = .threw .bad_alloc ↔
      new_cap ≤ al.max_size ∧ v.capacity < new_cap ∧ al.refuseAfter = some 0) ∧
    (∀ es, v.Holds es → new_cap < SIZE_MODULUS → new_cap ≤ al.max_size →
      (v.reserve al new_cap).self.Holds es ∧
      (v.reserve al new_cap).self.size = v.size ∧
      (al.failAfter = none → al.refuseAfter ≠ some 0 →
        (v.reserve al new_cap).result = .returned ()) ∧
      ((v.reserve al new_cap).result = .returned () →
        (v.reserve al new_cap).self.capacity = max v.capacity new_cap) ∧
      ((v.reserve al new_cap).result ≠ .returned () → (v.reserve al new_cap).self = v) ∧
      (new_cap ≤ v.capacity →
        (v.reserve al new_cap).result = .returned () ∧ (v.reserve al new_cap).self = v)) := by
  -- the three ways the call can go
  have hlen : new_cap > al.max_size →
      v.reserve al new_cap = { alloc := al, self := v, result := .threw .length_error } := by
    intro h
    simp only [vector.reserve, if_pos h]
  have hnoop : ¬ new_cap > al.max_size → ¬ new_cap > v._capacity →
      v.reserve al new_cap = { alloc := al, self := v, result := .returned () } := by
    intro h1 h2
    simp only [vector.reserve, if_neg h1, if_neg h2]
  have hrefused : ¬ new_cap > al.max_size → new_cap > v._capacity → al.refuseAfter = some 0 →
      v.reserve al new_cap = { alloc := al, self := v, result := .threw .bad_alloc } := by
    intro h1 h2 h3
    have : (al.allocate new_cap : Option (Allocator × Buffer T)) = none :=
      (allocate_eq_none al new_cap).mpr (Or.inr h3)
    simp only [vector.reserve, if_neg h1, if_pos h2, this]
  have hbuilt : ¬ new_cap > al.max_size → new_cap > v._capacity → al.refuseAfter ≠ some 0 →
      v.reserve al new_cap = adopt v
        (constructLoop (fun i => i) (fun i => load v._data i) v._size
          { alloc := { al with allocations := al.allocations + 1,
                               refuseAfter := al.refuseAfter.map (fun k => k - 1) },
            tmp := List.replicate new_cap none, i := 0, status := .returned () })
        v._size new_cap () := by
    intro h1 h2 h3
    rcases (allocate_cases al new_cap :
      (al.allocate new_cap : Option (Allocator × Buffer T)) = none ∨ _) with ha | ha
    · rcases (allocate_eq_none al new_cap).mp ha with h | h
      · exact absurd h h1
      · exact absurd h h3
    · simp only [vector.reserve, if_neg h1, if_pos h2, ha, Nat.sub_zero]
  have helem : ∀ e, (adopt v
        (constructLoop (fun i => i) (fun i => load v._data i) v._size
          { alloc := { al with allocations := al.allocations + 1,
                               refuseAfter := al.refuseAfter.map (fun k => k - 1) },
            tmp := List.replicate new_cap none, i := 0, status := .returned () })
        v._size new_cap ()).result = .threw e → e = .element_failure := by
    intro e h
    exact constructLoop_status _ _ _ _ rfl _ (adopt_threw _ _ _ _ _ _ h)
  refine ⟨⟨?_, ?_⟩, ⟨?_, ?_⟩, ?_⟩
  · intro h
    by_contra h1
    by_cases h2 : new_cap > v._capacity
    · by_cases h3 : al.refuseAfter = some 0
      · rw [hrefused h1 h2 h3] at h
        cases h
      · rw [hbuilt h1 h2 h3] at h
        cases helem _ h
    · rw [hnoop h1 h2] at h
      cases h
  · intro h
    rw [hlen h]
  · intro h
    by_cases h1 : new_cap > al.max_size
    · rw [hlen h1] at h
      cases h
    · by_cases h2 : new_cap > v._capacity
      · by_cases h3 : al.refuseAfter = some 0
        · exact ⟨by omega, h2, h3⟩
        · rw [hbuilt h1 h2 h3] at h
          cases helem _ h
      · rw [hnoop h1 h2] at h
        cases h
  · rintro ⟨h1, h2, h3⟩
    rw [hrefused (by omega) h2 h3]
  · intro es hv hn hle
    obtain ⟨hs, hc, hM, _⟩ := id hv
    have hsl := hv.size_le
    have h1 : ¬ new_cap > al.max_size := by omega
    by_cases h2 : new_cap > v._capacity
    · by_cases h3 : al.refuseAfter = some 0
      · rw [hrefused h1 h2 h3]
        refine ⟨hv, rfl, fun _ h => absurd h3 h, fun h => (by cases h), fun _ => rfl, fun h => ?_⟩
        simp only [vector.capacity] at h
        omega
      · rw [hbuilt h1 h2 h3]
        have hfwd := constructLoop_id (fun i => load v._data i) v._size
          { alloc := { al with allocations := al.allocations + 1,
                               refuseAfter := al.refuseAfter.map (fun k => k - 1) },
            tmp := List.replicate new_cap none, i := 0, status := .returned () } rfl
        have hinv := constructLoop_id_returned (fun i => load v._data i) v._size
          { alloc := { al with allocations := al.allocations + 1,
                               refuseAfter := al.refuseAfter.map (fun k => k - 1) },
            tmp := List.replicate new_cap none, i := 0, status := .returned () }
        generalize constructLoop (fun i => i) (fun i => load v._data i) v._size
          { alloc := { al with allocations := al.allocations + 1,
                               refuseAfter := al.refuseAfter.map (fun k => k - 1) },
            tmp := List.replicate new_cap none, i := 0, status := .returned () } = b1 at *
        by_cases hst : b1.status = .returned ()
        · obtain ⟨_, _, l1, _, _, g1⟩ := hinv hst
          simp only [List.length_replicate, zero_add] at l1 g1
          rw [adopt_ok v b1 _ _ _ hst (by omega)]
          refine ⟨?_, rfl, fun _ _ => rfl, fun _ => ?_, fun h => absurd rfl h, fun h => ?_⟩
          · refine vector.Holds.of_slots hs l1 hn ?_
            intro j hj
            simp only
            rw [g1 j, if_pos (by omega), hv.load j hj]
          · simp only [vector.capacity]
            rw [max_eq_right (by omega)]
          · simp only [vector.capacity] at h
            omega
        · obtain ⟨k1, k2⟩ := adopt_not_returned v b1 v._size new_cap () hst
          rw [k1]
          refine ⟨hv, rfl, fun hf _ => ?_, fun h => absurd h (k2 ()), fun _ => rfl, fun h => ?_⟩
          · exact absurd (hfwd hf (fun i _ hi => hv.load_ne_none i (by simp at hi; omega))
              (by simp; omega)).1 hst
          · simp only [vector.capacity] at h
            omega
    · rw [hnoop h1 h2]
      refine ⟨hv, rfl, fun _ _ => rfl, fun _ => ?_, fun _ => rfl, fun _ => ⟨rfl, rfl⟩⟩
      simp only [vector.capacity]
      rw [max_eq_left (by omega)]

/-- C10: when the `k`-th element construction of `assign(n, v)` throws (`1 <= k <= n`, the
allocator having granted the new buffer), the exception reaches the caller and the members
of the vector are exactly those before the call.  One buffer was allocated and one
deallocated; `k - 1` elements were constructed in the new buffer and `k - 1` destroy calls
were made; and no element was still constructed in the new buffer when it was deallocated,
so the destroyed slots are those of the constructed prefix. -/
theorem vector.assign_failure {T : Type} (al : Allocator) (v : vector T) (n : Nat) (value : T)
    (k : Nat) (hk1 : 1 ≤ k) (hkn : k ≤ n) (hn : n ≤ al.max_size)
    (hra : al.refuseAfter ≠ some 0) (hf : al.failAfter = some (k - 1)) :
    (v.assign al n value).result = .threw .element_failure ∧
    (v.assign al n value).self = v ∧
    (v.assign al n value).alloc.allocations = al.allocations + 1 ∧
    (v.assign al n value).alloc.deallocations = al.deallocations + 1 ∧
    (v.assign al n value).alloc.constructions = al.constructions + (k - 1) ∧
    (v.assign al n value).alloc.destructions = al.destructions + (k - 1) ∧
    (v.assign al n value).alloc.leaked = al.leaked := by
  have ha : (al.allocate n : Option (Allocator × Buffer T)) =
      some ({ al with allocations := al.allocations + 1,
                      refuseAfter := al.refuseAfter.map (fun k => k - 1) },
            List.replicate n none) := by
    rcases (allocate_cases al n :
      (al.allocate n : Option (Allocator × Buffer T)) = none ∨ _) with h | h
    · rcases (allocate_eq_none al n).mp h with h1 | h1
      · omega
      · exact absurd h1 hra
    · exact h
  obtain ⟨s1, i1, a1, l1⟩ := constructLoop_fails value (k - 1) n
    { alloc := { al with allocations := al.allocations + 1,
                         refuseAfter := al.refuseAfter.map (fun k => k - 1) },
      tmp := List.replicate n none, i := 0, status := .returned () }
    rfl hf (by omega) (by simp)
  have g1 := constructLoop_fails_slots value (k - 1) n
    { alloc := { al with allocations := al.allocations + 1,
                         refuseAfter := al.refuseAfter.map (fun k => k - 1) },
      tmp := List.replicate n none, i := 0, status := .returned () }
    rfl hf (by omega) (by simp)
  generalize hb1 : constructLoop (fun i => i) (fun _ => some value) n
    { alloc := { al with allocations := al.allocations + 1,
                         refuseAfter := al.refuseAfter.map (fun k => k - 1) },
      tmp := List.replicate n none, i := 0, status := .returned () } = b1 at *
  simp only [List.length_replicate, zero_add] at i1 l1 g1
  -- past the constructed prefix the new buffer is raw
  have hraw : b1.tmp.drop b1.i = List.replicate (n - (k - 1)) none := by
    apply List.ext_getElem?
    intro j
    rw [i1, List.getElem?_drop, g1, if_neg (by omega)]
    simp only [List.getElem?_replicate]
    by_cases hj : j < n - (k - 1)
    · rw [if_pos (by omega), if_pos hj]
    · rw [if_neg (by omega), if_neg hj]
  have hE : v.assign al n value =
      { alloc := { b1.alloc with destructions := b1.alloc.destructions + b1.i,
                                 deallocations := b1.alloc.deallocations + 1,
                                 leaked := b1.alloc.leaked + live (b1.tmp.drop b1.i) },
        self := v, result := .threw .element_failure } := by
    simp only [vector.assign, ha, Nat.sub_zero, hb1]
    exact adopt_fails v b1 _ _ _ _ s1 (by omega)
  rw [hE, hraw, live_replicate_none, a1, i1]
  exact ⟨rfl, rfl, rfl, rfl, rfl, rfl, rfl⟩

/-! ## Appending -/

theorem size_shl1_eq (x : Nat) (h : 2 * x < SIZE_MODULUS) : size_shl1 x = 2 * x :=
  Nat.mod_eq_of_lt h

theorem vector.push_back_ok {T : Type} (al : Allocator) (v : vector T) (es : List T) (x : T)
    (hv : v.Holds es) (hf : al.failAfter = none) (hmax : al.max_size < SIZE_MODULUS)
    (hcap : (if v._capacity = 0 then 1
      else if v._size = v._capacity then 2 * v._capacity else v._capacity) ≤ al.max_size)
    (hra : al.refuseAfter = none) :
    (v.push_back al (.outside x)).result = .returned () ∧
    (v.push_back al (.outside x)).self.Holds (es ++ [x]) ∧
    (v.push_back al (.outside x)).self._capacity = (if v._capacity = 0 then 1
      else if v._size = v._capacity then 2 * v._capacity else v._capacity) ∧
    (v.push_back al (.outside x)).alloc.failAfter = none ∧
    (v.push_back al (.outside x)).alloc.max_size = al.max_size ∧
    (v.push_back al (.outside x)).alloc.refuseAfter = none := by
  obtain ⟨hs, hc, hM, _⟩ := id hv
  have hsl := hv.size_le
  have hget : ∀ j, (es ++ [x])[j]? = if j < es.length then es[j]? else
      if j < es.length + 1 then some x else none := by
    intro j
    rw [List.getElem?_append]
    by_cases h1 : j < es.length
    · simp [h1]
    · by_cases h2 : j < es.length + 1
      · have : j - es.length = 0 := by omega
        simp [h1, h2, this]
      · have : j - es.length ≠ 0 := by omega
        simp [h1, h2]
        omega
  by_cases hg : v._capacity = 0 ∨ v._size = v._capacity
  · -- the growth branch
    generalize hnc : (if v._capacity = 0 then 1
      else if v._size = v._capacity then 2 * v._capacity else v._capacity) = nc at hcap ⊢
    have hnc1 : (if v._capacity = 0 then 1 else size_shl1 v._capacity) = nc := by
      by_cases h0 : v._capacity = 0
      · simp [h0] at hnc ⊢; exact hnc
      · have hsz : v._size = v._capacity := by tauto
        simp only [h0, hsz, if_true, if_false] at hnc ⊢
        rw [size_shl1_eq _ (by omega)]
        exact hnc
    have hlt : v._size < nc := by
      by_cases h0 : v._capacity = 0
      · simp [h0] at hnc; omega
      · have hsz : v._size = v._capacity := by tauto
        simp only [h0, hsz, if_true, if_false] at hnc
        omega
    obtain ⟨s1, i1, a1, l1, g1⟩ := constructLoop_id (fun i => load v._data i) v._size
      { alloc := { al with allocations := al.allocations + 1 },
        tmp := List.replicate nc none, i := 0, status := .returned () }
      rfl hf (fun i _ hi => hv.load_ne_none i (by simp at hi; omega)) (by simp; omega)
    generalize hb1 : constructLoop (fun i => i) (fun i => load v._data i) v._size
      { alloc := { al with allocations := al.allocations + 1 },
        tmp := List.replicate nc none, i := 0, status := .returned () } = b1 at *
    simp only [List.length_replicate, zero_add] at i1 l1 g1
    simp only [] at a1
    have hadopt := adopt_ok v b1 v._size nc () s1 (by omega)
    have hlt2 : v._size < b1.tmp.length := by omega
    have hE : v.push_back al (.outside x) =
        { alloc := { al with allocations := al.allocations + 1,
                             constructions := al.constructions + v._size + 1,
                             destructions := al.destructions + v._size,
                             deallocations := al.deallocations + 1,
                             leaked := al.leaked + live (v._data.drop v._size) },
          self := { _data := b1.tmp.set v._size (some x), _size := v._size + 1,
                    _capacity := nc },
          result := .returned () } := by
      simp only [vector.push_back, if_pos hg, hnc1, allocate_ok al _ hcap hra, Nat.sub_zero,
        hb1, hadopt, Ref.read]
      simp [Allocator.construct, a1, hf, hlt2, size_add_eq v._size 1 (by omega)]
    rw [hE]
    refine ⟨rfl, ?_, rfl, hf, rfl, hra⟩
    refine vector.Holds.of_slots (by simp [hs]) (by simp [l1]) (by simp only; omega) ?_
    intro j hj
    simp only [List.length_append, List.length_singleton] at hj
    simp only [List.getElem?_set, hget j, hlt2, if_true, hj, g1 j]
    by_cases hjs : v._size = j
    · have : ¬ j < es.length := by omega
      simp [hjs, this]
    · have : j < es.length := by omega
      have hjs2 : ¬ es.length = j := by omega
      simp [hjs, hjs2, this, hs, hv.load j this]
  · -- room is left
    have h0 : ¬ v._capacity = 0 := fun h => hg (Or.inl h)
    have hsz : ¬ v._size = v._capacity := fun h => hg (Or.inr h)
    have hlt : v._size < v._data.length := by omega
    have hE : v.push_back al (.outside x) =
        { alloc := { al with constructions := al.constructions + 1 },
          self := { _data := v._data.set v._size (some x), _size := v._size + 1,
                    _capacity := v._capacity },
          result := .returned () } := by
      simp [vector.push_back, if_neg hg, Allocator.construct, hf, hlt, Ref.read,
        size_add_eq v._size 1 (by omega)]
    rw [hE]
    simp only [h0, hsz, if_false]
    refine ⟨trivial, ?_, trivial, hf, trivial, hra⟩
    refine vector.Holds.of_slots (by simp [hs]) (by simp [hc]) hM ?_
    intro j hj
    simp only [List.length_append, List.length_singleton] at hj
    simp only [List.getElem?_set, hget j, hlt, if_true, hj]
    by_cases hjs : v._size = j
    · have : ¬ j < es.length := by omega
      simp [hjs, this]
    · have : j < es.length := by omega
      have hjs2 : ¬ es.length = j := by omega
      simp [hjs, hjs2, this, hv.slot j this]

theorem pow2_least {n e : Nat} (h : e = 0 ∨ 2 ^ (e - 1) < n) :
    ∀ e', n ≤ 2 ^ e' → 2 ^ e ≤ 2 ^ e' := by
  intro e' hn
  rcases h with h | h
  · subst h
    simpa using Nat.one_le_two_pow
  · have h1 : 2 ^ (e - 1) < 2 ^ e' := lt_of_lt_of_le h hn
    have h2 : e - 1 < e' := (Nat.pow_lt_pow_iff_right (by norm_num)).mp h1
    exact Nat.pow_le_pow_right (by norm_num) (by omega)

theorem vector.push_back_all_inv {T : Type} (xs : List T) :
    ∀ (al : Allocator) (v : vector T) (es : List T),
      v.Holds es → al.failAfter = none → al.max_size < SIZE_MODULUS →
      al.refuseAfter = none →
      ((es.length = 0 ∧ v._capacity = 0) ∨
        ∃ e, v._capacity = 2 ^ e ∧ es.length ≤ 2 ^ e ∧ (e = 0 ∨ 2 ^ (e - 1) < es.length)) →
      (∃ e, es.length + xs.length ≤ 2 ^ e ∧ 2 ^ e ≤ al.max_size) →
      (v.push_back_all al (xs.map Ref.outside)).result = .returned () ∧
      (v.push_back_all al (xs.map Ref.outside)).self.Holds (es ++ xs) ∧
      (((es ++ xs).length = 0 ∧
          (v.push_back_all al (xs.map Ref.outside)).self._capacity = 0) ∨
        ∃ e, (v.push_back_all al (xs.map Ref.outside)).self._capacity = 2 ^ e ∧
          (es ++ xs).length ≤ 2 ^ e ∧ (e = 0 ∨ 2 ^ (e - 1) < (es ++ xs).length)) := by
  induction xs with
  | nil =>
    intro al v es hv _ _ _ hinv _
    simp only [List.map_nil, vector.push_back_all, List.append_nil]
    exact ⟨trivial, hv, hinv⟩
  | cons x xs ih =>
    intro al v es hv hf hmax hra hinv hfit
    obtain ⟨hs, hc, hM, _⟩ := id hv
    obtain ⟨e0, hfit1, hfit2⟩ := hfit
    simp only [List.length_cons] at hfit1
    have hpos0 : 1 ≤ 2 ^ e0 := Nat.one_le_two_pow
    -- the capacity after this push, with the invariant for it
    have hnew : (if v._capacity = 0 then 1
          else if v._size = v._capacity then 2 * v._capacity else v._capacity) ≤ al.max_size ∧
        ∃ e, (if v._capacity = 0 then 1
          else if v._size = v._capacity then 2 * v._capacity else v._capacity) = 2 ^ e ∧
          es.length + 1 ≤ 2 ^ e ∧ (e = 0 ∨ 2 ^ (e - 1) < es.length + 1) := by
      rcases hinv with ⟨h0, hc0⟩ | ⟨e, hce, hle, hlow⟩
      · simp only [hc0, if_true]
        exact ⟨by omega, 0, by simp, by simp [h0], Or.inl rfl⟩
      · have hpos : 1 ≤ 2 ^ e := Nat.one_le_two_pow
        have hne : ¬ v._capacity = 0 := by omega
        simp only [hne, if_false]
        by_cases hfull : v._size = v._capacity
        · simp only [hfull, if_true]
          have hlen : es.length = 2 ^ e := by omega
          have h1 : 2 ^ e < 2 ^ e0 := by omega
          have h2 : e < e0 := (Nat.pow_lt_pow_iff_right (by norm_num)).mp h1
          have h3 : 2 ^ (e + 1) ≤ 2 ^ e0 := Nat.pow_le_pow_right (by norm_num) (by omega)
          have h4 : 2 ^ (e + 1) = 2 * 2 ^ e := by rw [pow_succ]; ring
          refine ⟨by rw [hce]; omega, e + 1, by rw [hce]; omega, by omega, Or.inr ?_⟩
          simp only [Nat.add_sub_cancel]
          omega
        · simp only [hfull, if_false]
          have h3 : 2 ^ e ≤ 2 ^ e0 := pow2_least hlow e0 (by omega)
          refine ⟨by omega, e, hce, by omega, ?_⟩
          rcases hlow with h | h
          · exact Or.inl h
          · exact Or.inr (by omega)
    obtain ⟨hcap, e1, hcap1, hle1, hlow1⟩ := hnew
    obtain ⟨p1, p2, p3, p4, p5, p6⟩ := vector.push_back_ok al v es x hv hf hmax hcap hra
    cases hpb : v.push_back al (.outside x) with
    | mk a1 v1 r1 =>
      rw [hpb] at p1 p2 p3 p4 p5 p6
      simp only at p1 p2 p3 p4 p5 p6
      subst p1
      have hstep : v.push_back_all al ((x :: xs).map Ref.outside) =
          v1.push_back_all a1 (xs.map Ref.outside) := by
        simp only [List.map_cons, vector.push_back_all, hpb]
      rw [hstep]
      have := ih a1 v1 (es ++ [x]) p2 p4 (by omega) p6
        (Or.inr ⟨e1, by rw [p3]; exact hcap1, by simpa using hle1, by simpa using hlow1⟩)
        ⟨e0, by simp only [List.length_append, List.length_singleton]; omega, by omega⟩
      simpa only [List.append_assoc, List.singleton_append] using this

theorem vector.ctor_eq {T : Type} (al : Allocator) (hra : al.refuseAfter = none) :
    (vector.ctor al : Call T Unit) =
      { alloc := { al with allocations := al.allocations + 1 },
        self := { _data := [], _size := 0, _capacity := 0 }, result := .returned () } := by
  simp [vector.ctor, Allocator.allocate, hra]

theorem vector.push_back_from_empty_eq {T : Type} (al : Allocator) (xs : List (Ref T))
    (hra : al.refuseAfter = none) :
    vector.push_back_from_empty al xs =
      vector.push_back_all { al with allocations := al.allocations + 1 }
        ({ _data := [], _size := 0, _capacity := 0 } : vector T) xs := by
  simp only [vector.push_back_from_empty, vector.ctor_eq al hra]

theorem vector.push_back_from_empty_inv {T : Type} (al : Allocator) (xs : List T)
    (hf : al.failAfter = none) (hmax : al.max_size < SIZE_MODULUS)
    (hra : al.refuseAfter = none)
    (hfit : ∃ e, xs.length ≤ 2 ^ e ∧ 2 ^ e ≤ al.max_size) :
    (vector.push_back_from_empty al (xs.map Ref.outside)).result = .returned () ∧
    (vector.push_back_from_empty al (xs.map Ref.outside)).self.Holds xs ∧
    ((xs.length = 0 ∧ (vector.push_back_from_empty al (xs.map Ref.outside)).self._capacity = 0) ∨
      ∃ e, (vector.push_back_from_empty al (xs.map Ref.outside)).self._capacity = 2 ^ e ∧
        xs.length ≤ 2 ^ e ∧ (e = 0 ∨ 2 ^ (e - 1) < xs.length)) := by
  rw [vector.push_back_from_empty_eq al _ hra]
  have hempty : vector.Holds ({ _data := [], _size := 0, _capacity := 0 } : vector T) [] := by
    refine ⟨rfl, rfl, ?_, rfl⟩
    simp [SIZE_MODULUS]
  have := vector.push_back_all_inv xs { al with allocations := al.allocations + 1 }
    ({ _data := [], _size := 0, _capacity := 0 } : vector T) [] hempty hf hmax hra
    (Or.inl ⟨rfl, rfl⟩) (by simpa using hfit)
  simpa using this

/-- Pushing objects that lie outside the vector.  Starting from a default-constructed vector,
`push_back(v1), ..., push_back(vn)` with every argument an object outside the vector all
return and leave a vector of size `n` holding `[v1..vn]` in push order; its capacity is `0`
when `n = 0` and otherwise the smallest power of two that is at least `n`; and the capacity
after `i` pushes is at most the capacity after `j >= i` pushes.  (No construction throws,
and the allocator grants its blocks up to a power of two that is at least `n`.) -/
theorem vector.push_back_spec {T : Type} (al : Allocator) (vs : List T)
    (hf : al.failAfter = none) (hmax : al.max_size < SIZE_MODULUS)
    (hra : al.refuseAfter = none)
    (hfit : vs ≠ [] → ∃ e, vs.length ≤ 2 ^ e ∧ 2 ^ e ≤ al.max_size) :
    (vector.push_back_from_empty al (vs.map Ref.outside)).result = .returned () ∧
    (vector.push_back_from_empty al (vs.map Ref.outside)).self.Holds vs ∧
    (vector.push_back_from_empty al (vs.map Ref.outside)).self.size = vs.length ∧
    (vs.length = 0 → (vector.push_back_from_empty al (vs.map Ref.outside)).self.capacity = 0) ∧
    (0 < vs.length →
      ∃ e, (vector.push_back_from_empty al (vs.map Ref.outside)).self.capacity = 2 ^ e ∧
        vs.length ≤ 2 ^ e ∧ ∀ e', vs.length ≤ 2 ^ e' → 2 ^ e ≤ 2 ^ e') ∧
    (∀ i j, i ≤ j → j ≤ vs.length →
      (vector.push_back_from_empty al ((vs.take i).map Ref.outside)).self.capacity ≤
        (vector.push_back_from_empty al ((vs.take j).map Ref.outside)).self.capacity) := by
  have hnil : vector.push_back_from_empty al (([] : List T).map Ref.outside) =
      { alloc := { al with allocations := al.allocations + 1 },
        self := { _data := [], _size := 0, _capacity := 0 }, result := .returned () } := by
    rw [vector.push_back_from_empty_eq al _ hra]
    rfl
  -- every non-empty run of pushes that is no longer than `vs` meets the invariant
  have hrun : ∀ xs : List T, xs ≠ [] → xs.length ≤ vs.length →
      (vector.push_back_from_empty al (xs.map Ref.outside)).result = .returned () ∧
      (vector.push_back_from_empty al (xs.map Ref.outside)).self.Holds xs ∧
      ∃ e, (vector.push_back_from_empty al (xs.map Ref.outside)).self._capacity = 2 ^ e ∧
        xs.length ≤ 2 ^ e ∧ (e = 0 ∨ 2 ^ (e - 1) < xs.length) := by
    intro xs hne hle
    have hvs : vs ≠ [] := by
      intro h
      rw [h] at hle
      exact hne (List.length_eq_zero.mp (by simpa using hle))
    obtain ⟨e, he1, he2⟩ := hfit hvs
    obtain ⟨r1, r2, r3⟩ := vector.push_back_from_empty_inv al xs hf hmax hra ⟨e, by omega, he2⟩
    refine ⟨r1, r2, ?_⟩
    rcases r3 with ⟨h0, _⟩ | h
    · exact absurd (List.length_eq_zero.mp h0) hne
    · exact h
  have hmain : (vector.push_back_from_empty al (vs.map Ref.outside)).result = .returned () ∧
      (vector.push_back_from_empty al (vs.map Ref.outside)).self.Holds vs := by
    by_cases hvs : vs = []
    · subst hvs
      rw [hnil]
      refine ⟨rfl, rfl, rfl, ?_, rfl⟩
      simp [SIZE_MODULUS]
    · exact ⟨(hrun vs hvs (le_refl _)).1, (hrun vs hvs (le_refl _)).2.1⟩
  refine ⟨hmain.1, hmain.2, hmain.2.1, ?_, ?_, ?_⟩
  · intro h0
    have hvs : vs = [] := List.length_eq_zero.mp h0
    subst hvs
    rw [hnil]
    rfl
  · intro hpos
    have hvs : vs ≠ [] := fun h => by simp [h] at hpos
    obtain ⟨_, _, e, h1, h2, h3⟩ := hrun vs hvs (le_refl _)
    exact ⟨e, h1, h2, pow2_least h3⟩
  · intro i j hij hj
    by_cases hi0 : i = 0
    · subst hi0
      rw [List.take_zero, hnil]
      exact Nat.zero_le _
    · have hli : (vs.take i).length = i := by simp; omega
      have hlj : (vs.take j).length = j := by simp; omega
      have hni : vs.take i ≠ [] := fun h => by rw [h] at hli; simp at hli; omega
      have hnj : vs.take j ≠ [] := fun h => by rw [h] at hlj; simp at hlj; omega
      obtain ⟨_, _, ei, hi1, _, hi3⟩ := hrun (vs.take i) hni (by omega)
      obtain ⟨_, _, ej, hj1, hj2, _⟩ := hrun (vs.take j) hnj (by omega)
      simp only [vector.capacity, hi1, hj1]
      rw [hli] at hi3
      rw [hlj] at hj2
      exact pow2_least hi3 ej (by omega)

/-- A reference to an element of the vector itself is read correctly when the call does not
grow the buffer: `push_back(v[pos])` then appends a copy of `es[pos]`. -/
theorem vector.push_back_element_ok {T : Type} (al : Allocator) (v : vector T) (es : List T)
    (pos : Nat) (x : T) (hv : v.Holds es) (hx : es[pos]? = some x)
    (hroom : v._size < v._capacity) (hf : al.failAfter = none) :
    (v.push_back al (.element pos)).result = .returned () ∧
    (v.push_back al (.element pos)).self.Holds (es ++ [x]) := by
  obtain ⟨hs, hc, hM, _⟩ := id hv
  have hpos : pos < es.length := by
    by_contra h
    rw [List.getElem?_eq_none (by omega)] at hx
    cases hx
  have hg : ¬ (v._capacity = 0 ∨ v._size = v._capacity) := by omega
  have hlt : v._size < v._data.length := by omega
  have hread : load v._data pos = some x := by rw [hv.load pos hpos, hx]
  have hE : v.push_back al (.element pos) =
      { alloc := { al with constructions := al.constructions + 1 },
        self := { _data := v._data.set v._size (some x), _size := v._size + 1,
                  _capacity := v._capacity },
        result := .returned () } := by
    simp [vector.push_back, if_neg hg, Allocator.construct, hf, hlt, Ref.read, hread,
      size_add_eq v._size 1 (by omega)]
  rw [hE]
  refine ⟨rfl, vector.Holds.of_slots (by simp [hs]) (by simp [hc]) hM ?_⟩
  intro j hj
  simp only [List.length_append, List.length_singleton] at hj
  simp only [List.getElem?_set, hlt, if_true]
  by_cases hjs : v._size = j
  · rw [if_pos hjs, List.getElem?_append_right (by omega)]
    have : j - es.length = 0 := by omega
    simp [this]
  · rw [if_neg hjs, hv.slot j (by omega), List.getElem?_append_left (by omega)]

/-- A reference to an element of the vector itself is read after the old buffer has been
destroyed and deallocated when the call grows the buffer: `push_back(v[pos])` on a vector
with `size() == capacity()` never returns normally. -/
theorem vector.push_back_element_dangles {T : Type} (al : Allocator) (v : vector T)
    (pos : Nat) (hfull : v._capacity = 0 ∨ v._size = v._capacity) :
    (v.push_back al (.element pos)).result ≠ .returned () ∧
    (al.failAfter = none → al.refuseAfter = none → v._size ≤ v._data.length →
      (∀ i, i < v._size → load v._data i ≠ none) →
      (if v._capacity = 0 then 1 else size_shl1 v._capacity) ≤ al.max_size →
      v._size ≤ (if v._capacity = 0 then 1 else size_shl1 v._capacity) →
      (v.push_back al (.element pos)).result = .undefined) := by
  generalize hnc : (if v._capacity = 0 then 1 else size_shl1 v._capacity) = nc
  constructor
  · unfold vector.push_back
    simp only [if_pos hfull, hnc]
    rcases (allocate_cases al nc :
      (al.allocate nc : Option (Allocator × Buffer T)) = none ∨ _) with ha | ha
    · simp [ha]
    · simp only [ha]
      generalize adopt v _ v._size nc () = c
      cases hres : c.result with
      | returned u => simp [hres, Ref.read, Allocator.construct]
      | threw e => simp [hres]
      | undefined => simp [hres]
  · intro hf hra hsl hlive hcap hfit
    obtain ⟨s1, i1, a1, l1, g1⟩ := constructLoop_id (fun i => load v._data i) v._size
      { alloc := { al with allocations := al.allocations + 1 },
        tmp := List.replicate nc none, i := 0, status := .returned () }
      rfl hf (fun i _ hi => hlive i (by simp at hi; omega)) (by simp; omega)
    generalize hb1 : constructLoop (fun i => i) (fun i => load v._data i) v._size
      { alloc := { al with allocations := al.allocations + 1 },
        tmp := List.replicate nc none, i := 0, status := .returned () } = b1 at *
    have hadopt := adopt_ok v b1 v._size nc () s1 hsl
    simp only [vector.push_back, if_pos hfull, hnc, allocate_ok al _ hcap hra, Nat.sub_zero,
      hb1, hadopt, Ref.read, Allocator.construct]

/-! ## Inserting: the capacity -/

theorem constructLoop_ok {T : Type} (dst : Nat → Nat) (src : Nat → Option T) :
    ∀ (n : Nat) (b : Build T), b.status = .returned () → b.alloc.failAfter = none →
      (∀ i, b.i ≤ i → i < b.i + n → src i ≠ none ∧ dst i < b.tmp.length) →
      (constructLoop dst src n b).status = .returned () ∧
      (constructLoop dst src n b).i = b.i + n ∧
      (constructLoop dst src n b).alloc.failAfter = none ∧
      (constructLoop dst src n b).tmp.length = b.tmp.length := by
  intro n
  induction n with
  | zero =>
    intro b hs hf _
    exact ⟨hs, rfl, hf, rfl⟩
  | succ n ih =>
    intro b hs hf hsrc
    obtain ⟨hx0, hidx⟩ := hsrc b.i (le_refl _) (by omega)
    obtain ⟨x, hx⟩ := Option.ne_none_iff_exists'.mp hx0
    have hstep : constructLoop dst src (n + 1) b =
        constructLoop dst src n
          { alloc := { b.alloc with constructions := b.alloc.constructions + 1 },
            tmp := b.tmp.set (dst b.i) (some x), i := b.i + 1, status := .returned () } := by
      rw [constructLoop]
      simp [hs, Allocator.construct, hx, hf, hidx]
    rw [hstep]
    obtain ⟨h1, h2, h3, h4⟩ := ih
      { alloc := { b.alloc with constructions := b.alloc.constructions + 1 },
        tmp := b.tmp.set (dst b.i) (some x), i := b.i + 1, status := .returned () }
      rfl hf (fun i hi1 hi2 => by
        have := hsrc i (by simp at hi1; omega) (by simp at hi2; omega)
        simpa using this)
    simp only [List.length_set] at h2 h4
    exact ⟨h1, by rw [h2]; omega, h3, h4⟩

theorem growLoop_ok (bound : Nat) (hb : 2 * bound ≤ SIZE_MODULUS) :
    ∀ (fuel x : Nat), 1 ≤ x → bound ≤ x + fuel →
      ∃ cap, vector.growLoop (fuel + 1) x bound = some cap ∧ FirstDoubling x bound cap ∧
        (cap = x ∨ cap < 2 * bound) := by
  intro fuel
  induction fuel with
  | zero =>
    intro x _ hx
    refine ⟨x, ?_, ⟨0, by simp, by omega, ?_⟩, Or.inl rfl⟩
    · simp only [vector.growLoop]
      rw [if_neg (by omega)]
    · intro j' _
      exact Nat.le_mul_of_pos_right x (Nat.two_pow_pos _)
  | succ fuel ih =>
    intro x hx1 hx
    by_cases hlt : x < bound
    · obtain ⟨cap, h1, ⟨j, h2, h3, h4⟩, h5⟩ := ih (2 * x) (by omega) (by omega)
      refine ⟨cap, ?_, ⟨j + 1, ?_, h3, ?_⟩, Or.inr ?_⟩
      · rw [vector.growLoop, if_pos hlt, size_shl1_eq x (by omega)]
        exact h1
      · rw [h2, pow_succ]; ring
      · intro j' hj'
        cases j' with
        | zero => simp at hj'; omega
        | succ j' =>
          have := h4 j' (by rw [pow_succ] at hj'; calc bound ≤ x * (2 ^ j' * 2) := hj'
            _ = 2 * x * 2 ^ j' := by ring)
          calc cap ≤ 2 * x * 2 ^ j' := this
            _ = x * 2 ^ (j' + 1) := by rw [pow_succ]; ring
      · rcases h5 with h | h
        · omega
        · exact h
    · refine ⟨x, ?_, ⟨0, by simp, by omega, ?_⟩, Or.inl rfl⟩
      · rw [vector.growLoop, if_neg hlt]
      · intro j' _
        exact Nat.le_mul_of_pos_right x (Nat.two_pow_pos _)

theorem vector.insert_new_cap_ok {T : Type} (v : vector T) (es : List T) (m maxsz : Nat)
    (hv : v.Holds es) (hc1 : 1 ≤ v._capacity) (hmax : maxsz < SIZE_MODULUS)
    (hroom : 2 * (v._capacity + m) ≤ maxsz) :
    ∀ fuel, v._capacity + m + 1 ≤ fuel →
      ∃ cap, v.insert_new_cap fuel m = some cap ∧ cap ≤ maxsz ∧ es.length + m ≤ cap ∧
        (es.length + m ≤ v._capacity → cap = v._capacity) ∧
        (v._capacity < es.length + m → FirstDoubling (2 * v._capacity) (v._capacity + m) cap) := by
  intro fuel hfuel
  obtain ⟨hs, hc, hM, _⟩ := id hv
  have hsl := hv.size_le
  unfold vector.insert_new_cap
  rw [hs, size_add_eq _ _ (by omega), size_add_eq _ _ (by omega), size_shl1_eq _ (by omega)]
  by_cases hg : es.length + m > v._capacity
  · rw [if_pos hg]
    obtain ⟨f, rfl⟩ : ∃ f, fuel = f + 1 := ⟨fuel - 1, by omega⟩
    obtain ⟨cap, h1, h2, h3⟩ := growLoop_ok (v._capacity + m) (by omega) f (2 * v._capacity)
      (by omega) (by omega)
    obtain ⟨j, h4, h5, h6⟩ := id h2
    exact ⟨cap, h1, by omega, by omega, fun h => by omega, fun _ => h2⟩
  · rw [if_neg hg]
    exact ⟨v._capacity, rfl, by omega, by omega, fun _ => rfl, fun h => by omega⟩

theorem constructStep_ok {T : Type} (idx : Nat) (x : T) (b : Build T)
    (hs : b.status = .returned ()) (hf : b.alloc.failAfter = none) (hidx : idx < b.tmp.length) :
    (constructStep idx (some x) b).status = .returned () ∧
    (constructStep idx (some x) b).i = b.i ∧
    (constructStep idx (some x) b).alloc.failAfter = none ∧
    (constructStep idx (some x) b).tmp.length = b.tmp.length := by
  simp [constructStep, hs, Allocator.construct, hf, hidx]

theorem vector.insert_returns {T : Type} (al : Allocator) (v : vector T) (es : List T) (k : Nat)
    (value : T) (hv : v.Holds es) (hk : k ≤ es.length) (hc1 : 1 ≤ v._capacity)
    (hf : al.failAfter = none) (hmax : al.max_size < SIZE_MODULUS)
    (hroom : 2 * (v._capacity + 1) ≤ al.max_size) (hra : al.refuseAfter = none) :
    (v.insert al k value).result = .returned k ∧
    (v.insert al k value).self._capacity =
      (if v._size = v._capacity then 2 * v._capacity else v._capacity) := by
  obtain ⟨hs, hc, hM, _⟩ := id hv
  have hsl := hv.size_le
  generalize hnc : (if v._size = v._capacity then 2 * v._capacity else v._capacity) = nc
  have hnc1 : (if v._size = v._capacity then size_shl1 v._capacity else v._capacity) = nc := by
    rw [size_shl1_eq _ (by omega)]
    exact hnc
  have hlt : es.length < nc := by
    by_cases hfull : v._size = v._capacity
    · simp only [hfull, if_true] at hnc; omega
    · simp only [hfull, if_false] at hnc; omega
  have hncm : nc ≤ al.max_size := by
    by_cases hfull : v._size = v._capacity
    · simp only [hfull, if_true] at hnc; omega
    · simp only [hfull, if_false] at hnc; omega
  obtain ⟨s1, i1, f1, l1⟩ := constructLoop_ok (fun _ => k) (fun i => load v._data i) k
    { alloc := { al with allocations := al.allocations + 1 },
      tmp := List.replicate nc none, i := 0, status := .returned () }
    rfl hf (fun i _ hi => ⟨hv.load_ne_none i (by simp at hi; omega), by simp; omega⟩)
  generalize hb1 : constructLoop (fun _ => k) (fun i => load v._data i) k
    { alloc := { al with allocations := al.allocations + 1 },
      tmp := List.replicate nc none, i := 0, status := .returned () } = b1 at *
  simp only [List.length_replicate, zero_add] at i1 l1
  obtain ⟨s2, i2, f2, l2⟩ := constructStep_ok k value b1 s1 f1 (by omega)
  generalize hb2 : constructStep k (some value) b1 = b2 at *
  obtain ⟨s3, i3, f3, l3⟩ := constructLoop_ok (fun i => i + 1) (fun i => load v._data i)
    (es.length - k) b2 s2 f2
    (fun i _ hi => ⟨hv.load_ne_none i (by omega), by show i + 1 < _; omega⟩)
  generalize hb3 : constructLoop (fun i => i + 1) (fun i => load v._data i)
    (es.length - k) b2 = b3 at *
  have hE : v.insert al k value =
      { alloc := { b3.alloc with destructions := b3.alloc.destructions + v._size,
                                 deallocations := b3.alloc.deallocations + 1,
                                 leaked := b3.alloc.leaked + live (v._data.drop v._size) },
        self := { _data := b3.tmp, _size := size_add v._size 1, _capacity := nc },
        result := .returned k } := by
    simp only [vector.insert, hnc1, allocate_ok al _ hncm hra, Nat.sub_zero, hb1, hb2, i2, i1]
    rw [show v._size - k = es.length - k by rw [hs], hb3]
    exact adopt_ok v b3 _ _ _ s3 (by omega)
  rw [hE]
  exact ⟨rfl, rfl⟩

theorem vector.insert_fill_ok {T : Type} (al : Allocator) (v : vector T) (es : List T)
    (k m cap : Nat) (inserted : Nat → Option T) (hv : v.Holds es) (hk : k ≤ es.length)
    (hf : al.failAfter = none) (hfit : es.length + m ≤ cap) (hM : es.length + m < SIZE_MODULUS)
    (hins : ∀ i, k ≤ i → i < k + m → inserted i ≠ none) :
    (v.insert_fill k m inserted
      { alloc := al, tmp := List.replicate cap none, i := 0, status := .returned () }).status =
      .returned () := by
  obtain ⟨hs, hc, _, _⟩ := id hv
  obtain ⟨s1, i1, f1, l1⟩ := constructLoop_ok (fun i => i) (fun i => load v._data i) k
    { alloc := al, tmp := List.replicate cap none, i := 0, status := .returned () }
    rfl hf (fun i _ hi => ⟨hv.load_ne_none i (by simp at hi; omega), by simp at hi ⊢; omega⟩)
  generalize hb1 : constructLoop (fun i => i) (fun i => load v._data i) k
    { alloc := al, tmp := List.replicate cap none, i := 0, status := .returned () } = b1 at *
  simp only [List.length_replicate, zero_add] at i1 l1
  obtain ⟨s2, i2, f2, l2⟩ := constructLoop_ok (fun i => i) inserted m b1 s1 f1
    (fun i h1 h2 => ⟨hins i (by omega) (by omega), by show i < _; omega⟩)
  generalize hb2 : constructLoop (fun i => i) inserted m b1 = b2 at *
  obtain ⟨s3, _, _, _⟩ := constructLoop_ok (fun i => i)
    (fun i => load v._data (size_sub i m)) (es.length - k) b2 s2 f2
    (fun i h1 h2 => ⟨by
        show load v._data (size_sub i m) ≠ none
        rw [size_sub_eq i m (by omega) (by omega)]
        exact hv.load_ne_none _ (by omega), by show i < _; omega⟩)
  have e2 : size_add k m - b1.i = m := by
    rw [size_add_eq _ _ (by omega), i1]; omega
  have e3 : size_add v._size m - b2.i = es.length - k := by
    rw [hs, size_add_eq _ _ (by omega), i2, i1]; omega
  simp only [vector.insert_fill, Nat.sub_zero, hb1, e2, hb2, e3]
  exact s3

theorem vector.insert_fill_returned {T : Type} (al : Allocator) (v : vector T) (es mid : List T)
    (k cap : Nat) (inserted : Nat → Option T) (hv : v.Holds es) (hk : k ≤ es.length)
    (hM : es.length + mid.length < SIZE_MODULUS)
    (hins : ∀ i, k ≤ i → i < k + mid.length → inserted i = mid[i - k]?)
    (hret : (v.insert_fill k mid.length inserted
      { alloc := al, tmp := List.replicate cap none, i := 0, status := .returned () }).status =
      .returned ()) :
    (v.insert_fill k mid.length inserted
      { alloc := al, tmp := List.replicate cap none, i := 0, status := .returned () }).tmp.length
      = cap ∧
    ∀ j, j < es.length + mid.length →
      (v.insert_fill k mid.length inserted
        { alloc := al, tmp := List.replicate cap none, i := 0,
          status := .returned () }).tmp[j]? = some ((es.take k ++ mid ++ es.drop k)[j]?) := by
  obtain ⟨hs, hc, _, _⟩ := id hv
  simp only [vector.insert_fill, Nat.sub_zero] at hret ⊢
  generalize hb1 : constructLoop (fun i => i) (fun i => load v._data i) k
    { alloc := al, tmp := List.replicate cap none, i := 0, status := .returned () } = b1 at *
  generalize hn2 : size_add k mid.length - b1.i = n2 at *
  generalize hb2 : constructLoop (fun i => i) inserted n2 b1 = b2 at *
  generalize hn3 : size_add v._size mid.length - b2.i = n3 at *
  obtain ⟨s2, i3, l3, _, _, g3⟩ := constructLoop_id_returned _ n3 b2 hret
  rw [← hb2] at s2
  obtain ⟨s1, i2, l2, _, _, g2⟩ := constructLoop_id_returned _ n2 b1 s2
  rw [hb2] at i2 l2 g2
  rw [← hb1] at s1
  obtain ⟨_, i1, l1, _, _, g1⟩ := constructLoop_id_returned _ k _ s1
  rw [hb1] at i1 l1 g1
  simp only [List.length_replicate, zero_add] at i1 l1 g1
  have e2 : n2 = mid.length := by
    rw [← hn2, size_add_eq _ _ (by omega), i1]; omega
  have e3 : n3 = es.length - k := by
    rw [← hn3, hs, size_add_eq _ _ (by omega), i2, i1, e2]; omega
  refine ⟨by rw [l3, l2, l1], ?_⟩
  intro j hj
  rw [getElem?_splice es mid k k j hk, g3 j, g2 j, g1 j, i2, i1, e2, e3]
  by_cases h1 : j < k
  · have c3 : ¬ (k + mid.length ≤ j ∧ j < k + mid.length + (es.length - k)) := by omega
    have c2 : ¬ (k ≤ j ∧ j < k + mid.length) := by omega
    have c1 : 0 ≤ j ∧ j < k := by omega
    rw [if_neg c3, if_neg c2, if_pos c1, if_pos h1, hv.load j (by omega)]
  · by_cases h2 : j < k + mid.length
    · have c3 : ¬ (k + mid.length ≤ j ∧ j < k + mid.length + (es.length - k)) := by omega
      have c2 : k ≤ j ∧ j < k + mid.length := by omega
      rw [if_neg c3, if_pos c2, if_neg h1, if_pos h2, hins j (by omega) h2]
    · have c3 : k + mid.length ≤ j ∧ j < k + mid.length + (es.length - k) := by omega
      rw [if_pos c3, if_neg h1, if_neg h2, size_sub_eq j _ (by omega) (by omega),
        hv.load _ (by omega)]
      have hidx : k + (j - k - mid.length) = j - mid.length := by omega
      rw [hidx]

theorem adopt_returned {T R : Type} (v : vector T) (b : Build T) (new_size new_cap : Nat)
    (r r1 : R) (h : (adopt v b new_size new_cap r).result = .returned r1) :
    b.status = .returned () ∧
    (adopt v b new_size new_cap r).self =
      { _data := b.tmp, _size := new_size, _capacity := new_cap } := by
  unfold adopt at h ⊢
  cases hst : b.status with
  | returned u =>
    simp only [hst] at h ⊢
    cases hr : release b.alloc v with
    | none => simp [hr] at h
    | some a2 => simp
  | threw e =>
    simp only [hst, rollback] at h
    cases hu : unwindLoop b.i b.alloc b.tmp <;> simp [hu] at h
  | undefined => simp [hst] at h

theorem growLoop_lt (bound : Nat) :
    ∀ (fuel x cap : Nat), x < SIZE_MODULUS → vector.growLoop fuel x bound = some cap →
      cap < SIZE_MODULUS := by
  intro fuel
  induction fuel with
  | zero => intro x cap _ h; simp [vector.growLoop] at h
  | succ fuel ih =>
    intro x cap hx h
    rw [vector.growLoop] at h
    by_cases hlt : x < bound
    · rw [if_pos hlt] at h
      exact ih _ cap (Nat.mod_lt _ (by simp [SIZE_MODULUS])) h
    · rw [if_neg hlt] at h
      cases h
      exact hx

theorem vector.insert_new_cap_lt {T : Type} (v : vector T) (fuel m cap : Nat)
    (hc : v._capacity < SIZE_MODULUS) (h : v.insert_new_cap fuel m = some cap) :
    cap < SIZE_MODULUS := by
  unfold vector.insert_new_cap at h
  by_cases hg : size_add v._size m > v._capacity
  · rw [if_pos hg] at h
    exact growLoop_lt _ fuel _ cap (Nat.mod_lt _ (by simp [SIZE_MODULUS])) h
  · rw [if_neg hg] at h
    cases h
    exact hc

/-- C7, as amended: on a vector holding `es` with capacity `c >= 1`, every form of `insert`
that adds `m` elements at an offset `k <= size()` returns, and the capacity afterwards is `c`
when `size() + m <= c` and otherwise the first value that is at least `c + m` in the
doubling sequence `2 * c, 4 * c, ...` (no construction throws, and the allocator grants
`2 * (c + m)` elements). -/
theorem vector.insert_growth {T : Type} (al : Allocator) (v : vector T) (es : List T)
    (k m : Nat) (value : T) (range : List T) (hv : v.Holds es) (hk : k ≤ es.length)
    (hc1 : 1 ≤ v._capacity) (hf : al.failAfter = none) (hmax : al.max_size < SIZE_MODULUS)
    (hroom : 2 * (v._capacity + m) ≤ al.max_size) (hra : al.refuseAfter = none)
    (hr : range.length = m) :
    (m = 1 → (v.insert al k value).result = .returned k ∧
      CodedGrowth v.capacity v.size 1 (v.insert al k value).self.capacity) ∧
    (∀ fuel, v._capacity + m + 1 ≤ fuel →
      ∃ r, v.insert_count fuel al k m value = some r ∧ r.result = .returned () ∧
        CodedGrowth v.capacity v.size m r.self.capacity) ∧
    (∀ fuel, v._capacity + m + 1 ≤ fuel →
      ∃ r, v.insert_range fuel al k range = some r ∧ r.result = .returned () ∧
        CodedGrowth v.capacity v.size m r.self.capacity) := by
  obtain ⟨hs, hc, hM, _⟩ := id hv
  have hsl := hv.size_le
  refine ⟨?_, ?_, ?_⟩
  · intro hm1
    subst hm1
    obtain ⟨h1, h2⟩ := vector.insert_returns al v es k value hv hk hc1 hf hmax hroom hra
    refine ⟨h1, ?_, ?_⟩
    · intro hfit
      simp only [vector.capacity, vector.size] at hfit ⊢
      rw [h2, if_neg (by omega)]
    · intro hgrow
      simp only [vector.capacity, vector.size] at hgrow ⊢
      rw [h2, if_pos (by omega)]
      refine ⟨0, by simp, by omega, ?_⟩
      intro j' _
      exact Nat.le_mul_of_pos_right _ (Nat.two_pow_pos _)
  · intro fuel hfuel
    obtain ⟨cap, q1, q2, q3, q4, q5⟩ :=
      vector.insert_new_cap_ok v es m al.max_size hv hc1 hmax hroom fuel hfuel
    have hst := vector.insert_fill_ok { al with allocations := al.allocations + 1 } v es k m cap
      (fun _ => some value) hv hk hf q3 (by omega) (fun i _ _ => by simp)
    refine ⟨_, by simp only [vector.insert_count, q1, allocate_ok al _ q2 hra]; rfl, ?_⟩
    rw [adopt_ok v _ _ _ _ hst (by omega)]
    refine ⟨rfl, ?_, ?_⟩
    · intro h
      simp only [vector.capacity, vector.size] at h ⊢
      exact q4 (by omega)
    · intro h
      simp only [vector.capacity, vector.size] at h ⊢
      exact q5 (by omega)
  · intro fuel hfuel
    obtain ⟨cap, q1, q2, q3, q4, q5⟩ :=
      vector.insert_new_cap_ok v es m al.max_size hv hc1 hmax hroom fuel hfuel
    have hdiff : range.length % SIZE_MODULUS = m := by
      rw [hr]; exact Nat.mod_eq_of_lt (by omega)
    have hst := vector.insert_fill_ok { al with allocations := al.allocations + 1 } v es k m cap
      (fun i => range[i - k]?) hv hk hf q3 (by omega)
      (fun i h1 h2 => by
        show range[i - k]? ≠ none
        rw [List.getElem?_eq_getElem (by omega)]
        simp)
    refine ⟨_, by simp only [vector.insert_range, hdiff, q1, allocate_ok al _ q2 hra]; rfl, ?_⟩
    rw [adopt_ok v _ _ _ _ hst (by omega)]
    refine ⟨rfl, ?_, ?_⟩
    · intro h
      simp only [vector.capacity, vector.size] at h ⊢
      exact q4 (by omega)
    · intro h
      simp only [vector.capacity, vector.size] at h ⊢
      exact q5 (by omega)

/-! ## Inserting: the elements -/

/-- C8, as amended: on a vector holding `es`, when `insert(pos, count, value)` at an offset
`k <= size()` returns and `size() + count` does not wrap around in `size_type`, the vector
holds `es[0..k)`, then `count` copies of `value`, then `es[k..)`, and its size has grown
by `count`. -/
theorem vector.insert_count_spec {T : Type} (fuel : Nat) (al : Allocator) (v : vector T)
    (es : List T) (k count : Nat) (value : T) (r : Call T Unit) (hv : v.Holds es)
    (hk : k ≤ es.length) (hM : es.length + count < SIZE_MODULUS)
    (hcall : v.insert_count fuel al k count value = some r)
    (hret : r.result = .returned ()) :
    r.self.Holds (es.take k ++ List.replicate count value ++ es.drop k) ∧
    r.self.size = v.size + count := by
  obtain ⟨hs, hc, hcM, _⟩ := id hv
  unfold vector.insert_count at hcall
  cases hnc : v.insert_new_cap fuel count with
  | none => simp [hnc] at hcall
  | some cap =>
    have hcapM := vector.insert_new_cap_lt v fuel count cap hcM hnc
    rcases (allocate_cases al cap :
      (al.allocate cap : Option (Allocator × Buffer T)) = none ∨ _) with ha | ha
    · simp only [hnc, ha, Option.some.injEq] at hcall
      rw [← hcall] at hret
      cases hret
    · simp only [hnc, ha, Option.some.injEq] at hcall
      rw [← hcall] at hret ⊢
      obtain ⟨hst, hself⟩ := adopt_returned _ _ _ _ _ _ hret
      rw [hself]
      have hlen : (List.replicate count value).length = count := List.length_replicate _ _
      have hfill := vector.insert_fill_returned _
        v es (List.replicate count value) k cap (fun _ => some value) hv hk
        (by rw [hlen]; exact hM)
        (fun i h1 h2 => by
          rw [hlen] at h2
          rw [List.getElem?_replicate, if_pos (by omega)])
        (by rw [hlen]; exact hst)
      rw [hlen] at hfill
      obtain ⟨hl, hslots⟩ := hfill
      have hsz : size_add v._size count = es.length + count := by
        rw [hs]; exact size_add_eq _ _ hM
      refine ⟨vector.Holds.of_slots ?_ hl hcapM ?_, ?_⟩
      · simp only [hsz]
        rw [length_splice es _ k k hk, hlen]
        omega
      · intro j hj
        rw [length_splice es _ k k hk, hlen] at hj
        exact hslots j (by omega)
      · simp only [vector.size, hsz]
        rw [hs]

/-! ## The defect of `insert(pos, value)` -/

theorem constructLoop_frame {T : Type} (dst : Nat → Nat) (src : Nat → Option T) (j : Nat) :
    ∀ (n : Nat) (b : Build T), (∀ i, b.i ≤ i → i < b.i + n → dst i ≠ j) →
      (constructLoop dst src n b).tmp[j]? = b.tmp[j]? := by
  intro n
  induction n with
  | zero => intro b _; rfl
  | succ n ih =>
    intro b hd
    by_cases hst : b.status = .returned ()
    · cases hsrc : src b.i with
      | none => simp [constructLoop, hst, Allocator.construct, hsrc]
      | some x =>
        by_cases hfA : b.alloc.failAfter = some 0
        · simp [constructLoop, hst, Allocator.construct, hsrc, hfA]
        · by_cases hidx : dst b.i < b.tmp.length
          · have hstep : constructLoop dst src (n + 1) b =
                constructLoop dst src n
                  { alloc := { b.alloc with
                      constructions := b.alloc.constructions + 1,
                      failAfter := b.alloc.failAfter.map (fun k => k - 1) },
                    tmp := b.tmp.set (dst b.i) (some x), i := b.i + 1,
                    status := .returned () } := by
              rw [constructLoop]
              simp [hst, Allocator.construct, hsrc, hfA, hidx]
            rw [hstep, ih _ (fun i h1 h2 => hd i (by simp at h1; omega) (by simp at h2; omega))]
            simp only [List.getElem?_set]
            rw [if_neg (hd b.i (le_refl _) (by omega))]
          · simp [constructLoop, hst, Allocator.construct, hsrc, hfA, hidx]
    · rw [constructLoop_stuck _ _ _ _ hst]

theorem constructStep_frame {T : Type} (idx j : Nat) (val : Option T) (b : Build T)
    (h : idx ≠ j) : (constructStep idx val b).tmp[j]? = b.tmp[j]? := by
  unfold constructStep
  cases hst : b.status with
  | returned u =>
    cases val with
    | none => simp [Allocator.construct]
    | some x =>
      by_cases hfA : b.alloc.failAfter = some 0
      · simp [Allocator.construct, hfA]
      · by_cases hidx : idx < b.tmp.length
        · simp [Allocator.construct, hfA, hidx, List.getElem?_set, h]
        · simp [Allocator.construct, hfA, hidx]
  | threw e => rfl
  | undefined => rfl

/-- Whenever `insert(pos, value)` returns for a position past `begin()`, slot 0 of the
buffer it leaves holds no element, so the vector holds no non-empty sequence. -/
theorem vector.insert_front_raw {T : Type} (al : Allocator) (v : vector T) (k r : Nat)
    (value : T) (hk : 1 ≤ k) (hret : (v.insert al k value).result = .returned r) :
    load (v.insert al k value).self._data 0 = none ∧
    ∀ es, es ≠ [] → ¬ (v.insert al k value).self.Holds es := by
  have hraw : load (v.insert al k value).self._data 0 = none := by
    unfold vector.insert at hret ⊢
    generalize (if v._size = v._capacity then size_shl1 v._capacity else v._capacity) = nc
      at hret ⊢
    rcases (allocate_cases al nc :
      (al.allocate nc : Option (Allocator × Buffer T)) = none ∨ _) with ha | ha
    · simp [ha] at hret
    · simp only [ha] at hret ⊢
      obtain ⟨_, hself⟩ := adopt_returned _ _ _ _ _ _ hret
      rw [hself]
      simp only [load]
      rw [constructLoop_frame _ _ 0 _ _ (fun i _ _ => by simp),
        constructStep_frame k 0 _ _ (by omega),
        constructLoop_frame _ _ 0 _ _ (fun i _ _ => by omega)]
      simp only [List.getElem?_replicate]
      by_cases h0 : 0 < nc <;> simp [h0]
  refine ⟨hraw, ?_⟩
  intro es hne hH
  have hpos : 0 < es.length := List.length_pos.mpr hne
  have := hH.load_ne_none 0 hpos
  exact this hraw

/-- C1: the specification's own scenario, run on the code.  On `[1, 2, 3]` (capacity 4),
`insert(begin() + 1, 9)` returns offset 1 and reports size 4, but slot 0 of the new buffer
was never constructed: the loop for the elements before `pos` constructs each of them at
`tmp + count`.  The vector does not hold `[1, 9, 2, 3]`. -/
theorem vector.insert_skips_front :
    sample_123.Holds [1, 2, 3] ∧
    (sample_123.insert sample_alloc 1 9).result = .returned 1 ∧
    (sample_123.insert sample_alloc 1 9).self =
      { _data := [none, some 9, some 2, some 3], _size := 4, _capacity := 4 } ∧
    ¬ (sample_123.insert sample_alloc 1 9).self.Holds [1, 9, 2, 3] := by
  decide

/-- C6: the round trip, run on the code.  After `it = insert(begin() + 1, 9)` on `[1, 2, 3]`,
`erase(it)` copies slot 0, which holds no element: the call leaves defined behaviour, and the
vector `erase` started from does not hold `[1, 2, 3]` in its first three slots. -/
theorem vector.insert_erase_reads_raw_slot :
    sample_123.Holds [1, 2, 3] ∧
    (sample_123.insert sample_alloc 1 9).result = .returned 1 ∧
    load (sample_123.insert sample_alloc 1 9).self._data 0 = none ∧
    ((sample_123.insert sample_alloc 1 9).self.erase
      (sample_123.insert sample_alloc 1 9).alloc 1).result = .undefined ∧
    ¬ ((sample_123.insert sample_alloc 1 9).self.erase
      (sample_123.insert sample_alloc 1 9).alloc 1).self.Holds [1, 2, 3] := by
  decide

/-! ## Where the wording of the specification fails -/

/-- C7 as worded fails: `insert(begin() + 1, 5, 7)` on `[1]` of capacity 4 needs 6 slots and
leaves capacity 16, while the first value that is at least 6 in `4, 8, 16, ...` is 8. -/
theorem vector.insert_count_overgrows :
    sample_1.Holds [1] ∧
    sample_1.insert_count 10 sample_alloc 1 5 7 = some sample_1_grown ∧
    sample_1_grown.result = .returned () ∧
    sample_1_grown.self.capacity = 16 ∧
    ¬ SpecifiedGrowth sample_1.capacity sample_1.size 5 sample_1_grown.self.capacity := by
  refine ⟨by decide, by decide, rfl, rfl, ?_⟩
  intro h
  obtain ⟨j, _, _, h3⟩ := h.2 (by decide)
  have := h3 1 (by decide)
  revert this
  decide

/-- C8 as worded fails: `insert(begin() + 1, SIZE_MAX, 7)` on `[1, 2]` returns, since
`_size + count` wraps around to 1, and leaves a vector of size 1 holding `[1]`, not `1`
followed by the copies of 7 and by `2`. -/
theorem vector.insert_count_wraps :
    sample_12.Holds [1, 2] ∧
    sample_12.insert_count 0 sample_alloc 1 (2 ^ 64 - 1) 7 = some sample_12_wrapped ∧
    sample_12_wrapped.result = .returned () ∧
    sample_12_wrapped.self.Holds [1] ∧
    ¬ sample_12_wrapped.self.Holds
      ([1, 2].take 1 ++ List.replicate (2 ^ 64 - 1) 7 ++ [1, 2].drop 1) := by
  refine ⟨by decide, by decide, rfl, by decide, ?_⟩
  intro h
  have h1 : sample_12_wrapped.self._size =
      ([1, 2].take 1 ++ List.replicate (2 ^ 64 - 1) 7 ++ [1, 2].drop 1).length := h.1
  rw [List.length_append, List.length_append, List.length_replicate] at h1
  revert h1
  decide

/-! ## The theorems at concrete inputs -/

theorem vector.push_back_spec_witness :
    (vector.push_back_from_empty sample_alloc [.outside 1, .outside 2, .outside 3]).self =
      sample_123 ∧
    (vector.push_back_from_empty sample_alloc [.outside 1, .outside 2, .outside 3]).result =
      .returned () ∧
    (vector.push_back_from_empty sample_alloc
      [.outside 1, .outside 2, .outside 3]).self.Holds [1, 2, 3] ∧
    (vector.push_back_from_empty sample_alloc [.outside 1, .outside 2, .outside 3]).self.size =
      3 :=
  have h := vector.push_back_spec sample_alloc [1, 2, 3] rfl (by decide) rfl
    (fun _ => ⟨2, by decide, by decide⟩)
  ⟨by decide, h.1, h.2.1, h.2.2.1⟩

theorem vector.at_spec_witness :
    sample_123.Holds [1, 2, 3] ∧
    (sample_123.at_ 3 = .threw .out_of_range ↔ 3 ≥ sample_123.size) ∧
    (∃ x, [1, 2, 3][1]? = some x ∧ sample_123.at_ 1 = .returned x ∧
      sample_123.subscript 1 = .returned x ∧ vector.deref sample_123.data 1 = .returned x) :=
  ⟨by decide, (vector.at_spec sample_123 3).1,
    (vector.at_spec sample_123 1).2 [1, 2, 3] (by decide) (by decide)⟩

theorem vector.erase_spec_witness :
    sample_1923.Holds [1, 9, 2, 3] ∧
    (sample_1923.erase sample_alloc 0).result = .returned 0 ∧
    (sample_1923.erase sample_alloc 0).self.Holds [9, 2, 3] ∧
    (sample_1923.erase sample_alloc 0).self.size + 1 = sample_1923.size ∧
    (sample_1923.erase sample_alloc 0).self.capacity = sample_1923.capacity :=
  ⟨by decide, vector.erase_spec sample_alloc sample_1923 [1, 9, 2, 3] 0 (by decide) (by decide)
    rfl (by decide) rfl⟩

theorem vector.erase_range_spec_witness :
    sample_1923.Holds [1, 9, 2, 3] ∧
    (sample_1923.erase_range sample_alloc 1 3).result = .returned 1 ∧
    (sample_1923.erase_range sample_alloc 1 3).self.Holds [1, 3] ∧
    (sample_1923.erase_range sample_alloc 1 3).self.size + (3 - 1) = sample_1923.size ∧
    (sample_1923.erase_range sample_alloc 1 3).self.capacity = sample_1923.capacity :=
  have h := vector.erase_range_spec sample_alloc sample_1923 [1, 9, 2, 3] 1 3 (by decide)
    (by decide) (by decide) rfl (by decide) rfl
  ⟨by decide, h.1, h.2.1, h.2.2.1, h.2.2.2.1⟩

theorem vector.insert_growth_witness :
    sample_1.Holds [1] ∧
    (∀ fuel, sample_1._capacity + 5 + 1 ≤ fuel →
      ∃ r, sample_1.insert_count fuel sample_alloc 1 5 7 = some r ∧ r.result = .returned () ∧
        CodedGrowth sample_1.capacity sample_1.size 5 r.self.capacity) :=
  ⟨by decide, (vector.insert_growth sample_alloc sample_1 [1] 1 5 7 [7, 7, 7, 7, 7] (by decide)
    (by decide) (by decide) rfl (by decide) (by decide) rfl rfl).2.1⟩

theorem vector.insert_count_spec_witness :
    sample_1.insert_count 10 sample_alloc 1 5 7 = some sample_1_grown ∧
    sample_1_grown.self.Holds ([1].take 1 ++ List.replicate 5 7 ++ [1].drop 1) ∧
    sample_1_grown.self.size = sample_1.size + 5 :=
  ⟨by decide, vector.insert_count_spec 10 sample_alloc sample_1 [1] 1 5 7 sample_1_grown
    (by decide) (by decide) (by decide) (by decide) rfl⟩

theorem vector.reserve_spec_witness :
    sample_123.Holds [1, 2, 3] ∧
    ((sample_123.reserve sample_alloc (2 ^ 32 + 1)).result = .threw .length_error ↔
      2 ^ 32 + 1 > sample_alloc.max_size) ∧
    ((sample_123.reserve sample_alloc_refuses 9).result = .threw .bad_alloc ↔
      9 ≤ sample_alloc_refuses.max_size ∧ sample_123.capacity < 9 ∧
        sample_alloc_refuses.refuseAfter = some 0) ∧
    (sample_123.reserve sample_alloc_refuses 9).result = .threw .bad_alloc ∧
    (sample_123.reserve sample_alloc_refuses 9).self = sample_123 ∧
    (sample_123.reserve sample_alloc 9).result = .returned () ∧
    (sample_123.reserve sample_alloc 9).self.Holds [1, 2, 3] ∧
    (sample_123.reserve sample_alloc 9).self.size = sample_123.size ∧
    (sample_123.reserve sample_alloc 9).self.capacity = max sample_123.capacity 9 :=
  have h := (vector.reserve_spec sample_alloc sample_123 9).2.2 [1, 2, 3] (by decide)
    (by decide) (by decide)
  have hr := h.2.2.1 rfl (by decide)
  ⟨by decide, (vector.reserve_spec sample_alloc sample_123 (2 ^ 32 + 1)).1,
    (vector.reserve_spec sample_alloc_refuses sample_123 9).2.1, by decide, by decide,
    hr, h.1, h.2.1, h.2.2.2.1 hr⟩

theorem vector.assign_failure_witness :
    (sample_123.assign sample_alloc_third_fails 5 7).result = .threw .element_failure ∧
    (sample_123.assign sample_alloc_third_fails 5 7).self = sample_123 ∧
    (sample_123.assign sample_alloc_third_fails 5 7).alloc.allocations = 0 + 1 ∧
    (sample_123.assign sample_alloc_third_fails 5 7).alloc.deallocations = 0 + 1 ∧
    (sample_123.assign sample_alloc_third_fails 5 7).alloc.constructions = 0 + (3 - 1) ∧
    (sample_123.assign sample_alloc_third_fails 5 7).alloc.destructions = 0 + (3 - 1) ∧
    (sample_123.assign sample_alloc_third_fails 5 7).alloc.leaked = 0 :=
  vector.assign_failure sample_alloc_third_fails sample_123 5 7 3 (by decide) (by decide)
    (by decide) (by decide) rfl

/-! ## Comparing -/

theorem vector.range_of_holds {T : Type} {v : vector T} {es : List T} (h : v.Holds es) :
    v.range = es.map some := by
  apply List.ext_getElem?
  intro j
  unfold vector.range
  rw [List.getElem?_map, List.getElem?_map]
  by_cases hj : j < es.length
  · rw [List.getElem?_range (by rw [h.1]; exact hj), List.getElem?_eq_getElem hj]
    simp only [Option.map_some']
    rw [h.load j hj, List.getElem?_eq_getElem hj]
  · rw [List.getElem?_eq_none (by simp [h.1]; omega), List.getElem?_eq_none (by omega)]
    rfl

theorem vector.data_of_holds {T : Type} {v : vector T} {es : List T} (h : v.Holds es) :
    v._data = es.map some ++ v._data.drop v._size := by
  rw [← h.2.2.2, List.take_append_drop]

theorem LexLess.cons_iff {T : Type} [LinearOrder T] (x : T) (A B : List T) :
    LexLess (x :: A) (x :: B) ↔ LexLess A B := by
  constructor
  · rintro (⟨t, ht, h⟩ | ⟨i, a, b, h1, h2, h3, h4⟩)
    · exact Or.inl ⟨t, ht, by simpa using h⟩
    · cases i with
      | zero =>
        simp only [List.getElem?_cons_zero, Option.some.injEq] at h1 h2
        rw [← h1, ← h2] at h4
        exact absurd h4 (lt_irrefl x)
      | succ i =>
        exact Or.inr ⟨i, a, b, by simpa using h1, by simpa using h2, by simpa using h3, h4⟩
  · rintro (⟨t, ht, h⟩ | ⟨i, a, b, h1, h2, h3, h4⟩)
    · exact Or.inl ⟨t, ht, by simp [h]⟩
    · exact Or.inr ⟨i + 1, a, b, by simpa using h1, by simpa using h2, by simp [h3], h4⟩

theorem LexLess.not_of_head_gt {T : Type} [LinearOrder T] (x y : T) (A B : List T)
    (h : y < x) : ¬ LexLess (x :: A) (y :: B) := by
  rintro (⟨t, _, ht⟩ | ⟨i, a, b, h1, h2, h3, h4⟩)
  · simp only [List.cons_append, List.cons.injEq] at ht
    rw [ht.1] at h
    exact lt_irrefl x h
  · cases i with
    | zero =>
      simp only [List.getElem?_cons_zero, Option.some.injEq] at h1 h2
      rw [← h1, ← h2] at h4
      exact lt_asymm h h4
    | succ i =>
      simp only [List.take_succ_cons, List.cons.injEq] at h3
      rw [h3.1] at h
      exact lt_irrefl y h

theorem lexicographical_compare_spec {T : Type} [LinearOrder T] (lt : T → T → Bool)
    (hlt : ∀ x y, lt x y = true ↔ x < y) :
    ∀ A B : List T, ∃ b, lexicographical_compare lt (A.map some) (B.map some) = .returned b ∧
      (b = true ↔ LexLess A B) := by
  intro A
  induction A with
  | nil =>
    intro B
    cases B with
    | nil =>
      refine ⟨false, rfl, ?_⟩
      simp only [Bool.false_eq_true, false_iff]
      rintro (⟨t, ht, h⟩ | ⟨i, a, b, h1, _⟩)
      · exact ht (by simpa using h.symm)
      · simp at h1
    | cons y B =>
      refine ⟨true, rfl, ?_⟩
      simp only [true_iff]
      exact Or.inl ⟨y :: B, by simp, by simp⟩
  | cons x A ih =>
    intro B
    cases B with
    | nil =>
      refine ⟨false, rfl, ?_⟩
      simp only [Bool.false_eq_true, false_iff]
      rintro (⟨t, _, h⟩ | ⟨i, a, b, _, h2, _⟩)
      · simp at h
      · simp at h2
    | cons y B =>
      simp only [List.map_cons, lexicographical_compare]
      by_cases h1 : x < y
      · refine ⟨true, by simp [(hlt x y).mpr h1], ?_⟩
        simp only [true_iff]
        exact Or.inr ⟨0, x, y, by simp, by simp, by simp, h1⟩
      · have e1 : lt x y = false := by
          cases hb : lt x y
          · rfl
          · exact absurd ((hlt x y).mp hb) h1
        by_cases h2 : y < x
        · refine ⟨false, by simp [e1, (hlt y x).mpr h2], ?_⟩
          simp only [Bool.false_eq_true, false_iff]
          exact LexLess.not_of_head_gt x y A B h2
        · have e2 : lt y x = false := by
            cases hb : lt y x
            · rfl
            · exact absurd ((hlt y x).mp hb) h2
          have hxy : x = y := le_antisymm (not_lt.mp h2) (not_lt.mp h1)
          subst hxy
          obtain ⟨b, hb1, hb2⟩ := ih B
          refine ⟨b, by simp [e1, hb1], ?_⟩
          rw [hb2, LexLess.cons_iff]

theorem LexLess.not_nil_right {T : Type} [LinearOrder T] (A : List T) : ¬ LexLess A [] := by
  rintro (⟨t, ht, h⟩ | ⟨i, a, b, _, h2, _⟩)
  · have := congrArg List.length h
    simp only [List.length_nil, List.length_append] at this
    exact ht (List.length_eq_zero.mp (by omega))
  · simp at h2

theorem LexLess.of_head_lt {T : Type} [LinearOrder T] (x y : T) (A B : List T) (h : x < y) :
    LexLess (x :: A) (y :: B) :=
  Or.inr ⟨0, x, y, by simp, by simp, by simp, h⟩

theorem LexLess.trichotomy {T : Type} [LinearOrder T] :
    ∀ A B : List T, (LexLess A B ∧ A ≠ B ∧ ¬ LexLess B A) ∨
      (¬ LexLess A B ∧ A = B ∧ ¬ LexLess B A) ∨ (¬ LexLess A B ∧ A ≠ B ∧ LexLess B A) := by
  intro A
  induction A with
  | nil =>
    intro B
    cases B with
    | nil => exact Or.inr (Or.inl ⟨LexLess.not_nil_right _, rfl, LexLess.not_nil_right _⟩)
    | cons y B =>
      exact Or.inl ⟨Or.inl ⟨y :: B, by simp, by simp⟩, by simp, LexLess.not_nil_right _⟩
  | cons x A ih =>
    intro B
    cases B with
    | nil =>
      exact Or.inr (Or.inr ⟨LexLess.not_nil_right _, by simp, Or.inl ⟨x :: A, by simp, by simp⟩⟩)
    | cons y B =>
      rcases lt_trichotomy x y with h | h | h
      · exact Or.inl ⟨LexLess.of_head_lt x y A B h, by simp [ne_of_lt h],
          LexLess.not_of_head_gt y x B A h⟩
      · subst h
        simp only [LexLess.cons_iff, List.cons.injEq, true_and, ne_eq]
        exact ih B
      · exact Or.inr (Or.inr ⟨LexLess.not_of_head_gt x y A B h, by simp [ne_of_gt h],
          LexLess.of_head_lt y x B A h⟩)

theorem equal_spec {T : Type} (eq : T → T → Bool) :
    ∀ (A B : List T) (rest : List (Option T)), A.length = B.length →
      ∃ b, equal eq (A.map some) (B.map some ++ rest) = .returned b ∧
        (b = true ↔ ∀ (i : Nat) (x y : T), A[i]? = some x → B[i]? = some y → eq x y = true) := by
  intro A
  induction A with
  | nil =>
    intro B rest _
    refine ⟨true, by simp [equal], ?_⟩
    simp
  | cons x A ih =>
    intro B rest hlen
    cases B with
    | nil => simp at hlen
    | cons y B =>
      simp only [List.length_cons, Nat.add_right_cancel_iff] at hlen
      simp only [List.map_cons, List.cons_append, equal]
      cases hxy : eq x y with
      | false =>
        refine ⟨false, by simp, ?_⟩
        simp only [Bool.false_eq_true, false_iff]
        intro h
        have := h 0 x y (by simp) (by simp)
        rw [hxy] at this
        exact Bool.false_ne_true this
      | true =>
        obtain ⟨b, hb1, hb2⟩ := ih B rest hlen
        refine ⟨b, by simp [hb1], ?_⟩
        rw [hb2]
        constructor
        · intro h i a c h1 h2
          cases i with
          | zero =>
            simp only [List.getElem?_cons_zero, Option.some.injEq] at h1 h2
            rw [← h1, ← h2]
            exact hxy
          | succ i => exact h i a c (by simpa using h1) (by simpa using h2)
        · intro h i a c h1 h2
          exact h (i + 1) a c (by simpa using h1) (by simpa using h2)

theorem operator_eq_returns {T : Type} (eq : T → T → Bool) (a b : vector T) (as bs : List T)
    (ha : a.Holds as) (hb : b.Holds bs) :
    ∃ r, operator_eq eq a b = .returned r ∧
      (r = true ↔ (as.length = bs.length ∧
        ∀ (i : Nat) (x y : T), as[i]? = some x → bs[i]? = some y → eq x y = true)) := by
  unfold operator_eq vector.size
  by_cases hsz : a._size = b._size
  · have hlen : as.length = bs.length := by rw [← ha.1, ← hb.1]; exact hsz
    rw [if_neg (by simpa using hsz), vector.range_of_holds ha, vector.data_of_holds hb]
    obtain ⟨r, h1, h2⟩ := equal_spec eq as bs (b._data.drop b._size) hlen
    exact ⟨r, h1, by rw [h2]; simp [hlen]⟩
  · have hlen : as.length ≠ bs.length := by rw [← ha.1, ← hb.1]; exact hsz
    rw [if_pos (by simpa using hsz)]
    exact ⟨false, rfl, by simp [hlen]⟩

theorem eq_of_pointwise {T : Type} (A B : List T) (hlen : A.length = B.length)
    (h : ∀ (i : Nat) (x y : T), A[i]? = some x → B[i]? = some y → x = y) : A = B := by
  apply List.ext_getElem?
  intro i
  by_cases hi : i < A.length
  · rw [List.getElem?_eq_getElem hi, List.getElem?_eq_getElem (by omega)]
    exact congrArg some (h i _ _ (List.getElem?_eq_getElem hi)
      (List.getElem?_eq_getElem (by omega)))
  · rw [List.getElem?_eq_none (by omega), List.getElem?_eq_none (by omega)]

/-- C15: for sequences over a linearly ordered type, `lexicographical_compare(A, B)` returns,
and returns true exactly when `A` is a strict prefix of `B` or, at the first index where they
differ, the element of `A` is the smaller one; so it is false on `(A, A)` and when the
second range is a prefix of the first; and `lhs < rhs` on two vectors is this value on their
element sequences. -/
theorem lexicographical_compare_correct {T : Type} [LinearOrder T] (lt : T → T → Bool)
    (hlt : ∀ x y, lt x y = true ↔ x < y) (A B : List T) :
    (∃ b, lexicographical_compare lt (A.map some) (B.map some) = .returned b ∧
      (b = true ↔ LexLess A B)) ∧
    lexicographical_compare lt (A.map some) (A.map some) = .returned false ∧
    (∀ t, lexicographical_compare lt ((A ++ t).map some) (A.map some) = .returned false) ∧
    (∀ a b : vector T, a.Holds A → b.Holds B →
      operator_lt lt a b = lexicographical_compare lt (A.map some) (B.map some)) := by
  have hself : ∀ C : List T, ¬ LexLess C C := by
    intro C
    rcases LexLess.trichotomy C C with h | h | h
    · exact absurd rfl h.2.1
    · exact h.1
    · exact absurd rfl h.2.1
  have hpre : ∀ t : List T, ¬ LexLess (A ++ t) A := by
    intro t
    by_cases ht : t = []
    · rw [ht, List.append_nil]; exact hself A
    · rcases LexLess.trichotomy A (A ++ t) with h | h | h
      · exact h.2.2
      · exact h.2.2
      · exact absurd (Or.inl ⟨t, ht, rfl⟩) h.1
  refine ⟨lexicographical_compare_spec lt hlt A B, ?_, ?_, ?_⟩
  · obtain ⟨b, h1, h2⟩ := lexicographical_compare_spec lt hlt A A
    cases b with
    | false => exact h1
    | true => exact absurd (h2.mp rfl) (hself A)
  · intro t
    obtain ⟨b, h1, h2⟩ := lexicographical_compare_spec lt hlt (A ++ t) A
    cases b with
    | false => exact h1
    | true => exact absurd (h2.mp rfl) (hpre t)
  · intro a b ha hb
    unfold operator_lt
    rw [vector.range_of_holds ha, vector.range_of_holds hb]

/-- C16: for two vectors holding `as` and `bs`, whatever their capacities, `a == b` returns,
and returns true exactly when the sizes are equal and `as[i] == bs[i]` for every index `i`;
`a != b` returns the negation. -/
theorem operator_eq_spec {T : Type} (eq : T → T → Bool) (a b : vector T) (as bs : List T)
    (ha : a.Holds as) (hb : b.Holds bs) :
    ∃ r, operator_eq eq a b = .returned r ∧
      (r = true ↔ (a.size = b.size ∧
        ∀ (i : Nat) (x y : T), as[i]? = some x → bs[i]? = some y → eq x y = true)) ∧
      operator_ne eq a b = .returned (!r) := by
  obtain ⟨r, h1, h2⟩ := operator_eq_returns eq a b as bs ha hb
  refine ⟨r, h1, ?_, by simp [operator_ne, h1, Outcome.negate]⟩
  rw [h2]
  simp only [vector.size, ha.1, hb.1]

/-- C17: for two vectors over a linearly ordered type whose `==` is equality, the six
operators return, `a <= b` is `a < b || a == b`, `a > b` is `b < a`, `a >= b` is
`a > b || a == b`, and exactly one of `a < b`, `a == b`, `a > b` is true. -/
theorem operators_agree {T : Type} [LinearOrder T] (lt eq : T → T → Bool)
    (hlt : ∀ x y, lt x y = true ↔ x < y) (heq : ∀ x y, eq x y = true ↔ x = y)
    (a b : vector T) (as bs : List T) (ha : a.Holds as) (hb : b.Holds bs) :
    ∃ l e g : Bool, operator_lt lt a b = .returned l ∧ operator_eq eq a b = .returned e ∧
      operator_gt lt a b = .returned g ∧
      operator_le lt a b = .returned (l || e) ∧
      operator_gt lt a b = operator_lt lt b a ∧
      operator_ge lt a b = .returned (g || e) ∧
      ((l = true ∧ e = false ∧ g = false) ∨ (l = false ∧ e = true ∧ g = false) ∨
        (l = false ∧ e = false ∧ g = true)) := by
  obtain ⟨l, hl1, hl2⟩ := lexicographical_compare_spec lt hlt as bs
  obtain ⟨g, hg1, hg2⟩ := lexicographical_compare_spec lt hlt bs as
  obtain ⟨e, he1, he2⟩ := operator_eq_returns eq a b as bs ha hb
  have hL : operator_lt lt a b = .returned l := by
    unfold operator_lt
    rw [vector.range_of_holds ha, vector.range_of_holds hb, hl1]
  have hG : operator_lt lt b a = .returned g := by
    unfold operator_lt
    rw [vector.range_of_holds ha, vector.range_of_holds hb, hg1]
  have hE : e = true ↔ as = bs := by
    rw [he2]
    constructor
    · rintro ⟨hlen, h⟩
      exact eq_of_pointwise as bs hlen (fun i x y h1 h2 => (heq x y).mp (h i x y h1 h2))
    · intro h
      subst h
      refine ⟨rfl, ?_⟩
      intro i x y h1 h2
      rw [h1] at h2
      exact (heq x y).mpr (Option.some.inj h2)
  have hone : (l = true ∧ e = false ∧ g = false) ∨ (l = false ∧ e = true ∧ g = false) ∨
      (l = false ∧ e = false ∧ g = true) := by
    have hnot : ∀ {c : Bool} {P : Prop}, (c = true ↔ P) → ¬ P → c = false := by
      intro c P hc hP
      cases c with
      | false => rfl
      | true => exact absurd (hc.mp rfl) hP
    rcases LexLess.trichotomy as bs with ⟨h1, h2, h3⟩ | ⟨h1, h2, h3⟩ | ⟨h1, h2, h3⟩
    · exact Or.inl ⟨hl2.mpr h1, hnot hE h2, hnot hg2 h3⟩
    · exact Or.inr (Or.inl ⟨hnot hl2 h1, hE.mpr h2, hnot hg2 h3⟩)
    · exact Or.inr (Or.inr ⟨hnot hl2 h1, hnot hE h2, hg2.mpr h3⟩)
  refine ⟨l, e, g, hL, he1, hG, ?_, rfl, ?_, hone⟩
  · simp only [operator_le, hG, Outcome.negate]
    rcases hone with ⟨h1, h2, h3⟩ | ⟨h1, h2, h3⟩ | ⟨h1, h2, h3⟩ <;> simp [h1, h2, h3]
  · simp only [operator_ge, hL, Outcome.negate]
    rcases hone with ⟨h1, h2, h3⟩ | ⟨h1, h2, h3⟩ | ⟨h1, h2, h3⟩ <;> simp [h1, h2, h3]


/-! ## Resizing -/

theorem vector.resize_grow_ok {T : Type} (value : T) :
    ∀ (n : Nat) (al : Allocator) (v : vector T) (es : List T) (i : Nat),
      v.Holds es → al.failAfter = none → al.max_size < SIZE_MODULUS →
      al.refuseAfter = none →
      v._capacity ≤ al.max_size → 2 * (es.length + n) ≤ al.max_size →
      (vector.resize_grow value n al v i).result = .returned () ∧
      (vector.resize_grow value n al v i).self.Holds (es ++ List.replicate n value) := by
  intro n
  induction n with
  | zero =>
    intro al v es i hv _ _ _ _ _
    simp only [vector.resize_grow, List.replicate_zero, List.append_nil]
    exact ⟨trivial, hv⟩
  | succ n ih =>
    intro al v es i hv hf hmax hra hcap hroom
    obtain ⟨hs, hc, _, _⟩ := id hv
    have hsl := hv.size_le
    have hnew : (if v._capacity = 0 then 1
        else if v._size = v._capacity then 2 * v._capacity else v._capacity) ≤ al.max_size := by
      by_cases h0 : v._capacity = 0
      · simp only [h0, if_true]; omega
      · by_cases hfull : v._size = v._capacity
        · simp only [h0, hfull, if_true, if_false]; omega
        · simp only [h0, hfull, if_false]; exact hcap
    obtain ⟨p1, p2, p3, p4, p5, p6⟩ := vector.push_back_ok al v es value hv hf hmax hnew hra
    cases hpb : v.push_back al (.outside value) with
    | mk a1 v1 r1 =>
      rw [hpb] at p1 p2 p3 p4 p5 p6
      simp only at p1 p2 p3 p4 p5 p6
      subst p1
      have hstep : vector.resize_grow value (n + 1) al v i =
          vector.resize_grow value n a1 v1 (i + 1) := by
        simp only [vector.resize_grow, hpb]
      rw [hstep]
      have := ih a1 v1 (es ++ [value]) (i + 1) p2 p4 (by omega) p6
        (by rw [p3, p5]; exact hnew)
        (by simp only [List.length_append, List.length_singleton]; omega)
      simpa only [List.append_assoc, List.singleton_append, List.replicate_succ] using this

/-- C11: on a vector holding `es`, when no construction throws and the allocator grants
twice the new size, `resize(count, value)` returns and leaves a vector of size `count`: it
holds `es[0..count)` and has its old capacity when `count <= size()`, and holds `es` followed
by `count - size()` copies of `value` when `count > size()`. -/
theorem vector.resize_spec {T : Type} (al : Allocator) (v : vector T) (es : List T)
    (count : Nat) (value : T) (hv : v.Holds es) (hf : al.failAfter = none)
    (hmax : al.max_size < SIZE_MODULUS) (hcap : v._capacity ≤ al.max_size)
    (hroom : es.length < count → 2 * count ≤ al.max_size) (hra : al.refuseAfter = none) :
    (v.resize al count value).result = .returned () ∧
    (v.resize al count value).self.Holds
      (es.take count ++ List.replicate (count - es.length) value) ∧
    (v.resize al count value).self.size = count ∧
    (count ≤ es.length → (v.resize al count value).self.capacity = v.capacity) := by
  obtain ⟨hs, hc, hM, _⟩ := id hv
  have hsl := hv.size_le
  by_cases hlt : count < v._size
  · -- shrinking
    obtain ⟨p1, hp1, hl1, hg1⟩ := destroyLoop_spec (v._size - count) al v._data count (by omega)
    have hE : v.resize al count value =
        { alloc := { al with destructions := al.destructions + (v._size - count) },
          self := { _data := p1, _size := count, _capacity := v._capacity },
          result := .returned () } := by
      simp only [vector.resize, if_pos hlt, hp1]
    rw [hE]
    have h0 : count - es.length = 0 := by omega
    rw [h0, List.replicate_zero, List.append_nil]
    refine ⟨rfl, ?_, rfl, fun _ => rfl⟩
    refine vector.Holds.of_slots (by simp; omega) (by simp only; omega) hM ?_
    intro j hj
    simp only [List.length_take] at hj
    simp only
    rw [hg1 j, if_neg (by omega), hv.slot j (by omega), List.getElem?_take_of_lt (by omega)]
  · by_cases hgt : count > v._size
    · -- growing
      obtain ⟨q1, q2⟩ := vector.resize_grow_ok value (count - v._size) al v es v._size hv hf
        hmax hra hcap (by have := hroom (by omega); omega)
      cases hg : vector.resize_grow value (count - v._size) al v v._size with
      | mk a1 v1 r1 =>
        rw [hg] at q1 q2
        simp only at q1 q2
        subst q1
        have hE : v.resize al count value =
            { alloc := a1,
              self := { _data := v1._data, _size := count, _capacity := v1._capacity },
              result := .returned () } := by
          simp only [vector.resize, if_neg hlt, if_pos hgt, hg]
        rw [hE]
        have htake : es.take count = es := List.take_of_length_le (by omega)
        rw [htake, show count - es.length = count - v._size by rw [hs]]
        refine ⟨rfl, ?_, rfl, fun h => by omega⟩
        obtain ⟨r1, r2, r3, r4⟩ := q2
        refine ⟨?_, r2, r3, ?_⟩
        · simp only [List.length_append, List.length_replicate]; omega
        · have : v1._size = count := by
            rw [r1]; simp only [List.length_append, List.length_replicate]; omega
          rw [this] at r4
          exact r4
    · -- the size stays
      have heq : count = v._size := by omega
      have hE : v.resize al count value =
          { alloc := al,
            self := { _data := v._data, _size := count, _capacity := v._capacity },
            result := .returned () } := by
        simp only [vector.resize, if_neg hlt, if_neg hgt]
      rw [hE]
      have h0 : count - es.length = 0 := by omega
      have htake : es.take count = es := List.take_of_length_le (by omega)
      rw [h0, List.replicate_zero, List.append_nil, htake]
      refine ⟨rfl, ?_, rfl, fun _ => rfl⟩
      rw [heq]
      exact hv


/-! ## Copying -/

theorem vector.construct_finish_ok {T : Type} (b : Build T) (new_size new_cap : Nat)
    (hs : b.status = .returned ()) :
    vector.construct_finish b new_size new_cap =
      { alloc := b.alloc, self := { _data := b.tmp, _size := new_size, _capacity := new_cap },
        result := .returned () } := by
  simp [vector.construct_finish, hs]

/-- The members of a copy: for a vector `other` holding `es`, the copy constructor and the
copy assignment (on any target `v`) return when the allocator grants the block and no
construction throws, and the copy has the size of `other`, the capacity of `other`, and
holds `es`. -/
theorem vector.copy_members {T : Type} (al : Allocator) (other v : vector T) (es vs : List T)
    (ho : other.Holds es) (hv : v.Holds vs) (hf : al.failAfter = none)
    (hm : other._capacity ≤ al.max_size) (hra : al.refuseAfter = none) :
    ((vector.copy_ctor al other).result = .returned () ∧
      (vector.copy_ctor al other).self.Holds es ∧
      (vector.copy_ctor al other).self.size = other.size ∧
      (vector.copy_ctor al other).self.capacity = other.capacity) ∧
    ((v.operator_assign al other).result = .returned () ∧
      (v.operator_assign al other).self.Holds es ∧
      (v.operator_assign al other).self.size = other.size ∧
      (v.operator_assign al other).self.capacity = other.capacity) := by
  obtain ⟨hs, hc, hM, _⟩ := id ho
  have hsl := ho.size_le
  have hvl := hv.size_le
  have hvs := hv.1
  obtain ⟨s1, i1, a1, l1, g1⟩ := constructLoop_id (fun i => load other._data i) other._size
    { alloc := { al with allocations := al.allocations + 1 },
      tmp := List.replicate other._capacity none, i := 0, status := .returned () }
    rfl hf (fun i _ hi => ho.load_ne_none i (by simp at hi; omega)) (by simp; omega)
  generalize hb1 : constructLoop (fun i => i) (fun i => load other._data i) other._size
    { alloc := { al with allocations := al.allocations + 1 },
      tmp := List.replicate other._capacity none, i := 0, status := .returned () } = b1 at *
  simp only [List.length_replicate, zero_add] at i1 l1 g1
  have hH : vector.Holds
      ({ _data := b1.tmp, _size := other._size, _capacity := other._capacity } : vector T)
      es := by
    refine vector.Holds.of_slots hs l1 hM ?_
    intro j hj
    simp only
    rw [g1 j, if_pos (by omega), ho.load j hj]
  constructor
  · have hE : vector.copy_ctor al other =
        { alloc := b1.alloc,
          self := { _data := b1.tmp, _size := other._size, _capacity := other._capacity },
          result := .returned () } := by
      simp only [vector.copy_ctor, allocate_ok al _ hm hra, Nat.sub_zero, hb1]
      exact vector.construct_finish_ok b1 _ _ s1
    rw [hE]
    exact ⟨rfl, hH, rfl, rfl⟩
  · have hE : v.operator_assign al other =
        { alloc := { b1.alloc with destructions := b1.alloc.destructions + v._size,
                                   deallocations := b1.alloc.deallocations + 1,
                                   leaked := b1.alloc.leaked + live (v._data.drop v._size) },
          self := { _data := b1.tmp, _size := other._size, _capacity := other._capacity },
          result := .returned () } := by
      simp only [vector.operator_assign, allocate_ok al _ hm hra, Nat.sub_zero, hb1]
      exact adopt_ok v b1 _ _ _ s1 (by omega)
    rw [hE]
    exact ⟨rfl, hH, rfl, rfl⟩

/-! ## Copies own their buffer -/

theorem size_shl1_ne (c : Nat) (h : c ≠ 0) : size_shl1 c ≠ c := by
  unfold size_shl1 SIZE_MODULUS
  omega

theorem adopt_self {T R : Type} (v : vector T) (b : Build T) (new_size new_cap : Nat) (r : R)
    (h : ∀ r1, (adopt v b new_size new_cap r).result ≠ .returned r1) :
    (adopt v b new_size new_cap r).self = v := by
  unfold adopt at h ⊢
  cases hst : b.status with
  | returned u =>
    simp only [hst] at h ⊢
    cases hr : release b.alloc v with
    | none => rfl
    | some a2 =>
      simp only [hr] at h
      exact absurd rfl (h r)
  | threw e =>
    simp only [rollback]
    cases hu : unwindLoop b.i b.alloc b.tmp <;> rfl
  | undefined => rfl

/-- In the growth branch of `push_back` the capacity member changes exactly when the call
got as far as `_data = tmp; _capacity = new_cap;`, that is when the block was granted and
the rebuilding part returned. -/
theorem vector.push_back_capacity_tells {T : Type} (al : Allocator) (v : vector T)
    (value : Ref T) (hfull : v._capacity = 0 ∨ v._size = v._capacity) :
    ((v.push_back al value).self._capacity ≠ v._capacity ↔
      ∃ a1 tmp, (al.allocate (if v._capacity = 0 then 1 else size_shl1 v._capacity) :
          Option (Allocator × Buffer T)) = some (a1, tmp) ∧
        (adopt v (constructLoop (fun i => i) (fun i => load v._data i) v._size
          { alloc := a1, tmp := tmp, i := 0, status := .returned () })
          v._size (if v._capacity = 0 then 1 else size_shl1 v._capacity) ()).result =
          .returned ()) := by
  have hnc : (if v._capacity = 0 then 1 else size_shl1 v._capacity) ≠ v._capacity := by
    by_cases h0 : v._capacity = 0
    · simp [h0]
    · simp only [h0, if_false]
      exact size_shl1_ne _ h0
  unfold vector.push_back
  simp only [if_pos hfull]
  generalize (if v._capacity = 0 then 1 else size_shl1 v._capacity) = nc at hnc ⊢
  cases ha : (al.allocate nc : Option (Allocator × Buffer T)) with
  | none => simp
  | some q =>
    obtain ⟨a1, tmp⟩ := q
    simp only [Nat.sub_zero, Option.some.injEq, Prod.mk.injEq]
    generalize hb : constructLoop (fun i => i) (fun i => load v._data i) v._size
      { alloc := a1, tmp := tmp, i := 0, status := .returned () } = b
    cases hres : (adopt v b v._size nc ()).result with
    | returned u =>
      obtain ⟨_, hself⟩ := adopt_returned _ _ _ _ _ _ hres
      constructor
      · intro _
        exact ⟨a1, tmp, ⟨rfl, rfl⟩, by rw [hb]; exact hres⟩
      · intro _
        simp only
        have hcap : (adopt v b v._size nc ()).self._capacity = nc := by rw [hself]
        split <;> simp only [hcap] <;> exact hnc
    | threw e =>
      have hself := adopt_self v b v._size nc () (fun r1 h => by rw [hres] at h; cases h)
      constructor
      · intro h
        simp only [hself] at h
        exact absurd rfl h
      · rintro ⟨a2, tmp2, ⟨rfl, rfl⟩, h⟩
        rw [hb, hres] at h
        cases h
    | undefined =>
      have hself := adopt_self v b v._size nc () (fun r1 h => by rw [hres] at h; cases h)
      constructor
      · intro h
        simp only [hself] at h
        exact absurd rfl h
      · rintro ⟨a2, tmp2, ⟨rfl, rfl⟩, h⟩
        rw [hb, hres] at h
        cases h

/-- The store does tell a shared buffer from a copied one: an object that had the address of
the block of `[1, 2, 3]` in its `_data`, as a member-wise copy has, would change what
`[1, 2, 3]` holds by a `clear()`, and leave its `_data` dangling by a `reserve`. -/
theorem Object.shared_block_is_seen :
    sample_object_123.view sample_store = some sample_123 ∧
    (∃ r, Object.modify_all 0 [.clear] sample_alloc sample_store sample_object_123 = some r ∧
      sample_object_123.view r.2.1 ≠ some sample_123) ∧
    (∃ r, Object.modify_all 0 [.reserve 9] sample_alloc sample_store sample_object_123
        = some r ∧
      sample_object_123.view r.2.1 = none) := by
  refine ⟨by decide, ⟨_, rfl, by decide⟩, ⟨_, rfl, by decide⟩⟩

theorem constructLoop_max_size {T : Type} (dst : Nat → Nat) (src : Nat → Option T) :
    ∀ (n : Nat) (b : Build T),
      (constructLoop dst src n b).alloc.max_size = b.alloc.max_size := by
  intro n
  induction n with
  | zero => intro b; rfl
  | succ n ih =>
    intro b
    rw [constructLoop]
    cases hst : b.status with
    | returned u =>
      simp only
      cases hsrc : src b.i with
      | none => simp [Allocator.construct]
      | some x =>
        by_cases hfA : b.alloc.failAfter = some 0
        · simp [Allocator.construct, hfA]
        · by_cases hidx : dst b.i < b.tmp.length
          · simp only [Allocator.construct, hfA, hidx, if_true, if_false]
            rw [ih]
          · simp [Allocator.construct, hfA, hidx]
    | threw e => rfl
    | undefined => rfl

/-- Whenever `reserve(new_cap)` returns on a vector holding `es`, the vector holds `es`, its
capacity is the larger of the old capacity and `new_cap`, and `max_size()` is as before. -/
theorem vector.reserve_returned {T : Type} (al : Allocator) (v : vector T) (es : List T)
    (new_cap : Nat) (hv : v.Holds es) (hn : new_cap < SIZE_MODULUS)
    (hret : (v.reserve al new_cap).result = .returned ()) :
    (v.reserve al new_cap).self.Holds es ∧
    (v.reserve al new_cap).self._capacity = max v._capacity new_cap ∧
    (v.reserve al new_cap).alloc.max_size = al.max_size := by
  obtain ⟨hs, hc, hM, _⟩ := id hv
  have hsl := hv.size_le
  unfold vector.reserve at hret ⊢
  by_cases h1 : new_cap > al.max_size
  · simp [if_pos h1] at hret
  · simp only [if_neg h1] at hret ⊢
    by_cases h2 : new_cap > v._capacity
    · simp only [if_pos h2] at hret ⊢
      rcases (allocate_cases al new_cap :
        (al.allocate new_cap : Option (Allocator × Buffer T)) = none ∨ _) with ha | ha
      · simp [ha] at hret
      · simp only [ha, Nat.sub_zero] at hret ⊢
        have hms := constructLoop_max_size (fun i => i) (fun i => load v._data i) v._size
          { alloc := { al with allocations := al.allocations + 1,
                               refuseAfter := al.refuseAfter.map (fun k => k - 1) },
            tmp := List.replicate new_cap none, i := 0, status := .returned () }
        have hinv := constructLoop_id_returned (fun i => load v._data i) v._size
          { alloc := { al with allocations := al.allocations + 1,
                               refuseAfter := al.refuseAfter.map (fun k => k - 1) },
            tmp := List.replicate new_cap none, i := 0, status := .returned () }
        generalize constructLoop (fun i => i) (fun i => load v._data i) v._size
          { alloc := { al with allocations := al.allocations + 1,
                               refuseAfter := al.refuseAfter.map (fun k => k - 1) },
            tmp := List.replicate new_cap none, i := 0, status := .returned () } = b1 at *
        obtain ⟨hst, _⟩ := adopt_returned _ _ _ _ _ _ hret
        obtain ⟨_, _, l1, _, _, g1⟩ := hinv hst
        simp only [List.length_replicate, zero_add] at l1 g1
        rw [adopt_ok v b1 _ _ _ hst (by omega)]
        refine ⟨?_, ?_, hms⟩
        · refine vector.Holds.of_slots hs l1 hn ?_
          intro j hj
          simp only
          rw [g1 j, if_pos (by omega), hv.load j hj]
        · simp only
          rw [max_eq_right (by omega)]
    · rw [if_neg h2]
      refine ⟨hv, ?_, rfl⟩
      rw [max_eq_left (by omega)]

/-- When the allocator grants the block and no construction throws, `reserve(new_cap)` with
`new_cap <= max_size()` returns. -/
theorem vector.reserve_returns {T : Type} (al : Allocator) (v : vector T) (es : List T)
    (new_cap : Nat) (hv : v.Holds es) (hle : new_cap ≤ al.max_size)
    (hf : al.failAfter = none) (hra : al.refuseAfter ≠ some 0) :
    (v.reserve al new_cap).result = .returned () := by
  obtain ⟨hs, hc, hM, _⟩ := id hv
  have hsl := hv.size_le
  unfold vector.reserve
  rw [if_neg (by omega)]
  by_cases h2 : new_cap > v._capacity
  · rw [if_pos h2]
    rcases (allocate_cases al new_cap :
      (al.allocate new_cap : Option (Allocator × Buffer T)) = none ∨ _) with ha | ha
    · rcases (allocate_eq_none al new_cap).mp ha with h | h
      · omega
      · exact absurd h hra
    · simp only [ha, Nat.sub_zero]
      obtain ⟨s1, _⟩ := constructLoop_id (fun i => load v._data i) v._size
        { alloc := { al with allocations := al.allocations + 1,
                             refuseAfter := al.refuseAfter.map (fun k => k - 1) },
          tmp := List.replicate new_cap none, i := 0, status := .returned () }
        rfl hf (fun i _ hi => hv.load_ne_none i (by simp at hi; omega)) (by simp; omega)
      rw [adopt_ok v _ _ _ _ s1 (by omega)]
  · rw [if_neg h2]

/-- C19, as amended: on a vector holding `es` with capacity `c`, for `m <= n <= max_size()`:
`reserve(n)` returns when the allocator grants the block it asks for and no construction
throws; and whenever `reserve(n)` returns, `reserve(m)` after it returns too and leaves the
capacity `max c n`, which is exactly `n` when `c <= n`, with the vector still holding
`es`. -/
theorem vector.reserve_twice {T : Type} (al : Allocator) (v : vector T) (es : List T)
    (m n : Nat) (hv : v.Holds es) (hmn : m ≤ n) (hn : n ≤ al.max_size)
    (hM : n < SIZE_MODULUS) :
    (al.failAfter = none → al.refuseAfter ≠ some 0 →
      (v.reserve al n).result = .returned ()) ∧
    ((v.reserve al n).result = .returned () →
      ((v.reserve al n).self.reserve (v.reserve al n).alloc m).result = .returned () ∧
      ((v.reserve al n).self.reserve (v.reserve al n).alloc m).self.capacity
        = max v.capacity n ∧
      (v.capacity ≤ n →
        ((v.reserve al n).self.reserve (v.reserve al n).alloc m).self.capacity = n) ∧
      ((v.reserve al n).self.reserve (v.reserve al n).alloc m).self.Holds es) := by
  refine ⟨fun hf hra => vector.reserve_returns al v es n hv hn hf hra, fun hret => ?_⟩
  obtain ⟨p2, p3, p5⟩ := vector.reserve_returned al v es n hv hM hret
  -- the second call asks for no more than the capacity: it is the branch that does nothing
  have hnoop : (v.reserve al n).self.reserve (v.reserve al n).alloc m =
      { alloc := (v.reserve al n).alloc, self := (v.reserve al n).self,
        result := .returned () } := by
    have h1 : ¬ m > (v.reserve al n).alloc.max_size := by rw [p5]; omega
    have h2 : ¬ m > (v.reserve al n).self._capacity := by
      rw [p3]
      have := le_max_right v._capacity n
      omega
    generalize (v.reserve al n).alloc = a1 at h1 ⊢
    generalize (v.reserve al n).self = v1 at h2 ⊢
    simp only [vector.reserve, if_neg h1, if_neg h2]
  rw [hnoop]
  refine ⟨rfl, p3, ?_, p2⟩
  intro h
  simp only [vector.capacity] at h ⊢
  rw [p3]
  exact max_eq_right h

/-- C19 as worded fails: on `[1, 2, 3]` of capacity 4, `reserve(2)` followed by `reserve(1)`
leaves the capacity 4, not 2. -/
theorem vector.reserve_twice_keeps_larger :
    sample_123.Holds [1, 2, 3] ∧ 1 ≤ 2 ∧ 2 ≤ sample_alloc.max_size ∧
    ((sample_123.reserve sample_alloc 2).self.reserve
      (sample_123.reserve sample_alloc 2).alloc 1).result = .returned () ∧
    ((sample_123.reserve sample_alloc 2).self.reserve
      (sample_123.reserve sample_alloc 2).alloc 1).self.capacity = 4 ∧
    ((sample_123.reserve sample_alloc 2).self.reserve
      (sample_123.reserve sample_alloc 2).alloc 1).self.capacity ≠ 2 := by
  decide

/-! ## The reference argument of `push_back`, run on the code -/

/-- C2: the pushes of `1`, `2` and then of the vector's own first element, run on the code.
After `push_back(1); push_back(2);` the vector is `[1, 2]` with capacity 2.  The call
`push_back(v[0])` has to grow: it copies the elements, destroys and deallocates the old
buffer, and only then reads its argument, which refers to an element of that buffer.  The
call leaves defined behaviour and the vector does not hold `[1, 2, 1]`; with the same value
passed as an object outside the vector it does. -/
theorem vector.push_back_reads_released_element :
    (vector.push_back_from_empty sample_alloc [.outside 1, .outside 2]).result = .returned () ∧
    (vector.push_back_from_empty sample_alloc [.outside 1, .outside 2]).self = sample_12 ∧
    sample_12.Holds [1, 2] ∧
    vector.deref sample_12.data 0 = .returned 1 ∧
    (vector.push_back_from_empty sample_alloc [.outside 1, .outside 2, .element 0]).result =
      .undefined ∧
    ¬ (vector.push_back_from_empty sample_alloc
        [.outside 1, .outside 2, .element 0]).self.Holds [1, 2, 1] ∧
    (vector.push_back_from_empty sample_alloc [.outside 1, .outside 2, .outside 1]).result =
      .returned () ∧
    (vector.push_back_from_empty sample_alloc
      [.outside 1, .outside 2, .outside 1]).self.Holds [1, 2, 1] := by
  decide

/-! ## Zero capacity, `pop_back` and the handler of `resize`, run on the code -/

theorem growLoop_zero (bound : Nat) (hb : 0 < bound) :
    ∀ fuel, vector.growLoop fuel 0 bound = none := by
  intro fuel
  induction fuel with
  | zero => rfl
  | succ fuel ih =>
    rw [vector.growLoop, if_pos hb]
    exact ih

/-- C20: on a vector of capacity 0, for every `count` from 1 up and every non-empty input
range, the doubling loop of `insert(pos, count, value)` and of `insert(pos, first, last)`
is still running after any number of tests: `new_cap` starts at `0 << 1` and stays 0. -/
theorem vector.insert_loops_on_zero_capacity {T : Type} (fuel : Nat) (al : Allocator)
    (v : vector T) (pos count : Nat) (value : T) (range : List T) (hc : v._capacity = 0)
    (hs : v._size = 0) (hpos : 0 < count) (hM : count < SIZE_MODULUS)
    (hr : range.length = count) :
    v.insert_count fuel al pos count value = none ∧
    v.insert_range fuel al pos range = none := by
  have hmod : count % SIZE_MODULUS = count := Nat.mod_eq_of_lt hM
  have hcap : v.insert_new_cap fuel count = none := by
    unfold vector.insert_new_cap
    have h1 : size_add v._size count = count := by
      rw [hs]; simp only [size_add, Nat.zero_add]; exact hmod
    have h2 : size_add v._capacity count = count := by
      rw [hc]; simp only [size_add, Nat.zero_add]; exact hmod
    have h3 : size_shl1 v._capacity = 0 := by
      rw [hc]; rfl
    rw [h1, h2, h3, hc, if_pos hpos]
    exact growLoop_zero count hpos fuel
  constructor
  · simp only [vector.insert_count, hcap]
  · simp only [vector.insert_range, hr, hmod, hcap]

theorem vector.pop_back_keeps_last {T : Type} (al : Allocator) (v : vector T) (es : List T)
    (hv : v.Holds es) (hne : es ≠ []) (hlt : v._size < v._capacity) :
    (v.pop_back al).result = .returned () ∧
    (v.pop_back al).self._size = es.length - 1 ∧
    load (v.pop_back al).self._data (es.length - 1) = es[es.length - 1]? ∧
    load (v.pop_back al).self._data (es.length - 1) ≠ none := by
  obtain ⟨hs, hc, hM, _⟩ := id hv
  have hpos : 0 < es.length := List.length_pos.mpr hne
  have hidx : v._size < v._data.length := by omega
  have hE : v.pop_back al =
      { alloc := { al with destructions := al.destructions + 1 },
        self := { _data := v._data.set v._size none, _size := size_sub v._size 1,
                  _capacity := v._capacity },
        result := .returned () } := by
    simp [vector.pop_back, Allocator.destroy, hidx]
  rw [hE]
  have hload : load (v._data.set v._size none) (es.length - 1) = es[es.length - 1]? := by
    apply load_of_getElem?
    rw [List.getElem?_set, if_neg (by omega)]
    exact hv.slot _ (by omega)
  refine ⟨rfl, ?_, hload, ?_⟩
  · simp only
    rw [hs]
    exact size_sub_eq _ _ (by omega) (by omega)
  · simp only
    rw [hload, List.getElem?_eq_getElem (by omega)]
    simp

/-- C12: a failing step of `resize`, run on the code.  On `[1, 2, 3]` (capacity 4),
`resize(6, 7)` under an allocator whose second construction throws: the first `push_back`
succeeds, the second throws while copying into the grown buffer, and the handler's loop
`for (j = _size; j < i; ++j)` is empty because `_size` has followed `i`.  The exception
reaches the caller with the vector holding `[1, 2, 3, 7]`, of size 4, not 3. -/
theorem vector.resize_keeps_added :
    sample_123.Holds [1, 2, 3] ∧
    (sample_123.resize sample_alloc_second_fails 6 7).result = .threw .element_failure ∧
    (sample_123.resize sample_alloc_second_fails 6 7).self =
      { _data := [some 1, some 2, some 3, some 7], _size := 4, _capacity := 4 } ∧
    (sample_123.resize sample_alloc_second_fails 6 7).alloc.destructions = 0 ∧
    (sample_123.resize sample_alloc_second_fails 6 7).self.Holds [1, 2, 3, 7] ∧
    ¬ (sample_123.resize sample_alloc_second_fails 6 7).self.Holds [1, 2, 3] := by
  decide

/-- C13: the invariant broken, run on the code.  On the default-constructed vector,
`insert(begin(), 9)` takes `new_cap = 0 << 1 = 0`, allocates no slot and constructs the value
at `tmp + 0`, outside the allocation; the members it then assigns are `_size = 1` and
`_capacity = 0`. -/
theorem vector.insert_on_default_overruns :
    (vector.ctor sample_alloc : Call Nat Unit).self = sample_empty ∧
    sample_empty.Holds [] ∧
    sample_empty._size ≤ sample_empty._capacity ∧
    (sample_empty.insert (vector.ctor sample_alloc : Call Nat Unit).alloc 0 9).result
      = .undefined ∧
    (if sample_empty._size = sample_empty._capacity then size_shl1 sample_empty._capacity
      else sample_empty._capacity) = 0 ∧
    size_add sample_empty._size 1 = 1 := by
  decide

/-- C14: `pop_back()`, run on the code.  On `[1, 2, 3]` (capacity 4) it destroys slot 3,
the slot at `_data + _size`, and not slot 2: the size becomes 2 while slot 2 still holds
the element 3, which was never destroyed.  On a full vector the slot it destroys lies
outside the allocation. -/
theorem vector.pop_back_destroys_wrong_slot :
    sample_123.Holds [1, 2, 3] ∧
    Allocator.destroy sample_alloc sample_123._data sample_123._size =
      some ({ sample_alloc with destructions := 1 }, [some 1, some 2, some 3, none]) ∧
    (sample_123.pop_back sample_alloc).result = .returned () ∧
    (sample_123.pop_back sample_alloc).self =
      { _data := [some 1, some 2, some 3, none], _size := 2, _capacity := 4 } ∧
    load (sample_123.pop_back sample_alloc).self._data 2 = some 3 ∧
    sample_1923.Holds [1, 9, 2, 3] ∧
    (sample_1923.pop_back sample_alloc).result = .undefined := by
  decide

/-! ## The invariant `_size <= _capacity`

Every call that returns leaves `_size <= _capacity` and a buffer of `_capacity` slots. The
single-element `insert` on a vector with `_size == _capacity == 0` is therefore not a call that
returns: it is the out-of-bounds write shown above. -/

theorem constructLoop_returned_any {T : Type} (dst : Nat → Nat) (src : Nat → Option T) :
    ∀ (n : Nat) (b : Build T), (constructLoop dst src n b).status = .returned () →
      b.status = .returned () ∧
      (constructLoop dst src n b).i = b.i + n ∧
      (constructLoop dst src n b).tmp.length = b.tmp.length ∧
      ∀ i, b.i ≤ i → i < b.i + n → dst i < b.tmp.length := by
  intro n
  induction n with
  | zero =>
    intro b h
    exact ⟨h, rfl, rfl, fun i h1 h2 => by omega⟩
  | succ n ih =>
    intro b h
    have hst : b.status = .returned () := by
      by_contra hne
      rw [constructLoop_stuck _ _ _ _ hne] at h
      exact hne h
    cases hsrc : src b.i with
    | none => simp [constructLoop, hst, Allocator.construct, hsrc] at h
    | some x =>
      by_cases hfA : b.alloc.failAfter = some 0
      · simp [constructLoop, hst, Allocator.construct, hsrc, hfA] at h
      · by_cases hidx : dst b.i < b.tmp.length
        · have hstep : constructLoop dst src (n + 1) b =
              constructLoop dst src n
                { alloc := { b.alloc with
                    constructions := b.alloc.constructions + 1,
                    failAfter := b.alloc.failAfter.map (fun k => k - 1) },
                  tmp := b.tmp.set (dst b.i) (some x), i := b.i + 1,
                  status := .returned () } := by
            rw [constructLoop]
            simp [hst, Allocator.construct, hsrc, hfA, hidx]
          rw [hstep] at h ⊢
          obtain ⟨_, h2, h3, h4⟩ := ih _ h
          simp only [List.length_set] at h2 h3 h4
          refine ⟨hst, by rw [h2]; omega, h3, ?_⟩
          intro i hi1 hi2
          by_cases hi : i = b.i
          · rw [hi]; exact hidx
          · exact h4 i (by omega) (by omega)
        · simp [constructLoop, hst, Allocator.construct, hsrc, hfA, hidx] at h

theorem constructStep_returned {T : Type} (idx : Nat) (val : Option T) (b : Build T)
    (h : (constructStep idx val b).status = .returned ()) :
    b.status = .returned () ∧ (constructStep idx val b).i = b.i ∧
    (constructStep idx val b).tmp.length = b.tmp.length ∧ idx < b.tmp.length := by
  unfold constructStep at h ⊢
  cases hst : b.status with
  | returned u =>
    simp only [hst] at h ⊢
    cases val with
    | none => simp [Allocator.construct] at h
    | some x =>
      by_cases hfA : b.alloc.failAfter = some 0
      · simp [Allocator.construct, hfA] at h
      · by_cases hidx : idx < b.tmp.length
        · simp [Allocator.construct, hfA, hidx]
        · simp [Allocator.construct, hfA, hidx] at h
  | threw e => simp [hst] at h
  | undefined => simp [hst] at h

theorem destroyLoop_length {T : Type} :
    ∀ (n : Nat) (a a1 : Allocator) (p p1 : Buffer T) (i : Nat),
      destroyLoop n a p i = some (a1, p1) → p1.length = p.length := by
  intro n
  induction n with
  | zero =>
    intro a a1 p p1 i h
    simp only [destroyLoop, Option.some.injEq, Prod.mk.injEq] at h
    rw [← h.2]
  | succ n ih =>
    intro a a1 p p1 i h
    rw [destroyLoop] at h
    by_cases hi : i < p.length
    · simp only [Allocator.destroy, hi, if_true] at h
      have := ih _ _ _ _ _ h
      simpa using this
    · simp [Allocator.destroy, hi] at h

theorem size_add_le (x y : Nat) : size_add x y ≤ x + y := Nat.mod_le _ _

theorem size_sub_one_le (x : Nat) (h : 1 ≤ x) : size_sub x 1 ≤ x - 1 := by
  unfold size_sub
  have h1 : (1 : Nat) % SIZE_MODULUS = 1 := by decide
  have hM : 1 ≤ SIZE_MODULUS := by decide
  rw [h1]
  have : x + (SIZE_MODULUS - 1) = (x - 1) + SIZE_MODULUS := by omega
  rw [this, Nat.add_mod_right]
  exact Nat.mod_le _ _

theorem allocate_some {T : Type} (a a1 : Allocator) (n : Nat) (tmp : Buffer T)
    (h : a.allocate n = some (a1, tmp)) :
    a1 = { a with allocations := a.allocations + 1,
                  refuseAfter := a.refuseAfter.map (fun k => k - 1) } ∧
    tmp = List.replicate n none := by
  rcases (allocate_cases a n : (a.allocate n : Option (Allocator × Buffer T)) = none ∨ _)
    with ha | ha
  · rw [ha] at h
    cases h
  · rw [ha] at h
    simp only [Option.some.injEq, Prod.mk.injEq] at h
    exact ⟨h.1.symm, h.2.symm⟩

theorem constructLoop_id_last {T : Type} (src : Nat → Option T) (n : Nat) (b : Build T)
    (h : (constructLoop (fun i => i) src n b).status = .returned ()) :
    b.status = .returned () ∧
    (constructLoop (fun i => i) src n b).i = b.i + n ∧
    (constructLoop (fun i => i) src n b).tmp.length = b.tmp.length ∧
    (n ≠ 0 → b.i + n ≤ b.tmp.length) := by
  obtain ⟨h1, h2, h3, h4⟩ := constructLoop_returned_any _ _ _ _ h
  refine ⟨h1, h2, h3, ?_⟩
  intro hn
  have := h4 (b.i + n - 1) (by omega) (by omega)
  simp only at this
  omega

theorem vector.assign_sound {T : Type} (al : Allocator) (v : vector T) (count : Nat) (value : T)
    (h : (v.assign al count value).result = .returned ()) :
    (v.assign al count value).self.Sound := by
  unfold vector.assign at h ⊢
  cases ha : (al.allocate count : Option (Allocator × Buffer T)) with
  | none => simp [ha] at h
  | some q =>
    obtain ⟨a1, tmp⟩ := q
    obtain ⟨_, rfl⟩ := allocate_some _ _ _ _ ha
    simp only [ha] at h ⊢
    obtain ⟨hst, hself⟩ := adopt_returned _ _ _ _ _ _ h
    rw [hself]
    obtain ⟨_, _, hl, _⟩ := constructLoop_id_last _ _ _ hst
    exact ⟨le_refl _, by simpa using hl⟩

theorem vector.reserve_sound {T : Type} (al : Allocator) (v : vector T) (new_cap : Nat)
    (hv : v.Sound) (h : (v.reserve al new_cap).result = .returned ()) :
    (v.reserve al new_cap).self.Sound := by
  unfold vector.reserve at h ⊢
  by_cases h1 : new_cap > al.max_size
  · simp [h1] at h
  · by_cases h2 : new_cap > v._capacity
    · simp only [h1, h2, if_true, if_false] at h ⊢
      cases ha : (al.allocate new_cap : Option (Allocator × Buffer T)) with
      | none => simp [ha] at h
      | some q =>
        obtain ⟨a1, tmp⟩ := q
        obtain ⟨_, rfl⟩ := allocate_some _ _ _ _ ha
        simp only [ha] at h ⊢
        obtain ⟨hst, hself⟩ := adopt_returned _ _ _ _ _ _ h
        rw [hself]
        obtain ⟨_, _, hl, _⟩ := constructLoop_id_last _ _ _ hst
        exact ⟨by have := hv.1; simp only; omega, by simpa using hl⟩
    · simp only [h1, h2, if_false]
      exact hv

theorem vector.operator_assign_sound {T : Type} (al : Allocator) (v other : vector T)
    (ho : other.Sound) (h : (v.operator_assign al other).result = .returned ()) :
    (v.operator_assign al other).self.Sound := by
  unfold vector.operator_assign at h ⊢
  cases ha : (al.allocate other._capacity : Option (Allocator × Buffer T)) with
  | none => simp [ha] at h
  | some q =>
    obtain ⟨a1, tmp⟩ := q
    obtain ⟨_, rfl⟩ := allocate_some _ _ _ _ ha
    simp only [ha] at h ⊢
    obtain ⟨hst, hself⟩ := adopt_returned _ _ _ _ _ _ h
    rw [hself]
    obtain ⟨_, _, hl, _⟩ := constructLoop_id_last _ _ _ hst
    exact ⟨ho.1, by simpa using hl⟩

theorem vector.construct_finish_returned {T : Type} (b : Build T) (new_size new_cap : Nat)
    (h : (vector.construct_finish b new_size new_cap).result = .returned ()) :
    b.status = .returned () ∧
    (vector.construct_finish b new_size new_cap).self =
      { _data := b.tmp, _size := new_size, _capacity := new_cap } := by
  unfold vector.construct_finish at h ⊢
  cases hst : b.status with
  | returned u => simp
  | threw e =>
    simp only [hst] at h
    cases hu : unwindLoop b.i b.alloc b.tmp <;> simp [hu] at h
  | undefined => simp [hst] at h

theorem vector.ctor_count_sound {T : Type} (al : Allocator) (count : Nat) (value : T)
    (h : (vector.ctor_count al count value).result = .returned ()) :
    (vector.ctor_count al count value).self.Sound := by
  unfold vector.ctor_count at h ⊢
  cases ha : (al.allocate count : Option (Allocator × Buffer T)) with
  | none => simp [ha] at h
  | some q =>
    obtain ⟨a1, tmp⟩ := q
    obtain ⟨_, rfl⟩ := allocate_some _ _ _ _ ha
    simp only [ha] at h ⊢
    obtain ⟨hst, hself⟩ := vector.construct_finish_returned _ _ _ h
    rw [hself]
    obtain ⟨_, _, hl, _⟩ := constructLoop_id_last _ _ _ hst
    exact ⟨le_refl _, by simpa using hl⟩

theorem vector.ctor_range_sound {T : Type} (al : Allocator) (range : List T)
    (h : (vector.ctor_range al range).result = .returned ()) :
    (vector.ctor_range al range).self.Sound := by
  unfold vector.ctor_range at h ⊢
  cases ha : (al.allocate (range.length % SIZE_MODULUS) :
      Option (Allocator × Buffer T)) with
  | none => simp [ha] at h
  | some q =>
    obtain ⟨a1, tmp⟩ := q
    obtain ⟨_, rfl⟩ := allocate_some _ _ _ _ ha
    simp only [ha] at h ⊢
    obtain ⟨hst, hself⟩ := vector.construct_finish_returned _ _ _ h
    rw [hself]
    obtain ⟨_, _, hl, _⟩ := constructLoop_id_last _ _ _ hst
    exact ⟨le_refl _, by simpa using hl⟩

theorem vector.copy_ctor_sound {T : Type} (al : Allocator) (other : vector T) (ho : other.Sound)
    (h : (vector.copy_ctor al other).result = .returned ()) :
    (vector.copy_ctor al other).self.Sound := by
  unfold vector.copy_ctor at h ⊢
  cases ha : (al.allocate other._capacity : Option (Allocator × Buffer T)) with
  | none => simp [ha] at h
  | some q =>
    obtain ⟨a1, tmp⟩ := q
    obtain ⟨_, rfl⟩ := allocate_some _ _ _ _ ha
    simp only [ha] at h ⊢
    obtain ⟨hst, hself⟩ := vector.construct_finish_returned _ _ _ h
    rw [hself]
    obtain ⟨_, _, hl, _⟩ := constructLoop_id_last _ _ _ hst
    exact ⟨ho.1, by simpa using hl⟩

theorem vector.clear_sound {T : Type} (al : Allocator) (v : vector T) (hv : v.Sound)
    (h : (v.clear al).result = .returned ()) : (v.clear al).self.Sound := by
  unfold vector.clear at h ⊢
  cases hd : destroyLoop v._size al v._data 0 with
  | none => simp [hd] at h
  | some q =>
    obtain ⟨a1, p⟩ := q
    simp only
    exact ⟨Nat.zero_le _, by rw [destroyLoop_length _ _ _ _ _ _ hd]; exact hv.2⟩

theorem vector.pop_back_sound {T : Type} (al : Allocator) (v : vector T) (hv : v.Sound)
    (hne : 1 ≤ v._size) (h : (v.pop_back al).result = .returned ()) :
    (v.pop_back al).self.Sound := by
  unfold vector.pop_back at h ⊢
  by_cases hi : v._size < v._data.length
  · simp only [Allocator.destroy, hi, if_true]
    refine ⟨?_, by simpa using hv.2⟩
    have := size_sub_one_le v._size hne
    have := hv.1
    simp only
    omega
  · simp [Allocator.destroy, hi] at h

theorem vector.swap_sound {T : Type} (v other : vector T) (hv : v.Sound) (ho : other.Sound) :
    (v.swap other).1.Sound ∧ (v.swap other).2.Sound :=
  ⟨ho, hv⟩

theorem vector.erase_sound {T : Type} (al : Allocator) (v : vector T) (pos r : Nat)
    (h : (v.erase al pos).result = .returned r) : (v.erase al pos).self.Sound := by
  unfold vector.erase at h ⊢
  cases ha : (al.allocate v._capacity : Option (Allocator × Buffer T)) with
  | none => simp [ha] at h
  | some q =>
    obtain ⟨a1, tmp⟩ := q
    obtain ⟨_, rfl⟩ := allocate_some _ _ _ _ ha
    simp only [ha, Nat.sub_zero] at h ⊢
    obtain ⟨hst, hself⟩ := adopt_returned _ _ _ _ _ _ h
    rw [hself]
    obtain ⟨hst1, i2, l2, b2⟩ := constructLoop_id_last _ _ _ hst
    obtain ⟨_, i1, l1, b1⟩ := constructLoop_id_last _ _ _ hst1
    simp only [List.length_replicate, zero_add] at i1 l1 b1 i2 l2 b2
    refine ⟨?_, by simp only; rw [l2, l1]⟩
    simp only
    rw [i1, l1] at b2
    by_cases hn : size_sub v._size 1 - pos = 0
    · by_cases hp : pos = 0
      · omega
      · have := b1 hp; omega
    · have := b2 hn; omega

theorem vector.erase_range_sound {T : Type} (al : Allocator) (v : vector T) (first last r : Nat)
    (h : (v.erase_range al first last).result = .returned r) :
    (v.erase_range al first last).self.Sound := by
  unfold vector.erase_range at h ⊢
  cases ha : (al.allocate v._capacity : Option (Allocator × Buffer T)) with
  | none => simp [ha] at h
  | some q =>
    obtain ⟨a1, tmp⟩ := q
    obtain ⟨_, rfl⟩ := allocate_some _ _ _ _ ha
    simp only [ha, Nat.sub_zero] at h ⊢
    obtain ⟨hst, hself⟩ := adopt_returned _ _ _ _ _ _ h
    rw [hself]
    obtain ⟨hst1, i2, l2, b2⟩ := constructLoop_id_last _ _ _ hst
    obtain ⟨_, i1, l1, b1⟩ := constructLoop_id_last _ _ _ hst1
    simp only [List.length_replicate, zero_add] at i1 l1 b1 i2 l2 b2
    refine ⟨?_, by simp only; rw [l2, l1]⟩
    simp only
    rw [i1, l1] at b2
    by_cases hn : size_sub v._size (size_sub last first) - first = 0
    · by_cases hp : first = 0
      · omega
      · have := b1 hp; omega
    · have := b2 hn; omega

theorem vector.insert_fill_sound {T : Type} (al : Allocator) (v : vector T) (k m cap : Nat)
    (inserted : Nat → Option T)
    (h : (v.insert_fill k m inserted
      { alloc := al, tmp := List.replicate cap none, i := 0, status := .returned () }).status =
      .returned ()) :
    (v.insert_fill k m inserted
      { alloc := al, tmp := List.replicate cap none, i := 0, status := .returned () }).tmp.length
      = cap ∧ size_add v._size m ≤ cap := by
  unfold vector.insert_fill at h ⊢
  simp only [Nat.sub_zero] at h ⊢
  generalize hb1 : constructLoop (fun i => i) (fun i => load v._data i) k
    { alloc := al, tmp := List.replicate cap none, i := 0, status := .returned () } = B1 at h ⊢
  generalize hn2 : size_add k m - B1.i = n2 at h ⊢
  generalize hb2 : constructLoop (fun i => i) inserted n2 B1 = B2 at h ⊢
  generalize hn3 : size_add v._size m - B2.i = n3 at h ⊢
  obtain ⟨hst2, _, l3, b3⟩ := constructLoop_id_last _ n3 B2 h
  rw [← hb2] at hst2
  obtain ⟨hst1, i2, l2, b2⟩ := constructLoop_id_last _ n2 B1 hst2
  rw [hb2] at i2 l2
  rw [← hb1] at hst1
  obtain ⟨_, i1, l1, b1⟩ := constructLoop_id_last _ k _ hst1
  rw [hb1] at i1 l1
  simp only [List.length_replicate, zero_add] at i1 l1 b1
  refine ⟨by rw [l3, l2, l1], ?_⟩
  by_cases c3 : n3 = 0
  · by_cases c2 : n2 = 0
    · by_cases ck : k = 0
      · omega
      · have := b1 ck; omega
    · have := b2 c2; omega
  · have := b3 c3; omega

theorem vector.insert_count_sound {T : Type} (fuel : Nat) (al : Allocator) (v : vector T)
    (pos count : Nat) (value : T) (c : Call T Unit)
    (hc : v.insert_count fuel al pos count value = some c) (h : c.result = .returned ()) :
    c.self.Sound := by
  unfold vector.insert_count at hc
  cases hnc : v.insert_new_cap fuel count with
  | none => simp [hnc] at hc
  | some cap =>
    simp only [hnc, Option.some.injEq] at hc
    cases ha : (al.allocate cap : Option (Allocator × Buffer T)) with
    | none =>
      simp only [ha] at hc
      rw [← hc] at h
      cases h
    | some q =>
      obtain ⟨a1, tmp⟩ := q
      obtain ⟨_, rfl⟩ := allocate_some _ _ _ _ ha
      simp only [ha, Nat.sub_zero] at hc
      rw [← hc] at h ⊢
      obtain ⟨hst, hself⟩ := adopt_returned _ _ _ _ _ _ h
      rw [hself]
      obtain ⟨hl, hle⟩ := vector.insert_fill_sound _ _ _ _ _ _ hst
      exact ⟨hle, hl⟩

theorem vector.insert_range_sound {T : Type} (fuel : Nat) (al : Allocator) (v : vector T)
    (pos : Nat) (range : List T) (c : Call T Unit)
    (hc : v.insert_range fuel al pos range = some c) (h : c.result = .returned ()) :
    c.self.Sound := by
  unfold vector.insert_range at hc
  cases hnc : v.insert_new_cap fuel (range.length % SIZE_MODULUS) with
  | none => simp [hnc] at hc
  | some cap =>
    simp only [hnc, Option.some.injEq] at hc
    cases ha : (al.allocate cap : Option (Allocator × Buffer T)) with
    | none =>
      simp only [ha] at hc
      rw [← hc] at h
      cases h
    | some q =>
      obtain ⟨a1, tmp⟩ := q
      obtain ⟨_, rfl⟩ := allocate_some _ _ _ _ ha
      simp only [ha, Nat.sub_zero] at hc
      rw [← hc] at h ⊢
      obtain ⟨hst, hself⟩ := adopt_returned _ _ _ _ _ _ h
      rw [hself]
      obtain ⟨hl, hle⟩ := vector.insert_fill_sound _ _ _ _ _ _ hst
      exact ⟨hle, hl⟩

theorem vector.insert_sound {T : Type} (al : Allocator) (v : vector T) (pos r : Nat) (value : T)
    (h : (v.insert al pos value).result = .returned r) : (v.insert al pos value).self.Sound := by
  unfold vector.insert at h ⊢
  generalize (if v._size = v._capacity then size_shl1 v._capacity else v._capacity) = nc
    at h ⊢
  cases ha : (al.allocate nc : Option (Allocator × Buffer T)) with
  | none => simp [ha] at h
  | some q =>
    obtain ⟨a1, tmp⟩ := q
    obtain ⟨_, rfl⟩ := allocate_some _ _ _ _ ha
    simp only [ha, Nat.sub_zero] at h ⊢
    obtain ⟨hst, hself⟩ := adopt_returned _ _ _ _ _ _ h
    rw [hself]
    obtain ⟨hst2, i3, l3, b3⟩ := constructLoop_returned_any _ _ _ _ hst
    obtain ⟨hst1, i2, l2, b2⟩ := constructStep_returned _ _ _ hst2
    obtain ⟨_, i1, l1, _⟩ := constructLoop_returned_any _ _ _ _ hst1
    simp only [List.length_replicate, zero_add] at i1 l1 i2 l2 b2 i3 l3 b3
    refine ⟨?_, by simp only; rw [l3, l2, l1]⟩
    simp only
    have hadd := size_add_le v._size 1
    rw [l1] at b2
    rw [i2, i1, l2, l1] at b3
    by_cases hlt : pos < v._size
    · have := b3 (v._size - 1) (by omega) (by omega)
      simp only at this
      omega
    · omega

theorem vector.push_back_sound {T : Type} (al : Allocator) (v : vector T) (value : Ref T)
    (hv : v.Sound) (h : (v.push_back al value).result = .returned ()) :
    (v.push_back al value).self.Sound ∧
    (v.push_back al value).self._size = size_add v._size 1 := by
  have hadd := size_add_le v._size 1
  -- the statements after the growth branch, on any members
  have happend : ∀ (a1 : Allocator) (v1 : vector T) (read : Option T),
      v1._data.length = v1._capacity → v1._size = v._size →
      ∀ c : Call T Unit,
        c = (match a1.construct v1._data v1._size read with
          | (a2, p, .returned _) =>
            ({ alloc := a2,
               self := { _data := p, _size := size_add v1._size 1, _capacity := v1._capacity },
               result := .returned () } : Call T Unit)
          | (a2, _, .threw e) => { alloc := a2, self := v1, result := .threw e }
          | (a2, _, .undefined) => { alloc := a2, self := v1, result := .undefined }) →
        c.result = .returned () → c.self.Sound ∧ c.self._size = size_add v._size 1 := by
    intro a1 v1 read hl hsz c hc hr
    cases read with
    | none =>
      simp only [Allocator.construct] at hc
      rw [hc] at hr
      cases hr
    | some x =>
      by_cases hfA : a1.failAfter = some 0
      · simp only [Allocator.construct, hfA, if_true] at hc
        rw [hc] at hr
        cases hr
      · by_cases hidx : v1._size < v1._data.length
        · simp only [Allocator.construct, hfA, hidx, if_true, if_false] at hc
          rw [hc]
          refine ⟨⟨?_, by simpa using hl⟩, by simp only; rw [hsz]⟩
          simp only
          rw [hsz]
          omega
        · simp only [Allocator.construct, hfA, hidx, if_false] at hc
          rw [hc] at hr
          cases hr
  unfold vector.push_back at h ⊢
  by_cases hg : v._capacity = 0 ∨ v._size = v._capacity
  · simp only [if_pos hg] at h ⊢
    generalize (if v._capacity = 0 then 1 else size_shl1 v._capacity) = nc at h ⊢
    cases ha : (al.allocate nc : Option (Allocator × Buffer T)) with
    | none => simp [ha] at h
    | some q =>
      obtain ⟨a1, tmp⟩ := q
      obtain ⟨_, rfl⟩ := allocate_some _ _ _ _ ha
      simp only [ha, Nat.sub_zero] at h ⊢
      generalize hA : adopt v (constructLoop (fun i => i) (fun i => load v._data i) v._size
        { alloc := a1, tmp := List.replicate nc none, i := 0, status := .returned () })
        v._size nc () = A at h ⊢
      cases hres : A.result with
      | returned u =>
        have hAr : (adopt v (constructLoop (fun i => i) (fun i => load v._data i) v._size
            { alloc := a1, tmp := List.replicate nc none, i := 0, status := .returned () })
            v._size nc ()).result = .returned () := by rw [hA]; exact hres
        obtain ⟨hst, hself⟩ := adopt_returned _ _ _ _ _ _ hAr
        rw [hA] at hself
        obtain ⟨_, _, hl, _⟩ := constructLoop_id_last _ _ _ hst
        simp only [List.length_replicate] at hl
        simp only [hres] at h ⊢
        exact happend A.alloc A.self _ (by rw [hself]; exact hl) (by rw [hself]) _ rfl h
      | threw e => simp [hres] at h
      | undefined => simp [hres] at h
  · simp only [if_neg hg] at h ⊢
    exact happend al v _ hv.2 rfl _ rfl h

theorem vector.resize_grow_sound {T : Type} (value : T) :
    ∀ (n : Nat) (al : Allocator) (v : vector T) (i : Nat), v.Sound →
      v._size + n < SIZE_MODULUS →
      (vector.resize_grow value n al v i).result = .returned () →
      (vector.resize_grow value n al v i).self.Sound ∧
      (vector.resize_grow value n al v i).self._size = v._size + n := by
  intro n
  induction n with
  | zero =>
    intro al v i hv _ _
    simp only [vector.resize_grow]
    exact ⟨hv, rfl⟩
  | succ n ih =>
    intro al v i hv hM h
    cases hpb : v.push_back al (.outside value) with
    | mk a1 v1 r1 =>
      cases r1 with
      | returned u =>
        have hstep : vector.resize_grow value (n + 1) al v i =
            vector.resize_grow value n a1 v1 (i + 1) := by
          simp only [vector.resize_grow, hpb]
        rw [hstep] at h ⊢
        obtain ⟨s1, s2⟩ := vector.push_back_sound al v (.outside value) hv (by rw [hpb])
        rw [hpb] at s1 s2
        simp only at s1 s2
        rw [size_add_eq _ _ (by omega)] at s2
        obtain ⟨t1, t2⟩ := ih a1 v1 (i + 1) s1 (by omega) h
        exact ⟨t1, by rw [t2, s2]; omega⟩
      | threw e =>
        simp only [vector.resize_grow, hpb] at h
        cases hd : destroyLoop (i - v1._size) a1 v1._data v1._size <;> simp [hd] at h
      | undefined =>
        simp [vector.resize_grow, hpb] at h

theorem vector.resize_sound {T : Type} (al : Allocator) (v : vector T) (count : Nat) (value : T)
    (hv : v.Sound) (hM : count < SIZE_MODULUS)
    (h : (v.resize al count value).result = .returned ()) :
    (v.resize al count value).self.Sound := by
  unfold vector.resize at h ⊢
  by_cases hlt : count < v._size
  · simp only [if_pos hlt] at h ⊢
    cases hd : destroyLoop (v._size - count) al v._data count with
    | none => simp [hd] at h
    | some q =>
      obtain ⟨a1, p⟩ := q
      simp only
      exact ⟨by have := hv.1; simp only; omega,
        by rw [destroyLoop_length _ _ _ _ _ _ hd]; exact hv.2⟩
  · by_cases hgt : count > v._size
    · simp only [if_neg hlt, if_pos hgt] at h ⊢
      cases hg : vector.resize_grow value (count - v._size) al v v._size with
      | mk a1 v1 r1 =>
        cases r1 with
        | returned u =>
          obtain ⟨t1, t2⟩ := vector.resize_grow_sound value (count - v._size) al v v._size hv
            (by omega) (by rw [hg])
          rw [hg] at t1 t2
          simp only at t1 t2 ⊢
          exact ⟨by have := t1.1; simp only; omega, t1.2⟩
        | threw e => simp [hg] at h
        | undefined => simp [hg] at h
    · simp only [if_neg hlt, if_neg hgt]
      exact ⟨by have := hv.1; simp only; omega, hv.2⟩

/-- Every constructor that returns establishes `_size <= _capacity`, and every modifier that
returns keeps it: the calls that break it are calls that do not return. -/
theorem vector.invariant_on_return {T : Type} (al : Allocator) (v other : vector T)
    (hv : v.Sound) (ho : other.Sound) :
    ((vector.ctor al : Call T Unit).self.Sound ∧
      (∀ count value, (vector.ctor_count al count value : Call T Unit).result = .returned () →
        (vector.ctor_count al count value : Call T Unit).self.Sound) ∧
      (∀ range : List T, (vector.ctor_range al range).result = .returned () →
        (vector.ctor_range al range).self.Sound) ∧
      ((vector.copy_ctor al other).result = .returned () →
        (vector.copy_ctor al other).self.Sound)) ∧
    ((v.operator_assign al other).result = .returned () →
      (v.operator_assign al other).self.Sound) ∧
    (∀ count value, (v.assign al count value).result = .returned () →
      (v.assign al count value).self.Sound) ∧
    (∀ new_cap, (v.reserve al new_cap).result = .returned () →
      (v.reserve al new_cap).self.Sound) ∧
    ((v.clear al).result = .returned () → (v.clear al).self.Sound) ∧
    (∀ pos value r, (v.insert al pos value).result = .returned r →
      (v.insert al pos value).self.Sound) ∧
    (∀ fuel pos count value c, v.insert_count fuel al pos count value = some c →
      c.result = .returned () → c.self.Sound) ∧
    (∀ fuel pos range c, v.insert_range fuel al pos range = some c →
      c.result = .returned () → c.self.Sound) ∧
    (∀ pos r, (v.erase al pos).result = .returned r → (v.erase al pos).self.Sound) ∧
    (∀ first last r, (v.erase_range al first last).result = .returned r →
      (v.erase_range al first last).self.Sound) ∧
    (∀ value, (v.push_back al value).result = .returned () →
      (v.push_back al value).self.Sound) ∧
    (1 ≤ v._size → (v.pop_back al).result = .returned () → (v.pop_back al).self.Sound) ∧
    (∀ count value, count < SIZE_MODULUS → (v.resize al count value).result = .returned () →
      (v.resize al count value).self.Sound) ∧
    ((v.swap other).1.Sound ∧ (v.swap other).2.Sound) := by
  refine ⟨⟨?_, ?_, ?_, ?_⟩, ?_, ?_, ?_, ?_, ?_, ?_, ?_, ?_, ?_, ?_, ?_, ?_, ?_⟩
  · unfold vector.ctor
    cases ha : (al.allocate 0 : Option (Allocator × Buffer T)) with
    | none => exact ⟨le_refl _, rfl⟩
    | some q =>
      obtain ⟨a1, tmp⟩ := q
      obtain ⟨_, rfl⟩ := allocate_some _ _ _ _ ha
      exact ⟨le_refl _, rfl⟩
  · exact fun count value h => vector.ctor_count_sound al count value h
  · exact fun range h => vector.ctor_range_sound al range h
  · exact vector.copy_ctor_sound al other ho
  · exact vector.operator_assign_sound al v other ho
  · exact fun count value h => vector.assign_sound al v count value h
  · exact fun new_cap h => vector.reserve_sound al v new_cap hv h
  · exact vector.clear_sound al v hv
  · exact fun pos value r h => vector.insert_sound al v pos r value h
  · exact fun fuel pos count value c hc h =>
      vector.insert_count_sound fuel al v pos count value c hc h
  · exact fun fuel pos range c hc h => vector.insert_range_sound fuel al v pos range c hc h
  · exact fun pos r h => vector.erase_sound al v pos r h
  · exact fun first last r h => vector.erase_range_sound al v first last r h
  · exact fun value h => (vector.push_back_sound al v value hv h).1
  · exact vector.pop_back_sound al v hv
  · exact fun count value hM h => vector.resize_sound al v count value hv hM h
  · exact vector.swap_sound v other hv ho

theorem vector.invariant_on_return_at_sample :
    sample_123.Sound ∧ sample_1.Sound ∧
    (sample_123.push_back sample_alloc (.outside 4)).self.Sound :=
  have h1 : sample_123.Sound := ⟨by decide, by decide⟩
  have h2 : sample_1.Sound := ⟨by decide, by decide⟩
  ⟨h1, h2, (vector.invariant_on_return sample_alloc sample_123 sample_1 h1 h2).2.2.2.2.2.2.2.2.2.2.1
    (.outside 4) (by decide)⟩

/-! ## The single-value form of `insert` against the count form -/

theorem constructStep_slot {T : Type} (idx : Nat) (x : T) (b : Build T)
    (h : (constructStep idx (some x) b).status = .returned ()) :
    (constructStep idx (some x) b).tmp[idx]? = some (some x) := by
  unfold constructStep at h ⊢
  cases hst : b.status with
  | returned u =>
    simp only [hst] at h ⊢
    by_cases hfA : b.alloc.failAfter = some 0
    · simp [Allocator.construct, hfA] at h
    · by_cases hidx : idx < b.tmp.length
      · simp [Allocator.construct, hfA, hidx]
      · simp [Allocator.construct, hfA, hidx] at h
  | threw e => simp [hst] at h
  | undefined => simp [hst] at h

/-- The buffer that `insert(pos, value)` leaves when it returns: slot `k` holds `value`, the
slots after it hold the elements from offset `k` on, and the slots before it hold nothing. -/
theorem vector.insert_slots {T : Type} (al : Allocator) (v : vector T) (k r : Nat) (value : T)
    (hk : k ≤ v._size) (hret : (v.insert al k value).result = .returned r) :
    ∀ j, j ≤ v._size →
      (v.insert al k value).self._data[j]? =
        some (if j < k then none else if j = k then some value else load v._data (j - 1)) := by
  unfold vector.insert at hret ⊢
  generalize (if v._size = v._capacity then size_shl1 v._capacity else v._capacity) = nc
    at hret ⊢
  rcases (allocate_cases al nc :
    (al.allocate nc : Option (Allocator × Buffer T)) = none ∨ _) with ha | ha
  · simp [ha] at hret
  · simp only [ha, Nat.sub_zero] at hret ⊢
    generalize ({ al with allocations := al.allocations + 1,
                          refuseAfter := al.refuseAfter.map (fun k => k - 1) } : Allocator) = a1
      at hret ⊢
    obtain ⟨hst3, hself⟩ := adopt_returned _ _ _ _ _ _ hret
    rw [hself]
    have hfr := constructLoop_frame (fun _ => k) (fun i => load v._data i)
    generalize hb1 : constructLoop (fun _ => k) (fun i => load v._data i) k
      { alloc := a1,
        tmp := List.replicate nc none, i := 0, status := .returned () } = b1 at *
    have hsl := constructStep_slot k value b1
    have hsf := fun j => constructStep_frame k j (some value) b1
    generalize hb2 : constructStep k (some value) b1 = b2 at *
    obtain ⟨hst2, hi3, hl3, hn3, _, hs3⟩ := constructLoop_returned 1 _ _ _ hst3
    have hst2' := hst2
    rw [← hb2] at hst2'
    obtain ⟨hst1, hi2, hl2, hidx⟩ := constructStep_returned _ _ _ hst2'
    have hst1' := hst1
    rw [← hb1] at hst1'
    obtain ⟨_, hi1, hl1, _⟩ := constructLoop_returned_any _ _ _ _ hst1'
    rw [hb1] at hi1 hl1
    rw [hb2] at hi2 hl2
    simp only [zero_add, List.length_replicate] at hi1 hl1
    intro j hj
    show (constructLoop (fun i => i + 1) (fun i => load v._data i) (v._size - b2.i) b2).tmp[j]? = _
    rw [hs3 j, hi2, hi1]
    by_cases h1 : j < k
    · rw [if_neg (by omega), if_pos h1, hsf j (by omega), ← hb1,
        hfr j k _ (fun i _ _ => by omega)]
      simp only [List.getElem?_replicate]
      rw [if_pos (by omega)]
    · by_cases h2 : j = k
      · subst h2
        rw [if_neg (by omega), if_neg h1, if_pos rfl]
        exact hsl hst2
      · rw [if_pos (by omega), if_neg h1, if_neg h2]

/-- On a vector holding `es` with capacity at least 1, `insert(pos, 1, value)` at an offset
`k <= size()` returns when no construction throws and the allocator grants
`2 * (capacity + 1)` elements; the capacity doubles when the vector was full and is unchanged
otherwise, and the vector holds `es[0..k)`, `value`, `es[k..)`. -/
theorem vector.insert_count_one_ok {T : Type} (fuel : Nat) (al : Allocator) (v : vector T)
    (es : List T) (k : Nat) (value : T) (hv : v.Holds es) (hk : k ≤ es.length)
    (hc1 : 1 ≤ v._capacity) (hf : al.failAfter = none) (hmax : al.max_size < SIZE_MODULUS)
    (hroom : 2 * (v._capacity + 1) ≤ al.max_size) (hra : al.refuseAfter = none)
    (hfuel : v._capacity + 2 ≤ fuel) :
    ∃ r, v.insert_count fuel al k 1 value = some r ∧ r.result = .returned () ∧
      r.self._size = es.length + 1 ∧
      r.self._capacity = (if v._size = v._capacity then 2 * v._capacity else v._capacity) ∧
      r.self.Holds (es.take k ++ [value] ++ es.drop k) := by
  obtain ⟨hs, hc, hM, _⟩ := id hv
  have hsl := hv.size_le
  obtain ⟨cap, q1, q2, q3, q4, q5⟩ :=
    vector.insert_new_cap_ok v es 1 al.max_size hv hc1 hmax hroom fuel hfuel
  have hst := vector.insert_fill_ok { al with allocations := al.allocations + 1 } v es k 1 cap
    (fun _ => some value) hv hk hf q3 (by omega) (fun i _ _ => by simp)
  have hfill := vector.insert_fill_returned { al with allocations := al.allocations + 1 }
    v es [value] k cap (fun _ => some value) hv hk (by simp; omega)
    (fun i h1 h2 => by
      simp only [List.length_singleton] at h2
      have : i - k = 0 := by omega
      rw [this]
      rfl)
    hst
  simp only [List.length_singleton] at hfill
  obtain ⟨hl, hslots⟩ := hfill
  have hsz : size_add v._size 1 = es.length + 1 := by
    rw [hs]; exact size_add_eq _ _ (by omega)
  refine ⟨_, by simp only [vector.insert_count, q1, allocate_ok al _ q2 hra]; rfl, ?_⟩
  rw [adopt_ok v _ _ _ _ hst (by omega)]
  refine ⟨rfl, hsz, ?_, ?_⟩
  · show cap = _
    by_cases hfull : v._size = v._capacity
    · rw [if_pos hfull]
      obtain ⟨j, e1, _, e3⟩ := q5 (by omega)
      have h0 := e3 0 (by omega)
      have hp : 1 ≤ 2 ^ j := Nat.one_le_two_pow
      have : 2 * v._capacity * 1 ≤ 2 * v._capacity * 2 ^ j := Nat.mul_le_mul_left _ hp
      omega
    · rw [if_neg hfull]
      exact q4 (by omega)
  · refine vector.Holds.of_slots ?_ hl (show cap < SIZE_MODULUS by omega) ?_
    · show size_add v._size 1 = _
      rw [hsz, length_splice es _ k k hk]
      simp
      omega
    · intro j hj
      rw [length_splice es _ k k hk] at hj
      simp only [List.length_singleton] at hj
      exact hslots j (by omega)

/-- C21: the two forms compared on the code.  On a vector holding `es` with capacity at
least 1, at an offset `k <= size()`, when no construction throws and the allocator grants
`2 * (capacity + 1)` elements, `insert(pos, value)` and `insert(pos, 1, value)` both return
and leave the same size and the same capacity.  The count form leaves `es[0..k)`, `value`,
`es[k..)`.  The single-value form leaves that sequence at `pos == begin()` only: for
`k >= 1` it constructs the elements before `pos` at `tmp + count`, its slots `[0, k)` hold
no element where the count form holds `es[0..k)`, and the two element sequences differ. -/
theorem vector.insert_forms_differ {T : Type} (fuel : Nat) (al : Allocator) (v : vector T)
    (es : List T) (k : Nat) (value : T) (hv : v.Holds es) (hk : k ≤ es.length)
    (hc1 : 1 ≤ v._capacity) (hf : al.failAfter = none) (hmax : al.max_size < SIZE_MODULUS)
    (hroom : 2 * (v._capacity + 1) ≤ al.max_size) (hra : al.refuseAfter = none)
    (hfuel : v._capacity + 2 ≤ fuel) :
    ∃ r, v.insert_count fuel al k 1 value = some r ∧ r.result = .returned () ∧
      (v.insert al k value).result = .returned k ∧
      (v.insert al k value).self.size = r.self.size ∧
      (v.insert al k value).self.capacity = r.self.capacity ∧
      r.self.Holds (es.take k ++ [value] ++ es.drop k) ∧
      (k = 0 → (v.insert al k value).self.Holds (es.take k ++ [value] ++ es.drop k)) ∧
      (1 ≤ k →
        (∀ j, j < k → load (v.insert al k value).self._data j = none ∧
          load r.self._data j = es[j]? ∧ es[j]? ≠ none) ∧
        (v.insert al k value).self.range ≠ r.self.range) := by
  obtain ⟨hs, hc, hM, _⟩ := id hv
  have hsl := hv.size_le
  obtain ⟨r, c1, c2, c3, c4, c5⟩ :=
    vector.insert_count_one_ok fuel al v es k value hv hk hc1 hf hmax hroom hra hfuel
  obtain ⟨s1, s2⟩ := vector.insert_returns al v es k value hv hk hc1 hf hmax hroom hra
  have hslots := vector.insert_slots al v k k value (by omega) s1
  have hsound := vector.insert_sound al v k k value s1
  have hsz : (v.insert al k value).self._size = es.length + 1 := by
    have : (v.insert al k value).self._size = size_add v._size 1 := by
      unfold vector.insert at s1 ⊢
      generalize (if v._size = v._capacity then size_shl1 v._capacity else v._capacity) = nc
        at s1 ⊢
      by_cases hgt : nc > al.max_size
      · simp [Allocator.allocate, hgt] at s1
      · simp only [allocate_ok al nc (by omega) hra] at s1 ⊢
        obtain ⟨_, hself⟩ := adopt_returned _ _ _ _ _ _ s1
        rw [hself]
    rw [this, hs]
    exact size_add_eq _ _ (by omega)
  refine ⟨r, c1, c2, s1, ?_, ?_, c5, ?_, ?_⟩
  · show (v.insert al k value).self._size = r.self._size
    rw [hsz, c3]
  · show (v.insert al k value).self._capacity = r.self._capacity
    rw [s2, c4]
  · intro hk0
    subst hk0
    refine vector.Holds.of_slots ?_ hsound.2 ?_ ?_
    · rw [hsz]; simp
    · rw [s2]
      by_cases hfull : v._size = v._capacity
      · rw [if_pos hfull]; omega
      · rw [if_neg hfull]; omega
    · intro j hj
      simp only [List.take_zero, List.nil_append, List.drop_zero, List.singleton_append,
        List.length_cons] at hj ⊢
      rw [hslots j (by omega), if_neg (by omega)]
      cases j with
      | zero => simp
      | succ j =>
        rw [if_neg (by omega)]
        simp only [Nat.add_sub_cancel, List.getElem?_cons_succ]
        rw [hv.load j (by omega)]
  · intro hk1
    have hraw : ∀ j, j < k → load (v.insert al k value).self._data j = none := by
      intro j hj
      apply load_of_getElem?
      rw [hslots j (by omega), if_pos hj]
    refine ⟨fun j hj => ⟨hraw j hj, ?_, ?_⟩, ?_⟩
    · have := c5.load j (by rw [length_splice es _ k k hk]; omega)
      rw [this, getElem?_splice es _ k k j hk, if_pos hj]
    · rw [List.getElem?_eq_getElem (by omega)]
      simp
    · intro heq
      have h0 := congrArg (fun l => l[0]?) heq
      simp only [vector.range, List.getElem?_map] at h0
      rw [hsz, c3, List.getElem?_range (by omega)] at h0
      simp only [Option.map_some'] at h0
      rw [hraw 0 (by omega), c5.load 0 (by rw [length_splice es _ k k hk]; omega),
        getElem?_splice es _ k k 0 hk, if_pos (by omega),
        List.getElem?_eq_getElem (by omega)] at h0
      simp at h0

/-! ## Further theorems at concrete inputs -/

theorem vector.resize_spec_witness :
    sample_123.Holds [1, 2, 3] ∧
    (sample_123.resize sample_alloc 6 7).result = .returned () ∧
    (sample_123.resize sample_alloc 6 7).self.Holds
      ([1, 2, 3].take 6 ++ List.replicate (6 - 3) 7) ∧
    (sample_123.resize sample_alloc 6 7).self.size = 6 ∧
    (sample_123.resize sample_alloc 1 7).self.Holds ([1, 2, 3].take 1 ++ List.replicate (1 - 3) 7) ∧
    (sample_123.resize sample_alloc 1 7).self.capacity = sample_123.capacity :=
  have h := vector.resize_spec sample_alloc sample_123 [1, 2, 3] 6 7 (by decide) rfl (by decide)
    (by decide) (fun _ => by decide) rfl
  have k := vector.resize_spec sample_alloc sample_123 [1, 2, 3] 1 7 (by decide) rfl (by decide)
    (by decide) (fun h => absurd h (by decide)) rfl
  ⟨by decide, h.1, h.2.1, h.2.2.1, k.2.1, k.2.2.2 (by decide)⟩

theorem lexicographical_compare_correct_witness :
    lexicographical_compare (fun a b : Nat => decide (a < b)) [some 1, some 2]
      [some 1, some 2, some 3] = .returned true ∧
    lexicographical_compare (fun a b : Nat => decide (a < b)) [some 1, some 2, some 3]
      [some 1, some 2] = .returned false ∧
    lexicographical_compare (fun a b : Nat => decide (a < b)) [some 1, some 2]
      [some 1, some 2] = .returned false ∧
    (∃ b, lexicographical_compare (fun a b : Nat => decide (a < b)) [some 1, some 2]
      [some 1, some 2, some 3] = .returned b ∧ (b = true ↔ LexLess [1, 2] [1, 2, 3])) :=
  have h := lexicographical_compare_correct (fun a b : Nat => decide (a < b))
    (fun _ _ => decide_eq_true_iff) [1, 2] [1, 2, 3]
  ⟨by decide, h.2.2.1 [3], h.2.1, h.1⟩

theorem operator_eq_spec_witness :
    sample_123.Holds [1, 2, 3] ∧ sample_1923.Holds [1, 9, 2, 3] ∧
    operator_eq (fun a b : Nat => decide (a = b)) sample_1923 sample_123 = .returned false ∧
    (∃ r, operator_eq (fun a b : Nat => decide (a = b)) sample_123 sample_123 = .returned r ∧
      (r = true ↔ (sample_123.size = sample_123.size ∧
        ∀ (i : Nat) (x y : Nat), [1, 2, 3][i]? = some x → [1, 2, 3][i]? = some y →
          decide (x = y) = true)) ∧
      operator_ne (fun a b : Nat => decide (a = b)) sample_123 sample_123 = .returned (!r)) :=
  ⟨by decide, by decide, by decide,
    operator_eq_spec (fun a b : Nat => decide (a = b)) sample_123 sample_123 [1, 2, 3] [1, 2, 3]
      (by decide) (by decide)⟩

theorem operators_agree_witness :
    operator_lt (fun a b : Nat => decide (a < b)) sample_1923 sample_123 = .returned false ∧
    operator_gt (fun a b : Nat => decide (a < b)) sample_1923 sample_123 = .returned true ∧
    (∃ l e g : Bool,
      operator_lt (fun a b : Nat => decide (a < b)) sample_1923 sample_123 = .returned l ∧
      operator_eq (fun a b : Nat => decide (a = b)) sample_1923 sample_123 = .returned e ∧
      operator_gt (fun a b : Nat => decide (a < b)) sample_1923 sample_123 = .returned g ∧
      operator_le (fun a b : Nat => decide (a < b)) sample_1923 sample_123
        = .returned (l || e) ∧
      operator_gt (fun a b : Nat => decide (a < b)) sample_1923 sample_123 =
        operator_lt (fun a b : Nat => decide (a < b)) sample_123 sample_1923 ∧
      operator_ge (fun a b : Nat => decide (a < b)) sample_1923 sample_123
        = .returned (g || e) ∧
      ((l = true ∧ e = false ∧ g = false) ∨ (l = false ∧ e = true ∧ g = false) ∨
        (l = false ∧ e = false ∧ g = true))) :=
  ⟨by decide, by decide,
    operators_agree (fun a b : Nat => decide (a < b)) (fun a b : Nat => decide (a = b))
      (fun _ _ => decide_eq_true_iff) (fun _ _ => decide_eq_true_iff) sample_1923 sample_123
      [1, 9, 2, 3] [1, 2, 3] (by decide) (by decide)⟩

theorem vector.copy_members_witness :
    sample_123.Holds [1, 2, 3] ∧ sample_1.Holds [1] ∧
    ((vector.copy_ctor sample_alloc sample_123).result = .returned () ∧
      (vector.copy_ctor sample_alloc sample_123).self.Holds [1, 2, 3] ∧
      (vector.copy_ctor sample_alloc sample_123).self.size = sample_123.size ∧
      (vector.copy_ctor sample_alloc sample_123).self.capacity = sample_123.capacity) ∧
    ((sample_1.operator_assign sample_alloc sample_123).result = .returned () ∧
      (sample_1.operator_assign sample_alloc sample_123).self.Holds [1, 2, 3] ∧
      (sample_1.operator_assign sample_alloc sample_123).self.size = sample_123.size ∧
      (sample_1.operator_assign sample_alloc sample_123).self.capacity = sample_123.capacity) :=
  ⟨by decide, by decide,
    vector.copy_members sample_alloc sample_123 sample_1 [1, 2, 3] [1] (by decide) (by decide) rfl
      (by decide) rfl⟩

theorem vector.reserve_twice_witness :
    sample_123.Holds [1, 2, 3] ∧
    (sample_123.reserve sample_alloc 9).result = .returned () ∧
    ((sample_123.reserve sample_alloc 9).self.reserve
      (sample_123.reserve sample_alloc 9).alloc 5).result = .returned () ∧
    ((sample_123.reserve sample_alloc 9).self.reserve
      (sample_123.reserve sample_alloc 9).alloc 5).self.capacity = 9 :=
  have h := vector.reserve_twice sample_alloc sample_123 [1, 2, 3] 5 9 (by decide) (by decide)
    (by decide) (by decide)
  have hr := h.1 rfl (by decide)
  ⟨by decide, hr, (h.2 hr).1, (h.2 hr).2.2.1 (by decide)⟩

theorem vector.insert_loops_on_zero_capacity_witness :
    sample_empty._capacity = 0 ∧
    sample_empty.insert_count 100 sample_alloc 0 1 9 = none ∧
    sample_empty.insert_range 100 sample_alloc 0 [9] = none :=
  ⟨rfl, vector.insert_loops_on_zero_capacity 100 sample_alloc sample_empty 0 1 9 [9] rfl rfl
    (by decide) (by decide) rfl⟩

theorem vector.insert_forms_differ_witness :
    sample_123.Holds [1, 2, 3] ∧
    (sample_123.insert sample_alloc 1 9).self =
      { _data := [none, some 9, some 2, some 3], _size := 4, _capacity := 4 } ∧
    (sample_123.insert_count 10 sample_alloc 1 1 9).map (fun r => r.self) = some sample_1923 ∧
    ∃ r, sample_123.insert_count 10 sample_alloc 1 1 9 = some r ∧ r.result = .returned () ∧
      (sample_123.insert sample_alloc 1 9).result = .returned 1 ∧
      (sample_123.insert sample_alloc 1 9).self.size = r.self.size ∧
      (sample_123.insert sample_alloc 1 9).self.capacity = r.self.capacity ∧
      r.self.Holds [1, 9, 2, 3] ∧
      load (sample_123.insert sample_alloc 1 9).self._data 0 = none ∧
      load r.self._data 0 = some 1 ∧
      (sample_123.insert sample_alloc 1 9).self.range ≠ r.self.range :=
  ⟨by decide, by decide, by decide,
    let ⟨r, h1, h2, h3, h4, h5, h6, _, h8⟩ :=
      vector.insert_forms_differ 10 sample_alloc sample_123 [1, 2, 3] 1 9 (by decide) (by decide)
        (by decide) rfl (by decide) (by decide) rfl (by decide)
    ⟨r, h1, h2, h3, h4, h5, h6, ((h8 (by decide)).1 0 (by decide)).1,
      ((h8 (by decide)).1 0 (by decide)).2.1, (h8 (by decide)).2⟩⟩

end ft
